import Mathlib

/-!
# Verification of the ALE event subsystems

Shallow embedding of the two core subsystems of the ALE (AzerothCore Lua
Engine) module:

* the `EventManager` (header `_ECLIPSE_EVENT_MANAGER_H` and
  `src/LuaEngine/Events/EventManager.cpp`): a type-safe event dispatcher
  holding three handler stores (global / entry / unique), and
* the `TimedEventManager`, which exists in two independently evolved
  variants (the ALE one in `src/LuaEngine/Events/TimedEventManager.cpp`,
  hash-set-backed indices, and the Eclipse one, vector-backed indices with
  swap-and-pop removal).

Unordered maps are modelled as insertion-ordered association lists,
unordered sets as insertion-ordered duplicate-free lists.  Lua callbacks
are opaque values of a type parameter `κ`; the outcome of invoking a
callback during a particular call (success / Lua error / thrown exception,
plus an optional returned value for the `WithReturn` variants) is supplied
to each Trigger/Update operation as an oracle function, which is exactly
the information the C++ code extracts from `sol::protected_function_result`.

Machine integers: handler/event ids are `uint64` counters; their wraparound
(after 2^64 registrations in one process) is not modelled.  `uint32` fields
whose arithmetic can actually be observed (`callCount`, `elapsed`) are
incremented modulo 2^32 via `u32`.
-/

set_option maxHeartbeats 1000000

/-- Truncation to the 32-bit unsigned range, used where the C++ code
performs arithmetic on `uint32` fields. -/
def u32 (n : Nat) : Nat := n % 4294967296

namespace Assoc

variable {α : Type} {β : Type} {γ : Type} [DecidableEq α]

/-- Lookup in an association list modelling `unordered_map::find`
(first matching key). -/
def find? : List (α × β) → α → Option β
  | [], _ => none
  | p :: rest, k => if p.1 = k then some p.2 else find? rest k

/-- Replace the value stored at a key (first match); no effect if the key
is absent.  Models in-place mutation through an `unordered_map` iterator. -/
def set : List (α × β) → α → β → List (α × β)
  | [], _, _ => []
  | p :: rest, k, v => if p.1 = k then (k, v) :: rest else p :: set rest k v

/-- Remove the entry at a key (first match); models `unordered_map::erase`. -/
def eraseKey : List (α × β) → α → List (α × β)
  | [], _ => []
  | p :: rest, k => if p.1 = k then rest else p :: eraseKey rest k

/-- Find-or-create the list stored at a key and append one element to it;
models `m[key].emplace_back(x)` / `m[key].push_back(x)` /
`m[key].insert(x)` on a map from keys to sequences. -/
def appendAt : List (α × List γ) → α → γ → List (α × List γ)
  | [], k, x => [(k, [x])]
  | p :: rest, k, x =>
    if p.1 = k then (p.1, p.2 ++ [x]) :: rest else p :: appendAt rest k x

end Assoc

namespace EvMgr

/-- `EventHandler` (Eclipse EventManager header): a Lua callback wrapper
with execution tracking.  `function` is the opaque callback value,
`shots` the execution limit (0 = infinite), `callCount` the executions so
far, `stateId` the owning Lua state (-1 = all states). -/
structure EventHandler (κ : Type) where
  function : κ
  shots : Nat
  callCount : Nat
  stateId : Int
deriving DecidableEq, Repr

/-- `EventHandler::ShouldExecute`: under shot limit or infinite. -/
def EventHandler.ShouldExecute {κ : Type} (h : EventHandler κ) : Bool :=
  h.shots == 0 || decide (h.callCount < h.shots)

/-- `EventHandler::IsExpired`: shot limit reached. -/
def EventHandler.IsExpired {κ : Type} (h : EventHandler κ) : Bool :=
  decide (0 < h.shots) && decide (h.shots ≤ h.callCount)

/-- `GlobalEventKey`: the `typeid(EventEnum).hash_code()` discriminator
(modelled as an abstract `Nat` tag per enum type) plus the numeric event
value. -/
structure GlobalEventKey where
  eventCategory : Nat
  eventType : Nat
deriving DecidableEq, Repr

/-- `EntryEventKey`: category, event value and template entry id. -/
structure EntryEventKey where
  eventCategory : Nat
  eventType : Nat
  entry : Nat
deriving DecidableEq, Repr

/-- `UniqueEventKey`: category, event value and object GUID. -/
structure UniqueEventKey where
  eventCategory : Nat
  eventType : Nat
  guid : Nat
deriving DecidableEq, Repr

/-- A bucket: `std::vector<std::pair<uint64, EventHandler>>`. -/
abbrev HandlerBucket (κ : Type) := List (Nat × EventHandler κ)

/-- Outcome of invoking a Lua callback once, as observed by the
`WithReturn` trigger paths: `fail` covers both an invalid
`protected_function_result` and a thrown C++ exception; `ok ret` is a
successful call whose result was (`ret = some v`) or was not
(`ret = none`) convertible to the requested return type. -/
inductive CallOutcome (ρ : Type) where
  | fail
  | ok (ret : Option ρ)

/-- `EventManager::ExecuteHandler`: skip handlers over their shot limit,
otherwise invoke the callback; only a successful invocation increments
`callCount` (a Lua error or an exception leaves the handler untouched and
reports `false`). -/
def ExecuteHandler {κ : Type} (run : κ → Bool) (h : EventHandler κ) :
    Bool × EventHandler κ :=
  if h.ShouldExecute then
    if run h.function then (true, { h with callCount := u32 (h.callCount + 1) })
    else (false, h)
  else (false, h)

/-- The handler loop of `TriggerGlobalEvent` / `TriggerEntryEvent` /
`TriggerUniqueEvent`: run `ExecuteHandler` on every pair of the bucket in
order, returning the updated bucket and the ids (in order) of the handlers
that executed successfully. -/
def runHandlers {κ : Type} (run : κ → Bool) :
    HandlerBucket κ → HandlerBucket κ × List Nat
  | [] => ([], [])
  | p :: rest =>
    let r := ExecuteHandler run p.2
    let rr := runHandlers run rest
    ((p.1, r.2) :: rr.1, if r.1 then p.1 :: rr.2 else rr.2)

/-- `EventManager::RemoveExpiredHandlers`: batch-erase the pairs whose
handler reached its shot limit. -/
def RemoveExpiredHandlers {κ : Type} (b : HandlerBucket κ) : HandlerBucket κ :=
  b.filter fun p => !p.2.IsExpired

/-- The shared body of the three plain trigger functions: find the bucket
(missing bucket means 0 executions and no mutation), run all handlers,
then batch-remove expired ones.  Returns the executed count, the updated
map and the ids of the successfully executed handlers. -/
def triggerInMap {α κ : Type} [DecidableEq α] (m : List (α × HandlerBucket κ))
    (k : α) (run : κ → Bool) : Nat × List (α × HandlerBucket κ) × List Nat :=
  match Assoc.find? m k with
  | none => (0, m, [])
  | some b =>
    let r := runHandlers run b
    (r.2.length, Assoc.set m k (RemoveExpiredHandlers r.1), r.2)

/-- The handler loop of `TriggerGlobalEventWithReturn` /
`TriggerEntryEventWithReturn`: handlers over their limit are skipped; a
failing handler is caught and skipped; a successful handler increments
`callCount` and, when its result converts to the requested type, replaces
the running return value.  Returns the updated bucket, the final running
value and the ids of the successful handlers. -/
def runHandlersWR {κ ρ : Type} (run : κ → CallOutcome ρ) :
    HandlerBucket κ → ρ → HandlerBucket κ × ρ × List Nat
  | [], acc => ([], acc, [])
  | p :: rest, acc =>
    if p.2.ShouldExecute then
      match run p.2.function with
      | .fail =>
        let rr := runHandlersWR run rest acc
        (p :: rr.1, rr.2)
      | .ok ret =>
        let h := { p.2 with callCount := u32 (p.2.callCount + 1) }
        let acc' := match ret with
          | some v => v
          | none => acc
        let rr := runHandlersWR run rest acc'
        ((p.1, h) :: rr.1, rr.2.1, p.1 :: rr.2.2)
    else
      let rr := runHandlersWR run rest acc
      (p :: rr.1, rr.2)

/-- Shared body of the two `WithReturn` triggers (on the global and the
entry map): missing bucket returns the default unchanged; otherwise the
bucket is scanned with `runHandlersWR` and pruned. -/
def triggerInMapWR {α κ ρ : Type} [DecidableEq α]
    (m : List (α × HandlerBucket κ)) (k : α) (dflt : ρ) (run : κ → CallOutcome ρ) :
    ρ × List (α × HandlerBucket κ) × List Nat :=
  match Assoc.find? m k with
  | none => (dflt, m, [])
  | some b =>
    let r := runHandlersWR run b dflt
    (r.2.1, Assoc.set m k (RemoveExpiredHandlers r.1), r.2.2)

/-- Does a bucket contain a pair with the given handler id? -/
def bucketHasId {κ : Type} (b : HandlerBucket κ) (i : Nat) : Bool :=
  b.any fun p => p.1 == i

/-- Erase the first pair with the given handler id from a bucket
(`std::find_if` + `erase`). -/
def bucketEraseId {κ : Type} : HandlerBucket κ → Nat → HandlerBucket κ
  | [], _ => []
  | p :: rest, i => if p.1 == i then rest else p :: bucketEraseId rest i

/-- `EventManager::FindAndCancelHandler`: scan the buckets of one map in
order; in the first bucket containing the id, erase that single pair and
report success; otherwise report failure without mutating. -/
def FindAndCancelHandler {α κ : Type} :
    List (α × HandlerBucket κ) → Nat → Option (List (α × HandlerBucket κ))
  | [], _ => none
  | (k, b) :: rest, i =>
    if bucketHasId b i then some ((k, bucketEraseId b i) :: rest)
    else
      match FindAndCancelHandler rest i with
      | some rest' => some ((k, b) :: rest')
      | none => none

/-- `EventManager::CancelStateHandlersInMap`: in every bucket, batch-erase
the pairs whose handler has the given `stateId` (the cancelled count is
used only for logging and is not modelled). -/
def CancelStateHandlersInMap {α κ : Type} (m : List (α × HandlerBucket κ))
    (sid : Int) : List (α × HandlerBucket κ) :=
  m.map fun kb => (kb.1, kb.2.filter fun p => !(p.2.stateId == sid))

/-- The full `EventManager` state: three keyed handler stores, the
monotonic id counter and the `m_initialized` flag. -/
structure EMState (κ : Type) where
  globalHandlers : List (GlobalEventKey × HandlerBucket κ)
  entryHandlers : List (EntryEventKey × HandlerBucket κ)
  uniqueHandlers : List (UniqueEventKey × HandlerBucket κ)
  nextHandlerId : Nat
  initialized : Bool
deriving DecidableEq

/-- The state produced by the `EventManager` constructor:
`m_nextHandlerId(1), m_initialized(false)` and empty stores. -/
def emNew {κ : Type} : EMState κ := ⟨[], [], [], 1, false⟩

/-- `EventManager::Initialize`: a second call is a no-op returning `true`;
the first call (or a call after `Shutdown`) resets `m_nextHandlerId` to 1
and sets the flag. -/
def Init {κ : Type} (st : EMState κ) : Bool × EMState κ :=
  if st.initialized then (true, st)
  else (true, { st with nextHandlerId := 1, initialized := true })

/-- `EventManager::CancelAllEvents`: clear all three stores. -/
def CancelAllEvents {κ : Type} (st : EMState κ) : EMState κ :=
  { st with globalHandlers := [], entryHandlers := [], uniqueHandlers := [] }

/-- `EventManager::Shutdown`: when initialized, cancel everything and drop
the flag (the id counter is left as is; the next `Init` resets it). -/
def Shutdown {κ : Type} (st : EMState κ) : EMState κ :=
  if st.initialized then
    { CancelAllEvents st with initialized := false }
  else st

/-- `EventManager::RegisterGlobalEvent`: generate the next id
(`m_nextHandlerId++`) and append a fresh handler (callCount 0) to the
bucket of the key. -/
def RegisterGlobalEvent {κ : Type} (st : EMState κ) (cat ty : Nat) (cb : κ)
    (shots : Nat) (sid : Int) : Nat × EMState κ :=
  let i := st.nextHandlerId
  (i, { st with
        globalHandlers := Assoc.appendAt st.globalHandlers ⟨cat, ty⟩ (i, ⟨cb, shots, 0, sid⟩),
        nextHandlerId := i + 1 })

/-- `EventManager::RegisterEntryEvent`. -/
def RegisterEntryEvent {κ : Type} (st : EMState κ) (cat ty entry : Nat) (cb : κ)
    (shots : Nat) (sid : Int) : Nat × EMState κ :=
  let i := st.nextHandlerId
  (i, { st with
        entryHandlers := Assoc.appendAt st.entryHandlers ⟨cat, ty, entry⟩ (i, ⟨cb, shots, 0, sid⟩),
        nextHandlerId := i + 1 })

/-- `EventManager::RegisterUniqueEvent`. -/
def RegisterUniqueEvent {κ : Type} (st : EMState κ) (cat ty guid : Nat) (cb : κ)
    (shots : Nat) (sid : Int) : Nat × EMState κ :=
  let i := st.nextHandlerId
  (i, { st with
        uniqueHandlers := Assoc.appendAt st.uniqueHandlers ⟨cat, ty, guid⟩ (i, ⟨cb, shots, 0, sid⟩),
        nextHandlerId := i + 1 })

/-- `EventManager::TriggerGlobalEvent`: build the key from the category
tag and event value, dispatch into the global store.  Returns the number
of successfully executed handlers, the new state, and (for specification
purposes) the ids that executed. -/
def TriggerGlobalEvent {κ : Type} (st : EMState κ) (cat ty : Nat)
    (run : κ → Bool) : Nat × EMState κ × List Nat :=
  let r := triggerInMap st.globalHandlers ⟨cat, ty⟩ run
  (r.1, { st with globalHandlers := r.2.1 }, r.2.2)

/-- `EventManager::TriggerEntryEvent`. -/
def TriggerEntryEvent {κ : Type} (st : EMState κ) (cat ty entry : Nat)
    (run : κ → Bool) : Nat × EMState κ × List Nat :=
  let r := triggerInMap st.entryHandlers ⟨cat, ty, entry⟩ run
  (r.1, { st with entryHandlers := r.2.1 }, r.2.2)

/-- `EventManager::TriggerUniqueEvent`. -/
def TriggerUniqueEvent {κ : Type} (st : EMState κ) (cat ty guid : Nat)
    (run : κ → Bool) : Nat × EMState κ × List Nat :=
  let r := triggerInMap st.uniqueHandlers ⟨cat, ty, guid⟩ run
  (r.1, { st with uniqueHandlers := r.2.1 }, r.2.2)

/-- `EventManager::TriggerGlobalEventWithReturn`: same fan-out as the
plain trigger, but a successful handler whose result converts to the
requested type replaces the running return value (last producer wins);
`defaultValue` is returned unchanged when no bucket exists or no handler
produced a value. -/
def TriggerGlobalEventWithReturn {κ ρ : Type} (st : EMState κ) (cat ty : Nat)
    (dflt : ρ) (run : κ → CallOutcome ρ) : ρ × EMState κ × List Nat :=
  let r := triggerInMapWR st.globalHandlers ⟨cat, ty⟩ dflt run
  (r.1, { st with globalHandlers := r.2.1 }, r.2.2)

/-- `EventManager::TriggerEntryEventWithReturn`. -/
def TriggerEntryEventWithReturn {κ ρ : Type} (st : EMState κ) (cat ty entry : Nat)
    (dflt : ρ) (run : κ → CallOutcome ρ) : ρ × EMState κ × List Nat :=
  let r := triggerInMapWR st.entryHandlers ⟨cat, ty, entry⟩ dflt run
  (r.1, { st with entryHandlers := r.2.1 }, r.2.2)

/-- `EventManager::CancelEvent`: search the three stores in order
(global, entry, unique); report whether a handler was found and erased. -/
def CancelEvent {κ : Type} (st : EMState κ) (i : Nat) : Bool × EMState κ :=
  match FindAndCancelHandler st.globalHandlers i with
  | some g => (true, { st with globalHandlers := g })
  | none =>
    match FindAndCancelHandler st.entryHandlers i with
    | some e => (true, { st with entryHandlers := e })
    | none =>
      match FindAndCancelHandler st.uniqueHandlers i with
      | some u => (true, { st with uniqueHandlers := u })
      | none => (false, st)

/-- `EventManager::CancelGlobalEvent`: drop the entire bucket of a key. -/
def CancelGlobalEvent {κ : Type} (st : EMState κ) (cat ty : Nat) : EMState κ :=
  { st with globalHandlers := Assoc.eraseKey st.globalHandlers ⟨cat, ty⟩ }

/-- `EventManager::CancelEntryEvent`. -/
def CancelEntryEvent {κ : Type} (st : EMState κ) (cat ty entry : Nat) : EMState κ :=
  { st with entryHandlers := Assoc.eraseKey st.entryHandlers ⟨cat, ty, entry⟩ }

/-- `EventManager::CancelUniqueEvent`. -/
def CancelUniqueEvent {κ : Type} (st : EMState κ) (cat ty guid : Nat) : EMState κ :=
  { st with uniqueHandlers := Assoc.eraseKey st.uniqueHandlers ⟨cat, ty, guid⟩ }

/-- `EventManager::CancelStateEvents`: remove all handlers matching the
state id across all three stores. -/
def CancelStateEvents {κ : Type} (st : EMState κ) (sid : Int) : EMState κ :=
  { st with
    globalHandlers := CancelStateHandlersInMap st.globalHandlers sid,
    entryHandlers := CancelStateHandlersInMap st.entryHandlers sid,
    uniqueHandlers := CancelStateHandlersInMap st.uniqueHandlers sid }

end EvMgr

namespace EvMgr

/-- One call on the `EventManager` API, as used by the trace properties:
the Register / Trigger / Cancel entry points (`Initialize` / `Shutdown`
are modelled as separate functions, since the trace claims quantify over
Register/Trigger/Cancel sequences only).  Trigger operations carry the
oracle describing how each callback behaves on this particular call. -/
inductive EMOp (κ ρ : Type) where
  | registerGlobal (cat ty : Nat) (cb : κ) (shots : Nat) (sid : Int)
  | registerEntry (cat ty entry : Nat) (cb : κ) (shots : Nat) (sid : Int)
  | registerUnique (cat ty guid : Nat) (cb : κ) (shots : Nat) (sid : Int)
  | triggerGlobal (cat ty : Nat) (run : κ → Bool)
  | triggerEntry (cat ty entry : Nat) (run : κ → Bool)
  | triggerUnique (cat ty guid : Nat) (run : κ → Bool)
  | triggerGlobalWR (cat ty : Nat) (dflt : ρ) (run : κ → CallOutcome ρ)
  | triggerEntryWR (cat ty entry : Nat) (dflt : ρ) (run : κ → CallOutcome ρ)
  | cancelEvent (i : Nat)
  | cancelGlobal (cat ty : Nat)
  | cancelEntry (cat ty entry : Nat)
  | cancelUnique (cat ty guid : Nat)
  | cancelState (sid : Int)
  | cancelAll

/-- Apply one API call to the state.  The second component records the ids
of the handlers that executed successfully during the call (empty for
non-trigger calls). -/
def EMStep {κ ρ : Type} (st : EMState κ) : EMOp κ ρ → EMState κ × List Nat
  | .registerGlobal cat ty cb shots sid => ((RegisterGlobalEvent st cat ty cb shots sid).2, [])
  | .registerEntry cat ty entry cb shots sid => ((RegisterEntryEvent st cat ty entry cb shots sid).2, [])
  | .registerUnique cat ty guid cb shots sid => ((RegisterUniqueEvent st cat ty guid cb shots sid).2, [])
  | .triggerGlobal cat ty run =>
    let r := TriggerGlobalEvent st cat ty run
    (r.2.1, r.2.2)
  | .triggerEntry cat ty entry run =>
    let r := TriggerEntryEvent st cat ty entry run
    (r.2.1, r.2.2)
  | .triggerUnique cat ty guid run =>
    let r := TriggerUniqueEvent st cat ty guid run
    (r.2.1, r.2.2)
  | .triggerGlobalWR cat ty dflt run =>
    let r := TriggerGlobalEventWithReturn st cat ty dflt run
    (r.2.1, r.2.2)
  | .triggerEntryWR cat ty entry dflt run =>
    let r := TriggerEntryEventWithReturn st cat ty entry dflt run
    (r.2.1, r.2.2)
  | .cancelEvent i => ((CancelEvent st i).2, [])
  | .cancelGlobal cat ty => (CancelGlobalEvent st cat ty, [])
  | .cancelEntry cat ty entry => (CancelEntryEvent st cat ty entry, [])
  | .cancelUnique cat ty guid => (CancelUniqueEvent st cat ty guid, [])
  | .cancelState sid => (CancelStateEvents st sid, [])
  | .cancelAll => (CancelAllEvents st, [])

/-- Run a sequence of API calls, concatenating the successful-execution
id lists of every call. -/
def execTrace {κ ρ : Type} (st : EMState κ) : List (EMOp κ ρ) → EMState κ × List Nat
  | [] => (st, [])
  | op :: tr =>
    let r := EMStep st op
    let rr := execTrace r.1 tr
    (rr.1, r.2 ++ rr.2)

/-- The id issued by a register call, `none` for the other calls; used to
state id-uniqueness properties.  The issued id of every register kind is
the current `m_nextHandlerId`. -/
def issuedId {κ ρ : Type} (st : EMState κ) : EMOp κ ρ → Option Nat
  | .registerGlobal _ _ _ _ _ => some st.nextHandlerId
  | .registerEntry _ _ _ _ _ _ => some st.nextHandlerId
  | .registerUnique _ _ _ _ _ _ => some st.nextHandlerId
  | _ => none

/-- The ids returned by the register calls of a trace, in call order. -/
def issuedIds {κ ρ : Type} (st : EMState κ) : List (EMOp κ ρ) → List Nat
  | [] => []
  | op :: tr =>
    let rest := issuedIds (EMStep st op).1 tr
    match issuedId st op with
    | some i => i :: rest
    | none => rest

/-- The shots value of a register operation (`none` for other calls). -/
def regShots {κ ρ : Type} : EMOp κ ρ → Option Nat
  | .registerGlobal _ _ _ shots _ => some shots
  | .registerEntry _ _ _ _ shots _ => some shots
  | .registerUnique _ _ _ _ shots _ => some shots
  | _ => none

/-- All `(id, handler)` pairs stored in one map, bucket by bucket. -/
def mapPairs {α κ : Type} (m : List (α × HandlerBucket κ)) :
    List (Nat × EventHandler κ) :=
  (m.map Prod.snd).flatten

/-- All `(id, handler)` pairs stored anywhere in the manager. -/
def statePairs {κ : Type} (st : EMState κ) : List (Nat × EventHandler κ) :=
  mapPairs st.globalHandlers ++ mapPairs st.entryHandlers ++ mapPairs st.uniqueHandlers

/-- All handler ids present anywhere in the manager. -/
def stateIds {κ : Type} (st : EMState κ) : List Nat :=
  (statePairs st).map Prod.fst

/-- Number of stored pairs carrying a given id. -/
def occCount {κ : Type} (st : EMState κ) (i : Nat) : Nat :=
  (stateIds st).count i

/-- The handler records stored under a given id, in store order. -/
def recordsOf {κ : Type} (st : EMState κ) (i : Nat) : List (EventHandler κ) :=
  ((statePairs st).filter fun p => p.1 == i).map Prod.snd

/-- Every stored id is below the id counter; holds in every reachable
state and guarantees freshness of newly issued ids. -/
def IdsBounded {κ : Type} (st : EMState κ) : Prop :=
  ∀ i ∈ stateIds st, i < st.nextHandlerId

/-- No two stored pairs share an id (uniqueness of handler ids). -/
def UniqueIds {κ : Type} (st : EMState κ) : Prop := (stateIds st).Nodup

instance {κ : Type} (st : EMState κ) : Decidable (IdsBounded st) := by
  unfold IdsBounded; infer_instance

instance {κ : Type} (st : EMState κ) : Decidable (UniqueIds st) := by
  unfold UniqueIds; infer_instance

end EvMgr

namespace TimedMgr

/-- `TimedEventObjectType`: discriminator for how a scheduled callback is
invoked and which live object is passed. -/
inductive TimedEventObjectType where
  | GLOBAL
  | PLAYER
  | CREATURE
  | GAMEOBJECT
deriving DecidableEq, Repr

/-- `TimedEvent`: one scheduled callback with its delay/repeat/elapsed
state.  `objectGuid` is meaningful only for non-GLOBAL events. -/
structure TimedEvent (κ : Type) where
  id : Nat
  callback : κ
  delay : Nat
  repeats : Nat
  remainingRepeats : Nat
  elapsed : Nat
  objectGuid : Nat
  objectType : TimedEventObjectType
deriving DecidableEq, Repr

/-- The `TimedEventManager` state shared by both variants: the main
id-keyed event store `m_events`, the per-object index `m_objectEvents`,
the global index `m_globalEvents` and the monotonic id counter.  In the
ALE variant the indices are hash sets (modelled as insertion-ordered
duplicate-free lists); in the Eclipse variant they are vectors — the same
Lean type, with a different removal discipline. -/
structure TEMState (κ : Type) where
  events : List (Nat × TimedEvent κ)
  objectEvents : List (Nat × List Nat)
  globalEvents : List Nat
  nextEventId : Nat
deriving DecidableEq

/-- The state produced by the constructor (`m_nextEventId(1)`); the stored
`m_mapId` only feeds log lines and is not modelled. -/
def temNew {κ : Type} : TEMState κ := ⟨[], [], [], 1⟩

/-- `TimedEventManager::Clear` (both variants): drop everything and reset
the id counter to 1. -/
def Clear {κ : Type} (_st : TEMState κ) : TEMState κ := ⟨[], [], [], 1⟩

/-- `RegisterGlobalEvent` (both variants): next id, fresh record
(remainingRepeats = repeats, elapsed = 0), id added to the global index
(`insert` on the ALE set, `push_back` on the Eclipse vector: both append
a fresh id in the model). -/
def RegisterGlobalEvent {κ : Type} (st : TEMState κ) (cb : κ)
    (delay repeats : Nat) : Nat × TEMState κ :=
  let i := st.nextEventId
  (i, { st with
        events := st.events ++ [(i, ⟨i, cb, delay, repeats, repeats, 0, 0, .GLOBAL⟩)],
        globalEvents := st.globalEvents ++ [i],
        nextEventId := i + 1 })

/-- `RegisterObjectEvent` (both variants): as above, but the record is
bound to an object GUID and the id goes into that object's index entry. -/
def RegisterObjectEvent {κ : Type} (st : TEMState κ) (guid : Nat) (cb : κ)
    (delay repeats : Nat) (ot : TimedEventObjectType) : Nat × TEMState κ :=
  let i := st.nextEventId
  (i, { st with
        events := st.events ++ [(i, ⟨i, cb, delay, repeats, repeats, 0, guid, ot⟩)],
        objectEvents := Assoc.appendAt st.objectEvents guid i,
        nextEventId := i + 1 })

/-- Removal of one id from an index list, ALE variant:
`unordered_set::erase` — drop the element, keeping the rest in place. -/
def eraseIdx (l : List Nat) (i : Nat) : List Nat := l.erase i

/-- Removal of one id from an index list, Eclipse variant: `std::find`,
swap the found element with the back of the vector, `pop_back`. -/
def swapPopIdx (l : List Nat) (i : Nat) : List Nat :=
  if h : i ∈ l then
    (l.set (l.indexOf i) (l.getLast (List.ne_nil_of_mem h))).dropLast
  else l

/-- `RemoveEvent`, parametrized by the index-removal discipline `rm`
(ALE: `eraseIdx`, Eclipse: `swapPopIdx`); everything else is identical in
the two sources: look the id up in `m_events` (`false` when absent),
remove it from the global index or from its object's index entry (erasing
that entry when it becomes empty), then erase the record. -/
def RemoveEventWith {κ : Type} (rm : List Nat → Nat → List Nat)
    (st : TEMState κ) (i : Nat) : Bool × TEMState κ :=
  match Assoc.find? st.events i with
  | none => (false, st)
  | some ev =>
    let st₁ :=
      if ev.objectType = .GLOBAL then
        { st with globalEvents := rm st.globalEvents i }
      else
        match Assoc.find? st.objectEvents ev.objectGuid with
        | none => st
        | some l =>
          let l' := rm l i
          if l' = [] then
            { st with objectEvents := Assoc.eraseKey st.objectEvents ev.objectGuid }
          else
            { st with objectEvents := Assoc.set st.objectEvents ev.objectGuid l' }
    (true, { st₁ with events := Assoc.eraseKey st₁.events i })

/-- `RemoveObjectEvents` (both variants): erase every record indexed under
the GUID from `m_events`, then drop the index entry. -/
def RemoveObjectEvents {κ : Type} (st : TEMState κ) (guid : Nat) : TEMState κ :=
  match Assoc.find? st.objectEvents guid with
  | none => st
  | some l =>
    { st with
      events := l.foldl (fun es i => Assoc.eraseKey es i) st.events,
      objectEvents := Assoc.eraseKey st.objectEvents guid }

/-- `RemoveAllGlobalEvents` (both variants): erase every record indexed in
the global index from `m_events`, then clear the index. -/
def RemoveAllGlobalEvents {κ : Type} (st : TEMState κ) : TEMState κ :=
  { st with
    events := st.globalEvents.foldl (fun es i => Assoc.eraseKey es i) st.events,
    globalEvents := [] }

/-- One iteration of the update loop (`UpdateEventList` in the ALE
variant, the identical inlined loops of `Update` / `UpdateObjectEvents` in
the Eclipse variant) for one indexed id: skip ids whose record was removed
externally; otherwise advance `elapsed` (uint32), and when it reaches
`delay`, execute the callback (`fire` reports whether the callback ran
successfully — the result does not influence any bookkeeping, mirroring
`ExecuteEvent`'s error handling), reset `elapsed`, and for finite-repeat
records decrement `remainingRepeats`, queueing the record for removal when
it reaches 0.  The accumulator carries (events, fired-observations,
ids-to-remove). -/
def scanStep {κ : Type} (d : Nat) (fire : Nat → Bool)
    (acc : List (Nat × TimedEvent κ) × List (Nat × Bool) × List Nat)
    (i : Nat) : List (Nat × TimedEvent κ) × List (Nat × Bool) × List Nat :=
  match Assoc.find? acc.1 i with
  | none => acc
  | some ev =>
    let ev₁ := { ev with elapsed := u32 (ev.elapsed + d) }
    if ev₁.delay ≤ ev₁.elapsed then
      let ev₂ := { ev₁ with elapsed := 0 }
      if 0 < ev₂.repeats then
        let ev₃ := { ev₂ with remainingRepeats := ev₂.remainingRepeats - 1 }
        (Assoc.set acc.1 i ev₃,
         acc.2.1 ++ [(i, fire i)],
         if ev₃.remainingRepeats = 0 then acc.2.2 ++ [i] else acc.2.2)
      else
        (Assoc.set acc.1 i ev₂, acc.2.1 ++ [(i, fire i)], acc.2.2)
    else
      (Assoc.set acc.1 i ev₁, acc.2.1, acc.2.2)

/-- The full scan phase over an index list. -/
def scanIds {κ : Type} (d : Nat) (fire : Nat → Bool)
    (evs : List (Nat × TimedEvent κ)) (ids : List Nat) :
    List (Nat × TimedEvent κ) × List (Nat × Bool) × List Nat :=
  ids.foldl (scanStep d fire) (evs, [], [])

/-- `Update` (global tick), parametrized by the removal discipline: early
exit on an empty global index, otherwise scan every indexed id and then
batch-remove the expired records via `RemoveEvent`.  Returns the new state
and the fired observations `(id, callback succeeded)`. -/
def UpdateWith {κ : Type} (rm : List Nat → Nat → List Nat)
    (st : TEMState κ) (d : Nat) (fire : Nat → Bool) :
    TEMState κ × List (Nat × Bool) :=
  if st.globalEvents = [] then (st, [])
  else
    let r := scanIds d fire st.events st.globalEvents
    let st₁ := { st with events := r.1 }
    (r.2.2.foldl (fun s i => (RemoveEventWith rm s i).2) st₁, r.2.1)

/-- `UpdateObjectEvents`, parametrized by the removal discipline: look up
the object's index entry (missing entry: no effect), scan it, then
batch-remove expired records. -/
def UpdateObjectEventsWith {κ : Type} (rm : List Nat → Nat → List Nat)
    (st : TEMState κ) (guid : Nat) (d : Nat) (fire : Nat → Bool) :
    TEMState κ × List (Nat × Bool) :=
  match Assoc.find? st.objectEvents guid with
  | none => (st, [])
  | some l =>
    let r := scanIds d fire st.events l
    let st₁ := { st with events := r.1 }
    (r.2.2.foldl (fun s i => (RemoveEventWith rm s i).2) st₁, r.2.1)

/-- One call on the `TimedEventManager` API (the operations named by the
equivalence claim).  Update operations carry the callback-outcome oracle
(by event id). -/
inductive TEOp (κ : Type) where
  | registerGlobal (cb : κ) (delay repeats : Nat)
  | registerObject (guid : Nat) (cb : κ) (delay repeats : Nat) (ot : TimedEventObjectType)
  | removeEvent (i : Nat)
  | removeObjectEvents (guid : Nat)
  | removeAllGlobal
  | update (d : Nat) (fire : Nat → Bool)
  | updateObject (guid : Nat) (d : Nat) (fire : Nat → Bool)

/-- Apply one API call using removal discipline `rm`; the observation is
the fired list for update calls ([] otherwise). -/
def TEStep {κ : Type} (rm : List Nat → Nat → List Nat) (st : TEMState κ) :
    TEOp κ → TEMState κ × List (Nat × Bool)
  | .registerGlobal cb delay repeats => ((RegisterGlobalEvent st cb delay repeats).2, [])
  | .registerObject guid cb delay repeats ot => ((RegisterObjectEvent st guid cb delay repeats ot).2, [])
  | .removeEvent i => ((RemoveEventWith rm st i).2, [])
  | .removeObjectEvents guid => (RemoveObjectEvents st guid, [])
  | .removeAllGlobal => (RemoveAllGlobalEvents st, [])
  | .update d fire => UpdateWith rm st d fire
  | .updateObject guid d fire => UpdateObjectEventsWith rm st guid d fire

/-- Run a call sequence, collecting one observation per call. -/
def runTrace {κ : Type} (rm : List Nat → Nat → List Nat) (st : TEMState κ) :
    List (TEOp κ) → TEMState κ × List (List (Nat × Bool))
  | [] => (st, [])
  | op :: tr =>
    let r := TEStep rm st op
    let rr := runTrace rm r.1 tr
    (rr.1, r.2 :: rr.2)

/-- The ALE variant of the whole manager. -/
def runALE {κ : Type} (st : TEMState κ) (tr : List (TEOp κ)) :
    TEMState κ × List (List (Nat × Bool)) := runTrace eraseIdx st tr

/-- The Eclipse variant of the whole manager. -/
def runEcl {κ : Type} (st : TEMState κ) (tr : List (TEOp κ)) :
    TEMState κ × List (List (Nat × Bool)) := runTrace swapPopIdx st tr

/-- The ids issued by the register calls of a trace, in call order
(both variants issue from the same counter). -/
def temIssuedIds {κ : Type} (rm : List Nat → Nat → List Nat) (st : TEMState κ) :
    List (TEOp κ) → List Nat
  | [] => []
  | op :: tr =>
    let rest := temIssuedIds rm (TEStep rm st op).1 tr
    match op with
    | .registerGlobal _ _ _ => st.nextEventId :: rest
    | .registerObject _ _ _ _ _ => st.nextEventId :: rest
    | _ => rest

end TimedMgr

/-! ## Association-list lemmas -/

namespace Assoc

variable {α : Type} {β : Type} {γ : Type} [DecidableEq α]

theorem find?_decomp {m : List (α × β)} {k : α} {b : β}
    (h : find? m k = some b) :
    ∃ m₁ m₂, m = m₁ ++ (k, b) :: m₂ ∧ find? m₁ k = none := by
  induction m with
  | nil => simp [find?] at h
  | cons p rest ih =>
    by_cases hk : p.1 = k
    · refine ⟨[], rest, ?_, rfl⟩
      simp [find?, hk] at h
      simp [← hk, ← h]
    · simp only [find?, if_neg hk] at h
      obtain ⟨m₁, m₂, hm, hnone⟩ := ih h
      exact ⟨p :: m₁, m₂, by simp [hm], by simp [find?, hk, hnone]⟩

theorem set_of_decomp {m₁ m₂ : List (α × β)} {k : α} {b : β} (v : β)
    (h : find? m₁ k = none) :
    set (m₁ ++ (k, b) :: m₂) k v = m₁ ++ (k, v) :: m₂ := by
  induction m₁ with
  | nil => simp [set]
  | cons p rest ih =>
    by_cases hk : p.1 = k
    · simp [find?, hk] at h
    · simp only [find?, if_neg hk] at h
      simp [set, hk, ih h]

theorem find?_set_ne (m : List (α × β)) {k k' : α} (v : β) (h : k ≠ k') :
    find? (set m k v) k' = find? m k' := by
  induction m with
  | nil => simp [set]
  | cons p rest ih =>
    by_cases hk : p.1 = k
    · simp [set, find?, hk, h, ih]
    · simp [set, find?, hk, ih]

theorem find?_set_self {m : List (α × β)} {k : α} {b : β} (v : β)
    (h : find? m k = some b) :
    find? (set m k v) k = some v := by
  induction m with
  | nil => simp [find?] at h
  | cons p rest ih =>
    by_cases hk : p.1 = k
    · simp [set, find?, hk]
    · simp only [find?, if_neg hk] at h
      simp [set, find?, hk, ih h]

theorem find?_eraseKey_ne (m : List (α × β)) {k k' : α} (h : k ≠ k') :
    find? (eraseKey m k) k' = find? m k' := by
  induction m with
  | nil => simp [eraseKey]
  | cons p rest ih =>
    by_cases hk : p.1 = k
    · simp [eraseKey, find?, hk, if_neg h]
    · simp [eraseKey, find?, hk, ih]

theorem find?_map {m : List (α × β)} (f : β → γ) (k : α) :
    find? (m.map fun kb => (kb.1, f kb.2)) k = (find? m k).map f := by
  induction m with
  | nil => simp [find?]
  | cons p rest ih =>
    by_cases hk : p.1 = k
    · simp [find?, hk]
    · simp [find?, hk, ih]

end Assoc

/-! ## EventManager: bucket-level lemmas -/

namespace EvMgr

variable {κ ρ : Type} {α : Type}

set_option linter.unusedSectionVars false

theorem shouldExecute_iff_not_expired (h : EventHandler κ) :
    h.ShouldExecute = !h.IsExpired := by
  unfold EventHandler.ShouldExecute EventHandler.IsExpired
  rcases Nat.eq_zero_or_pos h.shots with hs | hs
  · simp [hs]
  · have hs' : h.shots ≠ 0 := Nat.pos_iff_ne_zero.mp hs
    by_cases hc : h.callCount < h.shots
    · simp [hs, hs', hc, Nat.not_le.mpr hc]
    · simp [hs, hs', hc, Nat.le_of_not_lt hc]

theorem runHandlers_fst (run : κ → Bool) (b : HandlerBucket κ) :
    (runHandlers run b).1 = b.map fun p => (p.1, (ExecuteHandler run p.2).2) := by
  induction b with
  | nil => rfl
  | cons p rest ih => simp [runHandlers, ih]

theorem runHandlers_snd (run : κ → Bool) (b : HandlerBucket κ) :
    (runHandlers run b).2 =
      (b.filter fun p => (ExecuteHandler run p.2).1).map Prod.fst := by
  induction b with
  | nil => rfl
  | cons p rest ih =>
    simp only [runHandlers, ih, List.filter_cons]
    by_cases hr : (ExecuteHandler run p.2).1
    · simp [hr]
    · simp [hr]

theorem runHandlers_append (run : κ → Bool) (b₁ b₂ : HandlerBucket κ) :
    runHandlers run (b₁ ++ b₂) =
      ((runHandlers run b₁).1 ++ (runHandlers run b₂).1,
       (runHandlers run b₁).2 ++ (runHandlers run b₂).2) := by
  induction b₁ with
  | nil => simp [runHandlers]
  | cons p rest ih =>
    simp only [List.cons_append, runHandlers]
    by_cases hr : (ExecuteHandler run p.2).1 <;> simp [hr, ih]

theorem runHandlers_execs_subset (run : κ → Bool) (b : HandlerBucket κ) :
    ∀ j ∈ (runHandlers run b).2, j ∈ b.map Prod.fst := by
  intro j hj
  rw [runHandlers_snd] at hj
  rcases List.mem_map.mp hj with ⟨p, hp, hpe⟩
  exact List.mem_map.mpr ⟨p, (List.mem_filter.mp hp).1, hpe⟩

theorem executeHandler_fail (run : κ → Bool) (h : EventHandler κ)
    (hfail : run h.function = false) : ExecuteHandler run h = (false, h) := by
  unfold ExecuteHandler
  by_cases hs : h.ShouldExecute <;> simp [hs, hfail]

/-! ### mapPairs lemmas -/

theorem mapPairs_append (m₁ m₂ : List (α × HandlerBucket κ)) :
    mapPairs (m₁ ++ m₂) = mapPairs m₁ ++ mapPairs m₂ := by
  simp [mapPairs]

theorem mapPairs_cons (p : α × HandlerBucket κ) (m : List (α × HandlerBucket κ)) :
    mapPairs (p :: m) = p.2 ++ mapPairs m := by
  simp [mapPairs]

theorem mapPairs_appendAt [DecidableEq α] (m : List (α × HandlerBucket κ)) (k : α)
    (p : Nat × EventHandler κ) :
    List.Perm (mapPairs (Assoc.appendAt m k p)) (p :: mapPairs m) := by
  induction m with
  | nil => simp [Assoc.appendAt, mapPairs]
  | cons q rest ih =>
    by_cases hk : q.1 = k
    · simp only [Assoc.appendAt, if_pos hk, mapPairs_cons]
      have h1 : List.Perm ((q.2 ++ [p]) ++ mapPairs rest) ((p :: q.2) ++ mapPairs rest) :=
        List.Perm.append_right _ (List.perm_append_singleton p q.2)
      exact h1
    · simp only [Assoc.appendAt, if_neg hk, mapPairs_cons]
      exact (List.Perm.append_left _ ih).trans List.perm_middle

theorem bucketEraseId_sublist (b : HandlerBucket κ) (i : Nat) :
    List.Sublist (bucketEraseId b i) b := by
  induction b with
  | nil => simp [bucketEraseId]
  | cons p rest ih =>
    by_cases hp : p.1 == i
    · simp only [bucketEraseId, hp, if_true]
      exact List.sublist_cons_self p rest
    · simpa [bucketEraseId, hp] using List.Sublist.cons₂ p ih

theorem findAndCancel_sublist {m m' : List (α × HandlerBucket κ)} {i : Nat}
    (h : FindAndCancelHandler m i = some m') :
    List.Sublist (mapPairs m') (mapPairs m) := by
  induction m generalizing m' with
  | nil => simp [FindAndCancelHandler] at h
  | cons q rest ih =>
    obtain ⟨k, b⟩ := q
    by_cases hb : bucketHasId b i
    · simp only [FindAndCancelHandler, if_pos hb, Option.some.injEq] at h
      subst h
      simp only [mapPairs_cons]
      exact List.Sublist.append (bucketEraseId_sublist b i) (List.Sublist.refl _)
    · simp only [FindAndCancelHandler, if_neg hb] at h
      cases hrec : FindAndCancelHandler rest i with
      | none => rw [hrec] at h; simp at h
      | some rest' =>
        rw [hrec] at h
        simp only [Option.some.injEq] at h
        subst h
        simp only [mapPairs_cons]
        exact List.Sublist.append (List.Sublist.refl _) (ih hrec)

theorem mapPairs_eraseKey [DecidableEq α] (m : List (α × HandlerBucket κ)) (k : α) :
    List.Sublist (mapPairs (Assoc.eraseKey m k)) (mapPairs m) := by
  induction m with
  | nil => simp [Assoc.eraseKey]
  | cons p rest ih =>
    by_cases hk : p.1 = k
    · simp only [Assoc.eraseKey, if_pos hk, mapPairs_cons]
      exact List.sublist_append_right _ _
    · simp only [Assoc.eraseKey, if_neg hk, mapPairs_cons]
      exact List.Sublist.append (List.Sublist.refl _) ih

theorem mapPairs_cancelState (m : List (α × HandlerBucket κ)) (sid : Int) :
    List.Sublist (mapPairs (CancelStateHandlersInMap m sid)) (mapPairs m) := by
  induction m with
  | nil => simp [CancelStateHandlersInMap, mapPairs]
  | cons p rest ih =>
    simp only [CancelStateHandlersInMap, List.map_cons, mapPairs_cons] at *
    exact List.Sublist.append (List.filter_sublist _) ih

theorem mapPairs_set_decomp [DecidableEq α] {m : List (α × HandlerBucket κ)}
    {k : α} {b : HandlerBucket κ} (v : HandlerBucket κ)
    (h : Assoc.find? m k = some b) :
    ∃ P₁ P₂, mapPairs m = P₁ ++ b ++ P₂ ∧
      mapPairs (Assoc.set m k v) = P₁ ++ v ++ P₂ := by
  obtain ⟨m₁, m₂, hm, hnone⟩ := Assoc.find?_decomp h
  refine ⟨mapPairs m₁, mapPairs m₂, ?_, ?_⟩
  · rw [hm, mapPairs_append, mapPairs_cons, List.append_assoc]
  · rw [hm, Assoc.set_of_decomp v hnone, mapPairs_append, mapPairs_cons, List.append_assoc]

/-! ### WithReturn lemmas -/

/-- Whether the outcome of a callback invocation counts as a successful
execution. -/
def succeedsOf {κ ρ : Type} (run : κ → CallOutcome ρ) : κ → Bool := fun c =>
  match run c with
  | .fail => false
  | .ok _ => true

/-- The values produced, in registration order, by the handlers of a
bucket that execute successfully and whose result converts to the
requested type.  This is the specification-side description of the
aggregation performed by the `WithReturn` triggers. -/
def producedValues {κ ρ : Type} (run : κ → CallOutcome ρ) (b : HandlerBucket κ) :
    List ρ :=
  b.filterMap fun p =>
    if p.2.ShouldExecute then
      match run p.2.function with
      | .ok (some v) => some v
      | _ => none
    else none

theorem runHandlersWR_bucket (run : κ → CallOutcome ρ) (b : HandlerBucket κ)
    (acc : ρ) :
    (runHandlersWR run b acc).1 = (runHandlers (succeedsOf run) b).1 ∧
    (runHandlersWR run b acc).2.2 = (runHandlers (succeedsOf run) b).2 := by
  induction b generalizing acc with
  | nil => simp [runHandlersWR, runHandlers]
  | cons p rest ih =>
    by_cases hs : p.2.ShouldExecute
    · cases hr : run p.2.function with
      | fail =>
        have hex : ExecuteHandler (succeedsOf run) p.2 = (false, p.2) := by
          unfold ExecuteHandler succeedsOf
          simp [hs, hr]
        simp [runHandlersWR, runHandlers, hs, hr, hex, ih acc]
      | ok ret =>
        have hex : ExecuteHandler (succeedsOf run) p.2 =
            (true, { p.2 with callCount := u32 (p.2.callCount + 1) }) := by
          unfold ExecuteHandler succeedsOf
          simp [hs, hr]
        cases ret with
        | none => simp [runHandlersWR, runHandlers, hs, hr, hex, ih acc]
        | some v => simp [runHandlersWR, runHandlers, hs, hr, hex, ih v]
    · have hex : ExecuteHandler (succeedsOf run) p.2 = (false, p.2) := by
        unfold ExecuteHandler
        simp [hs]
      simp [runHandlersWR, runHandlers, hs, hex, ih acc]

theorem runHandlersWR_value (run : κ → CallOutcome ρ) (b : HandlerBucket κ)
    (acc : ρ) :
    (runHandlersWR run b acc).2.1 = (producedValues run b).getLast?.getD acc := by
  induction b generalizing acc with
  | nil => simp [runHandlersWR, producedValues]
  | cons p rest ih =>
    by_cases hs : p.2.ShouldExecute
    · cases hr : run p.2.function with
      | fail => simp [runHandlersWR, producedValues, hs, hr, List.filterMap_cons, ih acc]
      | ok ret =>
        cases ret with
        | none => simp [runHandlersWR, producedValues, hs, hr, List.filterMap_cons, ih acc]
        | some v =>
          simp only [runHandlersWR, hs, if_true, hr, producedValues, List.filterMap_cons]
          rw [ih v]
          simp only [producedValues, hs, if_true, hr]
          cases hpl : (rest.filterMap fun p =>
              if p.2.ShouldExecute then
                match run p.2.function with
                | .ok (some v) => some v
                | _ => none
              else none) with
          | nil => simp
          | cons x xs =>
            rcases hgl : (x :: xs).getLast? with _ | y
            · exact absurd hgl (by simp)
            · simp [hgl]
    · simp [runHandlersWR, producedValues, hs, List.filterMap_cons, ih acc]

theorem triggerInMapWR_value [DecidableEq α] (m : List (α × HandlerBucket κ))
    (k : α) (dflt : ρ) (run : κ → CallOutcome ρ) :
    (triggerInMapWR m k dflt run).1 =
      match Assoc.find? m k with
      | none => dflt
      | some b => (producedValues run b).getLast?.getD dflt := by
  unfold triggerInMapWR
  cases h : Assoc.find? m k with
  | none => rfl
  | some b => simp [runHandlersWR_value]

theorem producedValues_append (run : κ → CallOutcome ρ) (b₁ b₂ : HandlerBucket κ) :
    producedValues run (b₁ ++ b₂) = producedValues run b₁ ++ producedValues run b₂ := by
  simp [producedValues, List.filterMap_append]

end EvMgr

/-! ## Claim theorems: C3 -/

open EvMgr in
/-- Claim C3: `TriggerGlobalEventWithReturn` (and the entry variant)
returns the value produced by the last handler, in registration order,
that executed successfully and produced a value convertible to the
requested type; if no handler is registered for the key, no handler ran,
or no executed handler produced such a value, it returns the supplied
`defaultValue` unchanged (the `getD dflt` of the last produced value, with
an empty bucket lookup falling back to the default); a failing handler
contributes nothing to the produced-value sequence and so never affects
the result; and in the concrete scenario with H1 registered first
returning A and H2 second returning B, both succeeding, the result is
B. -/
theorem c3_triggerWithReturn_last_producer {κ ρ : Type} (st : EMState κ)
    (cat ty entry : Nat) (dflt : ρ) (run : κ → CallOutcome ρ) :
    ((TriggerGlobalEventWithReturn st cat ty dflt run).1 =
      match Assoc.find? st.globalHandlers ⟨cat, ty⟩ with
      | none => dflt
      | some b => (producedValues run b).getLast?.getD dflt) ∧
    ((TriggerEntryEventWithReturn st cat ty entry dflt run).1 =
      match Assoc.find? st.entryHandlers ⟨cat, ty, entry⟩ with
      | none => dflt
      | some b => (producedValues run b).getLast?.getD dflt) ∧
    (∀ (pre post : HandlerBucket κ) (i : Nat) (h : EventHandler κ),
      run h.function = CallOutcome.fail →
      producedValues run (pre ++ (i, h) :: post) =
        producedValues run pre ++ producedValues run post) ∧
    (∀ (A B : ρ) (cb1 cb2 : κ) (runv : κ → CallOutcome ρ),
      runv cb1 = CallOutcome.ok (some A) → runv cb2 = CallOutcome.ok (some B) →
      (TriggerGlobalEventWithReturn
        ((RegisterGlobalEvent
          ((RegisterGlobalEvent (emNew (κ := κ)) cat ty cb1 0 (-1)).2)
          cat ty cb2 0 (-1)).2)
        cat ty dflt runv).1 = B) := by
  refine ⟨?_, ?_, ?_, ?_⟩
  · simp [TriggerGlobalEventWithReturn, triggerInMapWR_value]
  · simp [TriggerEntryEventWithReturn, triggerInMapWR_value]
  · intro pre post i h hfail
    simp [producedValues_append, producedValues, List.filterMap_cons, hfail]
  · intro A B cb1 cb2 runv h1 h2
    simp [TriggerGlobalEventWithReturn, triggerInMapWR_value, emNew,
      RegisterGlobalEvent, Assoc.appendAt, Assoc.find?, producedValues,
      List.filterMap_cons, EventHandler.ShouldExecute, h1, h2]

open EvMgr in
/-- Witness for C3: two handlers returning 10 and 20 registered in that
order; the trigger returns 20 (the last producer), and the failing-handler
hypothesis of the third conjunct is discharged on a concrete bucket. -/
theorem c3_witness :
    (TriggerGlobalEventWithReturn
      ((RegisterGlobalEvent
        ((RegisterGlobalEvent (emNew (κ := Nat)) 7 1 10 0 (-1)).2)
        7 1 20 0 (-1)).2)
      7 1 999 (fun cb => CallOutcome.ok (some cb))).1 = 20 ∧
    producedValues (fun cb : Nat => if cb == 5 then CallOutcome.fail else CallOutcome.ok (some cb))
      ([(1, ⟨4, 0, 0, -1⟩)] ++ (2, ⟨5, 0, 0, -1⟩) :: [(3, ⟨6, 0, 0, -1⟩)]) =
      producedValues (fun cb : Nat => if cb == 5 then CallOutcome.fail else CallOutcome.ok (some cb)) [(1, ⟨4, 0, 0, -1⟩)] ++
      producedValues (fun cb : Nat => if cb == 5 then CallOutcome.fail else CallOutcome.ok (some cb)) [(3, ⟨6, 0, 0, -1⟩)] := by
  constructor
  · exact (c3_triggerWithReturn_last_producer (emNew (κ := Nat)) 7 1 0 999
      (fun cb => CallOutcome.ok (some cb))).2.2.2 10 20 10 20 _ rfl rfl
  · exact (c3_triggerWithReturn_last_producer (emNew (κ := Nat)) 7 1 0 999
      (fun cb : Nat => if cb == 5 then CallOutcome.fail else CallOutcome.ok (some cb))).2.2.1
      [(1, ⟨4, 0, 0, -1⟩)] [(3, ⟨6, 0, 0, -1⟩)] 2 ⟨5, 0, 0, -1⟩ rfl

/-! ## Id-counter lemmas (C2) -/

namespace EvMgr

theorem emStep_next_reg {κ ρ : Type} (st : EMState κ) {op : EMOp κ ρ} {n : Nat}
    (h : regShots op = some n) :
    ((EMStep st op).1).nextHandlerId = st.nextHandlerId + 1 ∧
    issuedId st op = some st.nextHandlerId := by
  cases op <;> simp_all [regShots, EMStep, RegisterGlobalEvent,
    RegisterEntryEvent, RegisterUniqueEvent, issuedId]

theorem cancelEvent_next {κ : Type} (st : EMState κ) (i : Nat) :
    ((CancelEvent st i).2).nextHandlerId = st.nextHandlerId := by
  unfold CancelEvent
  cases FindAndCancelHandler st.globalHandlers i with
  | some g => rfl
  | none =>
    cases FindAndCancelHandler st.entryHandlers i with
    | some e => rfl
    | none =>
      cases FindAndCancelHandler st.uniqueHandlers i with
      | some u => rfl
      | none => rfl

theorem emStep_next_nonreg {κ ρ : Type} (st : EMState κ) {op : EMOp κ ρ}
    (h : regShots op = none) :
    ((EMStep st op).1).nextHandlerId = st.nextHandlerId ∧
    issuedId st op = none := by
  cases op <;> simp_all [regShots, EMStep, TriggerGlobalEvent, TriggerEntryEvent,
    TriggerUniqueEvent, TriggerGlobalEventWithReturn, TriggerEntryEventWithReturn,
    CancelGlobalEvent, CancelEntryEvent, CancelUniqueEvent, CancelStateEvents,
    CancelAllEvents, issuedId, cancelEvent_next]

theorem emStep_next_le {κ ρ : Type} (st : EMState κ) (op : EMOp κ ρ) :
    st.nextHandlerId ≤ ((EMStep st op).1).nextHandlerId := by
  cases h : regShots (κ := κ) (ρ := ρ) op with
  | some n => rw [(emStep_next_reg st h).1]; omega
  | none => rw [(emStep_next_nonreg st h).1]

theorem issuedIds_ge {κ ρ : Type} (st : EMState κ) (tr : List (EMOp κ ρ)) :
    ∀ j ∈ issuedIds st tr, st.nextHandlerId ≤ j := by
  induction tr generalizing st with
  | nil => simp [issuedIds]
  | cons op tr ih =>
    intro j hj
    unfold issuedIds at hj
    cases h : regShots (κ := κ) (ρ := ρ) op with
    | some n =>
      obtain ⟨hn, hi⟩ := emStep_next_reg st h
      rw [hi] at hj
      simp only [List.mem_cons] at hj
      rcases hj with rfl | hj
      · exact Nat.le_refl _
      · have := ih (EMStep st op).1 j hj
        omega
    | none =>
      obtain ⟨hn, hi⟩ := emStep_next_nonreg st h
      rw [hi] at hj
      have := ih (EMStep st op).1 j hj
      omega

theorem issuedIds_pairwise {κ ρ : Type} (st : EMState κ) (tr : List (EMOp κ ρ)) :
    List.Pairwise (· < ·) (issuedIds st tr) := by
  induction tr generalizing st with
  | nil => simp [issuedIds]
  | cons op tr ih =>
    unfold issuedIds
    cases h : regShots (κ := κ) (ρ := ρ) op with
    | some n =>
      obtain ⟨hn, hi⟩ := emStep_next_reg st h
      rw [hi]
      refine List.Pairwise.cons ?_ (ih _)
      intro j hj
      have := issuedIds_ge (EMStep st op).1 tr j hj
      omega
    | none =>
      obtain ⟨hn, hi⟩ := emStep_next_nonreg st h
      rw [hi]
      exact ih _

end EvMgr

namespace TimedMgr

theorem removeEventWith_next {κ : Type} (rm : List Nat → Nat → List Nat)
    (s : TEMState κ) (i : Nat) :
    ((RemoveEventWith rm s i).2).nextEventId = s.nextEventId := by
  unfold RemoveEventWith
  cases Assoc.find? s.events i with
  | none => rfl
  | some ev =>
    dsimp only
    by_cases hg : ev.objectType = TimedEventObjectType.GLOBAL
    · simp [hg]
    · simp only [if_neg hg]
      cases Assoc.find? s.objectEvents ev.objectGuid with
      | none => rfl
      | some l =>
        dsimp only
        by_cases he : rm l i = [] <;> simp [he]

theorem foldRemove_next {κ : Type} (rm : List Nat → Nat → List Nat)
    (R : List Nat) (s : TEMState κ) :
    (R.foldl (fun s i => (RemoveEventWith rm s i).2) s).nextEventId = s.nextEventId := by
  induction R generalizing s with
  | nil => rfl
  | cons i R ih => rw [List.foldl_cons, ih, removeEventWith_next]

theorem teStep_next {κ : Type} (rm : List Nat → Nat → List Nat)
    (s : TEMState κ) (op : TEOp κ) :
    ((TEStep rm s op).1).nextEventId = s.nextEventId ∨
    ((TEStep rm s op).1).nextEventId = s.nextEventId + 1 := by
  cases op with
  | registerGlobal cb delay repeats => right; rfl
  | registerObject guid cb delay repeats ot => right; rfl
  | removeEvent i => left; exact removeEventWith_next rm s i
  | removeObjectEvents guid =>
    left
    simp only [TEStep, RemoveObjectEvents]
    cases Assoc.find? s.objectEvents guid <;> rfl
  | removeAllGlobal => left; rfl
  | update d fire =>
    left
    simp only [TEStep, UpdateWith]
    by_cases hg : s.globalEvents = []
    · simp [hg]
    · simp only [if_neg hg]
      exact foldRemove_next rm _ _
  | updateObject guid d fire =>
    left
    simp only [TEStep, UpdateObjectEventsWith]
    cases Assoc.find? s.objectEvents guid with
    | none => rfl
    | some l => exact foldRemove_next rm _ _

theorem teStep_next_le {κ : Type} (rm : List Nat → Nat → List Nat)
    (s : TEMState κ) (op : TEOp κ) :
    s.nextEventId ≤ ((TEStep rm s op).1).nextEventId := by
  rcases teStep_next rm s op with h | h <;> omega

theorem temIssuedIds_ge {κ : Type} (rm : List Nat → Nat → List Nat)
    (s : TEMState κ) (tr : List (TEOp κ)) :
    ∀ j ∈ temIssuedIds rm s tr, s.nextEventId ≤ j := by
  induction tr generalizing s with
  | nil => simp [temIssuedIds]
  | cons op tr ih =>
    intro j hj
    unfold temIssuedIds at hj
    have hle := teStep_next_le rm s op
    cases op with
    | registerGlobal cb delay repeats =>
      simp only [List.mem_cons] at hj
      rcases hj with rfl | hj
      · exact Nat.le_refl _
      · have := ih (TEStep rm s _).1 j hj; omega
    | registerObject guid cb delay repeats ot =>
      simp only [List.mem_cons] at hj
      rcases hj with rfl | hj
      · exact Nat.le_refl _
      · have := ih (TEStep rm s _).1 j hj; omega
    | removeEvent i => have := ih (TEStep rm s _).1 j hj; omega
    | removeObjectEvents guid => have := ih (TEStep rm s _).1 j hj; omega
    | removeAllGlobal => have := ih (TEStep rm s _).1 j hj; omega
    | update d fire => have := ih (TEStep rm s _).1 j hj; omega
    | updateObject guid d fire => have := ih (TEStep rm s _).1 j hj; omega

theorem temIssuedIds_pairwise {κ : Type} (rm : List Nat → Nat → List Nat)
    (s : TEMState κ) (tr : List (TEOp κ)) :
    List.Pairwise (· < ·) (temIssuedIds rm s tr) := by
  induction tr generalizing s with
  | nil => simp [temIssuedIds]
  | cons op tr ih =>
    unfold temIssuedIds
    have hnext : ∀ (j : Nat), j ∈ temIssuedIds rm (TEStep rm s op).1 tr →
        ((TEStep rm s op).1).nextEventId ≤ j := temIssuedIds_ge rm _ tr
    cases op with
    | registerGlobal cb delay repeats =>
      refine List.Pairwise.cons ?_ (ih _)
      intro j hj
      have h1 := hnext j hj
      have h2 : ((TEStep rm s (TEOp.registerGlobal cb delay repeats)).1).nextEventId = s.nextEventId + 1 := rfl
      omega
    | registerObject guid cb delay repeats ot =>
      refine List.Pairwise.cons ?_ (ih _)
      intro j hj
      have h1 := hnext j hj
      have h2 : ((TEStep rm s (TEOp.registerObject guid cb delay repeats ot)).1).nextEventId = s.nextEventId + 1 := rfl
      omega
    | removeEvent i => exact ih _
    | removeObjectEvents guid => exact ih _
    | removeAllGlobal => exact ih _
    | update d fire => exact ih _
    | updateObject guid d fire => exact ih _

end TimedMgr

/-! ## Claim theorems: C2 -/

open EvMgr TimedMgr in
/-- Counterexample to claim C2 as stated: ids are NOT unique for the whole
process lifetime across `Shutdown` + `Initialize` or `Clear`.  On the
`EventManager`, `Initialize` resets `m_nextHandlerId` to 1, so a register
call before `Shutdown`/`Initialize` and one after both return id 1.  On
the `TimedEventManager`, `Clear` resets `m_nextEventId` to 1, so the
schedule ids are likewise reused. -/
theorem c2_counterexample :
    ((RegisterGlobalEvent (Init (emNew (κ := Unit))).2 0 1 () 0 (-1)).1 = 1 ∧
     (RegisterGlobalEvent
        (Init (Shutdown (RegisterGlobalEvent (Init (emNew (κ := Unit))).2 0 1 () 0 (-1)).2)).2
        0 1 () 0 (-1)).1 = 1) ∧
    ((TimedMgr.RegisterGlobalEvent (temNew (κ := Unit)) () 100 1).1 = 1 ∧
     (TimedMgr.RegisterGlobalEvent
        (TimedMgr.Clear (TimedMgr.RegisterGlobalEvent (temNew (κ := Unit)) () 100 1).2)
        () 100 1).1 = 1) := by
  exact ⟨⟨rfl, rfl⟩, ⟨rfl, rfl⟩⟩

open EvMgr TimedMgr in
/-- Claim C2, amended: handler ids and schedule ids are 64-bit counters
that are strictly monotonically increasing and unique along any sequence
of Register/Trigger/Cancel (resp. Register/Remove/Update) operations that
does not reinitialize the manager.  `EventManager::Initialize` after
`Shutdown` and `TimedEventManager::Clear` reset the counter to 1, so ids
can be reused across such resets (see the counterexample); within any
reset-free span, no two register calls return the same id.  The
TimedEventManager statement holds for both index-removal variants. -/
theorem c2_ids_strictly_increasing {κ κ₂ ρ : Type} (st : EMState κ)
    (tr : List (EMOp κ ρ)) (rm : List Nat → Nat → List Nat)
    (ts : TEMState κ₂) (ttr : List (TEOp κ₂)) :
    List.Pairwise (· < ·) (issuedIds st tr) ∧
    List.Pairwise (· < ·) (temIssuedIds rm ts ttr) :=
  ⟨issuedIds_pairwise st tr, temIssuedIds_pairwise rm ts ttr⟩

/-! ## Claim theorems: C4 -/

open EvMgr in
/-- Claim C4: during a Trigger call, a handler whose callback throws or
returns an invalid result (`run h.function = false`, the two cases the
`try`/`catch` plus validity check of `ExecuteHandler` collapse to) is
caught: its record is left untouched in the bucket (same `callCount`), it
does not contribute to the returned executed count nor to the executed-id
list, and both the handlers before it and every remaining handler after it
in the bucket are processed exactly as they would be on their own (the
error never propagates — the model's trigger is a total function whose
result on the rest of the bucket is unchanged). -/
theorem c4_failing_handler_isolated {κ : Type} (st : EMState κ) (cat ty : Nat)
    (pre post : HandlerBucket κ) (i : Nat) (h : EventHandler κ) (run : κ → Bool)
    (hb : Assoc.find? st.globalHandlers ⟨cat, ty⟩ = some (pre ++ (i, h) :: post))
    (hlive : h.ShouldExecute = true)
    (hfail : run h.function = false) :
    (TriggerGlobalEvent st cat ty run).1 =
      (runHandlers run pre).2.length + (runHandlers run post).2.length ∧
    (TriggerGlobalEvent st cat ty run).2.2 =
      (runHandlers run pre).2 ++ (runHandlers run post).2 ∧
    Assoc.find? ((TriggerGlobalEvent st cat ty run).2.1).globalHandlers ⟨cat, ty⟩ =
      some (RemoveExpiredHandlers (runHandlers run pre).1 ++
            (i, h) :: RemoveExpiredHandlers (runHandlers run post).1) := by
  have hex : ExecuteHandler run h = (false, h) := executeHandler_fail run h hfail
  have hrun : runHandlers run (pre ++ (i, h) :: post) =
      ((runHandlers run pre).1 ++ (i, h) :: (runHandlers run post).1,
       (runHandlers run pre).2 ++ (runHandlers run post).2) := by
    rw [runHandlers_append]
    simp [runHandlers, hex]
  have hnexp : (!h.IsExpired) = true := by
    rw [← shouldExecute_iff_not_expired]; exact hlive
  have hprune : RemoveExpiredHandlers
      ((runHandlers run pre).1 ++ (i, h) :: (runHandlers run post).1) =
      RemoveExpiredHandlers (runHandlers run pre).1 ++
        (i, h) :: RemoveExpiredHandlers (runHandlers run post).1 := by
    unfold RemoveExpiredHandlers
    rw [List.filter_append, List.filter_cons]
    simp [hnexp]
  refine ⟨?_, ?_, ?_⟩
  · simp [TriggerGlobalEvent, triggerInMap, hb, hrun]
  · simp [TriggerGlobalEvent, triggerInMap, hb, hrun]
  · simp only [TriggerGlobalEvent, triggerInMap, hb, hrun, hprune]
    exact Assoc.find?_set_self _ hb

open EvMgr in
/-- Witness for C4: a three-handler bucket whose middle handler fails;
the trigger reports 2 executions, the executed ids are [1, 3] and the
failing handler 2 survives with `callCount` 0. -/
theorem c4_witness :
    (Assoc.find? (EMState.globalHandlers
        ⟨[(⟨7, 1⟩, [(1, ⟨10, 0, 0, -1⟩), (2, ⟨11, 0, 0, -1⟩), (3, ⟨12, 0, 0, -1⟩)])], [], [], 4, true⟩)
        ⟨7, 1⟩ = some ([(1, ⟨10, 0, 0, -1⟩)] ++ (2, (⟨11, 0, 0, -1⟩ : EventHandler Nat)) :: [(3, ⟨12, 0, 0, -1⟩)])) ∧
    (EventHandler.ShouldExecute (⟨11, 0, 0, -1⟩ : EventHandler Nat) = true) ∧
    ((fun cb : Nat => !(cb == 11)) 11 = false) ∧
    (TriggerGlobalEvent
      (⟨[(⟨7, 1⟩, [(1, ⟨10, 0, 0, -1⟩), (2, ⟨11, 0, 0, -1⟩), (3, ⟨12, 0, 0, -1⟩)])], [], [], 4, true⟩ : EMState Nat)
      7 1 (fun cb => !(cb == 11))).1 =
      (runHandlers (fun cb : Nat => !(cb == 11)) [(1, ⟨10, 0, 0, -1⟩)]).2.length +
      (runHandlers (fun cb : Nat => !(cb == 11)) [(3, ⟨12, 0, 0, -1⟩)]).2.length := by
  refine ⟨rfl, rfl, rfl, ?_⟩
  exact (c4_failing_handler_isolated
    (⟨[(⟨7, 1⟩, [(1, ⟨10, 0, 0, -1⟩), (2, ⟨11, 0, 0, -1⟩), (3, ⟨12, 0, 0, -1⟩)])], [], [], 4, true⟩ : EMState Nat)
    7 1 [(1, ⟨10, 0, 0, -1⟩)] [(3, ⟨12, 0, 0, -1⟩)]
    2 ⟨11, 0, 0, -1⟩ (fun cb => !(cb == 11)) rfl rfl rfl).1

/-! ## Count lemmas and C6 -/

namespace EvMgr

/-- All handler ids stored in one map. -/
def idsOfMap {α κ : Type} (m : List (α × HandlerBucket κ)) : List Nat :=
  (mapPairs m).map Prod.fst

theorem stateIds_eq {κ : Type} (st : EMState κ) :
    stateIds st = idsOfMap st.globalHandlers ++ idsOfMap st.entryHandlers ++
      idsOfMap st.uniqueHandlers := by
  simp [stateIds, statePairs, idsOfMap]

theorem find?_count_le [DecidableEq α] {m : List (α × HandlerBucket κ)} {k : α}
    {b : HandlerBucket κ} (h : Assoc.find? m k = some b) (j : Nat) :
    (b.map Prod.fst).count j ≤ (idsOfMap m).count j := by
  induction m with
  | nil => simp [Assoc.find?] at h
  | cons p rest ih =>
    by_cases hk : p.1 = k
    · simp only [Assoc.find?, if_pos hk, Option.some.injEq] at h
      subst h
      simp only [idsOfMap, mapPairs_cons, List.map_append, List.count_append]
      omega
    · simp only [Assoc.find?, if_neg hk] at h
      have := ih h
      simp only [idsOfMap, mapPairs_cons, List.map_append, List.count_append] at *
      omega

theorem two_keys_count [DecidableEq α] {m : List (α × HandlerBucket κ)}
    {kX kY : α} {bX bY : HandlerBucket κ}
    (hX : Assoc.find? m kX = some bX) (hY : Assoc.find? m kY = some bY)
    (hne : kX ≠ kY) (j : Nat) :
    (bX.map Prod.fst).count j + (bY.map Prod.fst).count j ≤ (idsOfMap m).count j := by
  induction m with
  | nil => simp [Assoc.find?] at hX
  | cons p rest ih =>
    by_cases hkX : p.1 = kX
    · simp only [Assoc.find?, if_pos hkX, Option.some.injEq] at hX
      subst hX
      have hkY : p.1 ≠ kY := fun hh => hne (hkX ▸ hh ▸ rfl)
      rw [Assoc.find?] at hY
      rw [if_neg hkY] at hY
      have := find?_count_le hY j
      simp only [idsOfMap, mapPairs_cons, List.map_append, List.count_append] at *
      omega
    · simp only [Assoc.find?, if_neg hkX] at hX
      by_cases hkY : p.1 = kY
      · simp only [Assoc.find?, if_pos hkY, Option.some.injEq] at hY
        subst hY
        have := find?_count_le hX j
        simp only [idsOfMap, mapPairs_cons, List.map_append, List.count_append] at *
        omega
      · simp only [Assoc.find?, if_neg hkY] at hY
        have := ih hX hY
        simp only [idsOfMap, mapPairs_cons, List.map_append, List.count_append] at *
        omega

end EvMgr

open EvMgr in
/-- Claim C6: two distinct event enum categories that share the same
numeric type value never trigger each other's handlers.  If the state has
unique handler ids (invariant of all reachable states), a
`TriggerGlobalEvent` issued under category Y executes none of the handlers
registered under category X with the same type value, for every callback
oracle (i.e. every argument list), and leaves the (X, type) bucket
untouched. -/
theorem c6_category_isolation {κ : Type} (st : EMState κ)
    (hu : UniqueIds st) (catX catY ty : Nat) (hne : catX ≠ catY)
    (run : κ → Bool) :
    (∀ bX, Assoc.find? st.globalHandlers ⟨catX, ty⟩ = some bX →
      ∀ j ∈ bX.map Prod.fst, j ∉ (TriggerGlobalEvent st catY ty run).2.2) ∧
    Assoc.find? ((TriggerGlobalEvent st catY ty run).2.1).globalHandlers ⟨catX, ty⟩ =
      Assoc.find? st.globalHandlers ⟨catX, ty⟩ := by
  have hkey : (⟨catY, ty⟩ : GlobalEventKey) ≠ ⟨catX, ty⟩ := by
    intro hh
    exact hne (congrArg GlobalEventKey.eventCategory hh).symm
  constructor
  · intro bX hbX j hj hexec
    cases hbY : Assoc.find? st.globalHandlers ⟨catY, ty⟩ with
    | none =>
      simp [TriggerGlobalEvent, triggerInMap, hbY] at hexec
    | some bY =>
      simp only [TriggerGlobalEvent, triggerInMap, hbY] at hexec
      have hjY : j ∈ bY.map Prod.fst := runHandlers_execs_subset run bY j hexec
      have h1 : 1 ≤ (bX.map Prod.fst).count j := List.one_le_count_iff.mpr hj
      have h2 : 1 ≤ (bY.map Prod.fst).count j := List.one_le_count_iff.mpr hjY
      have hsum := two_keys_count hbX hbY (fun hh => hkey hh.symm) j
      have hle : (idsOfMap st.globalHandlers).count j ≤ (stateIds st).count j := by
        rw [stateIds_eq]
        simp only [List.count_append]
        omega
      have hnd : (stateIds st).count j ≤ 1 :=
        List.nodup_iff_count_le_one.mp hu j
      omega
  · cases hbY : Assoc.find? st.globalHandlers ⟨catY, ty⟩ with
    | none => simp [TriggerGlobalEvent, triggerInMap, hbY]
    | some bY =>
      simp only [TriggerGlobalEvent, triggerInMap, hbY]
      exact Assoc.find?_set_ne _ _ hkey

open EvMgr in
/-- Witness for C6: a handler registered under (category 3, type 1) is
not executed and its bucket is untouched when (category 4, type 1) is
triggered, on a concrete two-category state. -/
theorem c6_witness :
    UniqueIds (⟨[(⟨3, 1⟩, [(1, ⟨10, 0, 0, -1⟩)]), (⟨4, 1⟩, [(2, ⟨11, 0, 0, -1⟩)])], [], [], 3, true⟩ : EMState Nat) ∧
    (3 : Nat) ≠ 4 ∧
    (∀ bX, Assoc.find? (EMState.globalHandlers
        (⟨[(⟨3, 1⟩, [(1, ⟨10, 0, 0, -1⟩)]), (⟨4, 1⟩, [(2, ⟨11, 0, 0, -1⟩)])], [], [], 3, true⟩ : EMState Nat))
        ⟨3, 1⟩ = some bX →
      ∀ j ∈ bX.map Prod.fst,
        j ∉ (TriggerGlobalEvent
          (⟨[(⟨3, 1⟩, [(1, ⟨10, 0, 0, -1⟩)]), (⟨4, 1⟩, [(2, ⟨11, 0, 0, -1⟩)])], [], [], 3, true⟩ : EMState Nat)
          4 1 (fun _ => true)).2.2) := by
  refine ⟨by decide, by decide, ?_⟩
  exact (c6_category_isolation
    (⟨[(⟨3, 1⟩, [(1, ⟨10, 0, 0, -1⟩)]), (⟨4, 1⟩, [(2, ⟨11, 0, 0, -1⟩)])], [], [], 3, true⟩ : EMState Nat)
    (by decide) 3 4 1 (by decide) (fun _ => true)).1

/-! ## Cancellation lemmas and C7 -/

namespace EvMgr

theorem bucketHasId_iff {κ : Type} (b : HandlerBucket κ) (i : Nat) :
    bucketHasId b i = true ↔ i ∈ b.map Prod.fst := by
  simp [bucketHasId, List.any_eq_true]

theorem bucketEraseId_filter_ne {κ : Type} (b : HandlerBucket κ) {i j : Nat}
    (hne : j ≠ i) :
    (bucketEraseId b i).filter (fun p => p.1 == j) = b.filter (fun p => p.1 == j) := by
  induction b with
  | nil => rfl
  | cons p rest ih =>
    by_cases hp : p.1 == i
    · have hpj : (p.1 == j) = false := by
        have hpi : p.1 = i := by simpa using hp
        rw [hpi]
        exact beq_eq_false_iff_ne.mpr (Ne.symm hne)
      simp [bucketEraseId, hp, List.filter_cons, hpj]
    · simp only [bucketEraseId, hp, Bool.false_eq_true, if_false, List.filter_cons]
      rw [ih]

theorem bucketEraseId_count {κ : Type} {b : HandlerBucket κ} {i : Nat}
    (h : bucketHasId b i = true) :
    ((bucketEraseId b i).map Prod.fst).count i + 1 = (b.map Prod.fst).count i := by
  induction b with
  | nil => simp [bucketHasId] at h
  | cons p rest ih =>
    by_cases hp : p.1 == i
    · have hpi : p.1 = i := by simpa using hp
      simp [bucketEraseId, hp, hpi, List.count_cons]
    · have hpi : ¬(p.1 = i) := by simpa using hp
      have hrest : bucketHasId rest i = true := by
        simp only [bucketHasId, List.any_cons, hp, Bool.false_or] at h
        exact h
      simp only [bucketEraseId, hp, Bool.false_eq_true, if_false, List.map_cons,
        List.count_cons]
      rw [← ih hrest]

theorem findAndCancel_none_iff {α κ : Type} (m : List (α × HandlerBucket κ)) (i : Nat) :
    FindAndCancelHandler m i = none ↔ (idsOfMap m).count i = 0 := by
  induction m with
  | nil => simp [FindAndCancelHandler, idsOfMap, mapPairs]
  | cons p rest ih =>
    obtain ⟨k, b⟩ := p
    by_cases hb : bucketHasId b i
    · simp only [FindAndCancelHandler, if_pos hb]
      have : i ∈ b.map Prod.fst := (bucketHasId_iff b i).mp hb
      have hc : (b.map Prod.fst).count i ≠ 0 := by
        have := List.one_le_count_iff.mpr this
        omega
      simp only [idsOfMap, mapPairs_cons, List.map_append, List.count_append]
      constructor
      · intro hh; exact absurd hh (by simp)
      · intro hh
        exfalso
        have : (b.map Prod.fst).count i = 0 := by
          simp only [idsOfMap] at hh
          omega
        exact hc this
    · simp only [FindAndCancelHandler, if_neg hb]
      have hc0 : (b.map Prod.fst).count i = 0 := by
        rw [List.count_eq_zero]
        intro hmem
        exact hb ((bucketHasId_iff b i).mpr hmem)
      cases hr : FindAndCancelHandler rest i with
      | none =>
        have := (ih.mp hr)
        simp only [idsOfMap, mapPairs_cons, List.map_append, List.count_append]
        simp only [idsOfMap] at this
        simp [hc0, this]
      | some rest' =>
        have : ¬((idsOfMap rest).count i = 0) := fun hh => by
          have := ih.mpr hh
          rw [hr] at this
          exact Option.noConfusion this
        simp only [idsOfMap, mapPairs_cons, List.map_append, List.count_append]
        constructor
        · intro hh; exact Option.noConfusion hh
        · intro hh
          exfalso
          apply this
          simp only [idsOfMap]
          omega

theorem findAndCancel_some {α κ : Type} {m m' : List (α × HandlerBucket κ)} {i : Nat}
    (h : FindAndCancelHandler m i = some m') :
    ((idsOfMap m').count i + 1 = (idsOfMap m).count i) ∧
    (∀ j, j ≠ i →
      (mapPairs m').filter (fun p => p.1 == j) = (mapPairs m).filter (fun p => p.1 == j)) := by
  induction m generalizing m' with
  | nil => simp [FindAndCancelHandler] at h
  | cons p rest ih =>
    obtain ⟨k, b⟩ := p
    by_cases hb : bucketHasId b i
    · simp only [FindAndCancelHandler, if_pos hb, Option.some.injEq] at h
      subst h
      constructor
      · simp only [idsOfMap, mapPairs_cons, List.map_append, List.count_append]
        have := bucketEraseId_count (b := b) hb
        omega
      · intro j hj
        simp only [mapPairs_cons, List.filter_append]
        rw [bucketEraseId_filter_ne b hj]
    · simp only [FindAndCancelHandler, if_neg hb] at h
      cases hr : FindAndCancelHandler rest i with
      | none => rw [hr] at h; exact Option.noConfusion h
      | some rest' =>
        rw [hr] at h
        simp only [Option.some.injEq] at h
        subst h
        obtain ⟨ihc, ihf⟩ := ih hr
        constructor
        · simp only [idsOfMap, mapPairs_cons, List.map_append, List.count_append]
          simp only [idsOfMap] at ihc
          omega
        · intro j hj
          simp only [mapPairs_cons, List.filter_append]
          rw [ihf j hj]

theorem occCount_split {κ : Type} (st : EMState κ) (i : Nat) :
    occCount st i = (idsOfMap st.globalHandlers).count i +
      (idsOfMap st.entryHandlers).count i + (idsOfMap st.uniqueHandlers).count i := by
  simp only [occCount, stateIds_eq, List.count_append]

theorem cancelEvent_absent {κ : Type} (st : EMState κ) (i : Nat)
    (h : occCount st i = 0) : CancelEvent st i = (false, st) := by
  rw [occCount_split] at h
  have hg : FindAndCancelHandler st.globalHandlers i = none :=
    (findAndCancel_none_iff _ i).mpr (by omega)
  have he : FindAndCancelHandler st.entryHandlers i = none :=
    (findAndCancel_none_iff _ i).mpr (by omega)
  have hu : FindAndCancelHandler st.uniqueHandlers i = none :=
    (findAndCancel_none_iff _ i).mpr (by omega)
  simp [CancelEvent, hg, he, hu]

theorem recordsOf_split {κ : Type} (st : EMState κ) (j : Nat) :
    recordsOf st j =
      ((mapPairs st.globalHandlers).filter (fun p => p.1 == j)).map Prod.snd ++
      ((mapPairs st.entryHandlers).filter (fun p => p.1 == j)).map Prod.snd ++
      ((mapPairs st.uniqueHandlers).filter (fun p => p.1 == j)).map Prod.snd := by
  simp [recordsOf, statePairs, List.filter_append]

end EvMgr

open EvMgr in
/-- Claim C7: for a handler id stored exactly once (every id issued by a
register call, in every reachable state), the first `CancelEvent` returns
`true`, removes exactly that handler (the stored records of every other id
are untouched and the id's occurrence count drops to 0), and a second
`CancelEvent` with the same id returns `false` and leaves the state — all
three stores — unchanged.  A `CancelEvent` on an id that is not stored at
all (never issued) returns `false` with no side effect; likewise
`TimedEventManager::RemoveEvent` (either variant's removal discipline) on
an id with no stored record returns `false` and leaves the state
unchanged. -/
theorem c7_cancel_twice {κ : Type} (st : EMState κ) (i : Nat) :
    (occCount st i = 1 →
      (CancelEvent st i).1 = true ∧
      occCount (CancelEvent st i).2 i = 0 ∧
      (∀ j, j ≠ i → recordsOf (CancelEvent st i).2 j = recordsOf st j) ∧
      CancelEvent (CancelEvent st i).2 i = (false, (CancelEvent st i).2)) ∧
    (occCount st i = 0 → CancelEvent st i = (false, st)) ∧
    (∀ (ts : TimedMgr.TEMState κ) (rm : List Nat → Nat → List Nat),
      Assoc.find? ts.events i = none →
      TimedMgr.RemoveEventWith rm ts i = (false, ts)) := by
  refine ⟨?_, ?_, ?_⟩
  · intro h1
    rw [occCount_split] at h1
    have hsplit : ((idsOfMap st.globalHandlers).count i = 1 ∧
        (idsOfMap st.entryHandlers).count i = 0 ∧ (idsOfMap st.uniqueHandlers).count i = 0) ∨
        ((idsOfMap st.globalHandlers).count i = 0 ∧
        (idsOfMap st.entryHandlers).count i = 1 ∧ (idsOfMap st.uniqueHandlers).count i = 0) ∨
        ((idsOfMap st.globalHandlers).count i = 0 ∧
        (idsOfMap st.entryHandlers).count i = 0 ∧ (idsOfMap st.uniqueHandlers).count i = 1) := by
      omega
    rcases hsplit with ⟨hg, he, hu⟩ | ⟨hg, he, hu⟩ | ⟨hg, he, hu⟩
    · cases hfg : FindAndCancelHandler st.globalHandlers i with
      | none =>
        exact absurd ((findAndCancel_none_iff _ i).mp hfg) (by omega)
      | some g' =>
        obtain ⟨hc, hf⟩ := findAndCancel_some hfg
        have hres : CancelEvent st i = (true, { st with globalHandlers := g' }) := by
          simp [CancelEvent, hfg]
        rw [hres]
        refine ⟨rfl, ?_, ?_, ?_⟩
        · rw [occCount_split]; simp only; omega
        · intro j hj
          rw [recordsOf_split, recordsOf_split]
          simp only
          rw [hf j hj]
        · apply cancelEvent_absent
          rw [occCount_split]; simp only; omega
    · have hfg : FindAndCancelHandler st.globalHandlers i = none :=
        (findAndCancel_none_iff _ i).mpr hg
      cases hfe : FindAndCancelHandler st.entryHandlers i with
      | none =>
        exact absurd ((findAndCancel_none_iff _ i).mp hfe) (by omega)
      | some e' =>
        obtain ⟨hc, hf⟩ := findAndCancel_some hfe
        have hres : CancelEvent st i = (true, { st with entryHandlers := e' }) := by
          simp [CancelEvent, hfg, hfe]
        rw [hres]
        refine ⟨rfl, ?_, ?_, ?_⟩
        · rw [occCount_split]; simp only; omega
        · intro j hj
          rw [recordsOf_split, recordsOf_split]
          simp only
          rw [hf j hj]
        · apply cancelEvent_absent
          rw [occCount_split]; simp only; omega
    · have hfg : FindAndCancelHandler st.globalHandlers i = none :=
        (findAndCancel_none_iff _ i).mpr hg
      have hfe : FindAndCancelHandler st.entryHandlers i = none :=
        (findAndCancel_none_iff _ i).mpr he
      cases hfu : FindAndCancelHandler st.uniqueHandlers i with
      | none =>
        exact absurd ((findAndCancel_none_iff _ i).mp hfu) (by omega)
      | some u' =>
        obtain ⟨hc, hf⟩ := findAndCancel_some hfu
        have hres : CancelEvent st i = (true, { st with uniqueHandlers := u' }) := by
          simp [CancelEvent, hfg, hfe, hfu]
        rw [hres]
        refine ⟨rfl, ?_, ?_, ?_⟩
        · rw [occCount_split]; simp only; omega
        · intro j hj
          rw [recordsOf_split, recordsOf_split]
          simp only
          rw [hf j hj]
        · apply cancelEvent_absent
          rw [occCount_split]; simp only; omega
  · exact cancelEvent_absent st i
  · intro ts rm h
    unfold TimedMgr.RemoveEventWith
    rw [h]

open EvMgr in
/-- Witness for C7: a single registered handler; the first cancel returns
true and empties the store, the second returns false and is the identity.
On the timed side, removing the never-issued id 1 from a fresh
`TimedEventManager` (with the ALE removal discipline) returns false and
changes nothing. -/
theorem c7_witness :
    occCount ((RegisterGlobalEvent (emNew (κ := Nat)) 7 1 10 0 (-1)).2) 1 = 1 ∧
    (CancelEvent ((RegisterGlobalEvent (emNew (κ := Nat)) 7 1 10 0 (-1)).2) 1).1 = true ∧
    CancelEvent (CancelEvent ((RegisterGlobalEvent (emNew (κ := Nat)) 7 1 10 0 (-1)).2) 1).2 1 =
      (false, (CancelEvent ((RegisterGlobalEvent (emNew (κ := Nat)) 7 1 10 0 (-1)).2) 1).2) ∧
    TimedMgr.RemoveEventWith TimedMgr.eraseIdx (TimedMgr.temNew (κ := Nat)) 1 =
      (false, TimedMgr.temNew) := by
  have h := (c7_cancel_twice ((RegisterGlobalEvent (emNew (κ := Nat)) 7 1 10 0 (-1)).2) 1).1
    (by decide)
  have ht := (c7_cancel_twice ((RegisterGlobalEvent (emNew (κ := Nat)) 7 1 10 0 (-1)).2) 1).2.2
    (TimedMgr.temNew (κ := Nat)) TimedMgr.eraseIdx (by rfl)
  exact ⟨by decide, h.1, h.2.2.2, ht⟩

/-! ## C8: scope cancellation -/

namespace EvMgr

theorem cancelState_bucket {α κ : Type} [DecidableEq α]
    (m : List (α × HandlerBucket κ)) (sid : Int) (k : α) :
    (Assoc.find? (CancelStateHandlersInMap m sid) k).getD [] =
      ((Assoc.find? m k).getD []).filter (fun p => !(p.2.stateId == sid)) := by
  unfold CancelStateHandlersInMap
  rw [Assoc.find?_map]
  cases Assoc.find? m k <;> simp

end EvMgr

open EvMgr in
/-- Claim C8: `CancelStateEvents s` removes, in each of the three stores,
exactly the handlers whose stored `stateId` equals `s`: a pair survives in
its bucket iff it was there before and its state id differs from `s`
(hence identical `callCount` and `shots`, since the pair itself is
unchanged), and each resulting bucket is a sublist of the original bucket
(relative order preserved). -/
theorem c8_cancel_scope {κ : Type} (st : EMState κ) (sid : Int) :
    (∀ k : GlobalEventKey, ∀ p : Nat × EventHandler κ,
      ((p ∈ (Assoc.find? ((CancelStateEvents st sid).globalHandlers) k).getD [] ↔
        p ∈ (Assoc.find? st.globalHandlers k).getD [] ∧ p.2.stateId ≠ sid) ∧
      List.Sublist ((Assoc.find? ((CancelStateEvents st sid).globalHandlers) k).getD [])
        ((Assoc.find? st.globalHandlers k).getD []))) ∧
    (∀ k : EntryEventKey, ∀ p : Nat × EventHandler κ,
      ((p ∈ (Assoc.find? ((CancelStateEvents st sid).entryHandlers) k).getD [] ↔
        p ∈ (Assoc.find? st.entryHandlers k).getD [] ∧ p.2.stateId ≠ sid) ∧
      List.Sublist ((Assoc.find? ((CancelStateEvents st sid).entryHandlers) k).getD [])
        ((Assoc.find? st.entryHandlers k).getD []))) ∧
    (∀ k : UniqueEventKey, ∀ p : Nat × EventHandler κ,
      ((p ∈ (Assoc.find? ((CancelStateEvents st sid).uniqueHandlers) k).getD [] ↔
        p ∈ (Assoc.find? st.uniqueHandlers k).getD [] ∧ p.2.stateId ≠ sid) ∧
      List.Sublist ((Assoc.find? ((CancelStateEvents st sid).uniqueHandlers) k).getD [])
        ((Assoc.find? st.uniqueHandlers k).getD []))) := by
  refine ⟨fun k p => ?_, fun k p => ?_, fun k p => ?_⟩ <;>
    simp only [CancelStateEvents, cancelState_bucket] <;>
    exact ⟨by simp [List.mem_filter], List.filter_sublist _⟩

/-! ## C5: the 5000ms / 1-repeat schedule scenario -/

open TimedMgr in
/-- Claim C5: after `ScheduleGlobal(cb, delayMs = 5000, repeats = 1)` (the
ALE `RegisterGlobalEvent`), a `Tick(3000)` does not fire the callback and
leaves the record at `elapsed = 3000`; a second `Tick(3000)` fires it
exactly once (elapsed 6000 ≥ 5000) — during the scan the record is reset
to `elapsed = 0` with `remainingRepeats` decremented from 1 to 0 and
queued for removal — and the batch removal then erases the record, leaving
the manager empty; every further `Tick`, with any delta and any callback
outcome, fires nothing and changes nothing. -/
theorem c5_schedule_once :
    ∀ (fire₁ fire₂ : Nat → Bool),
    (UpdateWith eraseIdx ((TimedMgr.RegisterGlobalEvent (temNew (κ := Unit)) () 5000 1).2) 3000 fire₁).2 = [] ∧
    (Assoc.find? (UpdateWith eraseIdx ((TimedMgr.RegisterGlobalEvent (temNew (κ := Unit)) () 5000 1).2) 3000 fire₁).1.events 1).map
      (fun e => (e.elapsed, e.remainingRepeats, e.delay)) = some (3000, 1, 5000) ∧
    (scanIds 3000 fire₂
      (UpdateWith eraseIdx ((TimedMgr.RegisterGlobalEvent (temNew (κ := Unit)) () 5000 1).2) 3000 fire₁).1.events [1]).1 =
      [(1, ⟨1, (), 5000, 1, 0, 0, 0, TimedEventObjectType.GLOBAL⟩)] ∧
    (scanIds 3000 fire₂
      (UpdateWith eraseIdx ((TimedMgr.RegisterGlobalEvent (temNew (κ := Unit)) () 5000 1).2) 3000 fire₁).1.events [1]).2.2 = [1] ∧
    (UpdateWith eraseIdx
      (UpdateWith eraseIdx ((TimedMgr.RegisterGlobalEvent (temNew (κ := Unit)) () 5000 1).2) 3000 fire₁).1
      3000 fire₂).2 = [(1, fire₂ 1)] ∧
    (UpdateWith eraseIdx
      (UpdateWith eraseIdx ((TimedMgr.RegisterGlobalEvent (temNew (κ := Unit)) () 5000 1).2) 3000 fire₁).1
      3000 fire₂).1 = (⟨[], [], [], 2⟩ : TEMState Unit) ∧
    (∀ (d : Nat) (fire₃ : Nat → Bool),
      UpdateWith eraseIdx (⟨[], [], [], 2⟩ : TEMState Unit) d fire₃ =
        ((⟨[], [], [], 2⟩ : TEMState Unit), [])) := by
  intro fire₁ fire₂
  exact ⟨rfl, rfl, rfl, rfl, rfl, rfl, fun d fire₃ => rfl⟩

/-! ## More association-list lemmas (for the TimedEventManager) -/

namespace Assoc

variable {α : Type} {β : Type} [DecidableEq α]

theorem find?_eq_none_iff {m : List (α × β)} {k : α} :
    find? m k = none ↔ ∀ p ∈ m, p.1 ≠ k := by
  induction m with
  | nil => simp [find?]
  | cons p rest ih =>
    by_cases hk : p.1 = k
    · simp [find?, hk]
    · simp [find?, hk, ih]

theorem set_keys (m : List (α × β)) (k : α) (v : β) :
    (set m k v).map Prod.fst = m.map Prod.fst := by
  induction m with
  | nil => rfl
  | cons p rest ih =>
    by_cases hk : p.1 = k
    · simp [set, hk]
    · simp [set, hk, ih]

theorem find?_unique {m : List (α × β)} {k : α} {v : β}
    (hnd : (m.map Prod.fst).Nodup) (h : find? m k = some v) :
    ∀ p ∈ m, p.1 = k → p.2 = v := by
  induction m with
  | nil => simp
  | cons q rest ih =>
    intro p hp hpk
    simp only [List.map_cons, List.nodup_cons] at hnd
    by_cases hq : q.1 = k
    · simp only [find?, if_pos hq, Option.some.injEq] at h
      rcases List.mem_cons.mp hp with rfl | hp'
      · exact h ▸ rfl
      · exfalso
        exact hnd.1 (by rw [hq, ← hpk]; exact List.mem_map.mpr ⟨p, hp', rfl⟩)
    · simp only [find?, if_neg hq] at h
      rcases List.mem_cons.mp hp with rfl | hp'
      · exact absurd hpk hq
      · exact ih hnd.2 h p hp' hpk

theorem set_eq_map_of_nodup {m : List (α × β)} {k : α} (v : β)
    (hnd : (m.map Prod.fst).Nodup) :
    set m k v = m.map fun p => if p.1 = k then (k, v) else p := by
  induction m with
  | nil => rfl
  | cons q rest ih =>
    simp only [List.map_cons, List.nodup_cons] at hnd
    by_cases hq : q.1 = k
    · simp only [set, if_pos hq, List.map_cons, if_pos hq]
      congr 1
      have hrest : ∀ p ∈ rest, (if p.1 = k then (k, v) else p) = p := by
        intro p hp
        have hne : p.1 ≠ k := fun hh =>
          hnd.1 (by rw [hq, ← hh]; exact List.mem_map.mpr ⟨p, hp, rfl⟩)
        simp [hne]
      simp [List.map_congr_left hrest]
    · simp only [set, if_neg hq, List.map_cons, if_neg hq]
      rw [ih hnd.2]

theorem eraseKey_eq_filter {m : List (α × β)} {k : α}
    (hnd : (m.map Prod.fst).Nodup) :
    eraseKey m k = m.filter fun p => !decide (p.1 = k) := by
  induction m with
  | nil => rfl
  | cons q rest ih =>
    simp only [List.map_cons, List.nodup_cons] at hnd
    by_cases hq : q.1 = k
    · have hrest : ∀ p ∈ rest, (!decide (p.1 = k)) = true := by
        intro p hp
        have hne : p.1 ≠ k := fun hh =>
          hnd.1 (by rw [hq, ← hh]; exact List.mem_map.mpr ⟨p, hp, rfl⟩)
        simp [hne]
      simp only [eraseKey, if_pos hq, List.filter_cons, hq]
      simp [List.filter_eq_self.mpr hrest]
    · have hqd : (!decide (q.1 = k)) = true := by simp [hq]
      simp only [eraseKey, if_neg hq, List.filter_cons, hqd, if_true]
      rw [ih hnd.2]

theorem eraseKey_keys_sublist (m : List (α × β)) (k : α) :
    List.Sublist ((eraseKey m k).map Prod.fst) (m.map Prod.fst) := by
  induction m with
  | nil => simp [eraseKey]
  | cons q rest ih =>
    by_cases hq : q.1 = k
    · simp only [eraseKey, if_pos hq, List.map_cons]
      exact List.sublist_cons_self _ _
    · simp only [eraseKey, if_neg hq, List.map_cons]
      exact List.Sublist.cons₂ _ ih

end Assoc

/-! ## TimedEventManager: scan characterization -/

namespace TimedMgr

variable {κ : Type}

/-- The per-record effect of one update scan step: advance `elapsed`; on
firing, reset it and decrement a finite repeat count. -/
def tickRecord (d : Nat) (ev : TimedEvent κ) : TimedEvent κ :=
  let ev₁ := { ev with elapsed := u32 (ev.elapsed + d) }
  if ev₁.delay ≤ ev₁.elapsed then
    let ev₂ := { ev₁ with elapsed := 0 }
    if 0 < ev₂.repeats then { ev₂ with remainingRepeats := ev₂.remainingRepeats - 1 }
    else ev₂
  else ev₁

/-- Conditional tick of one stored entry, applied to the entries whose id
is in the scanned index. -/
def tickIf (ids : List Nat) (d : Nat) (p : Nat × TimedEvent κ) :
    Nat × TimedEvent κ :=
  if p.1 ∈ ids then (p.1, tickRecord d p.2) else p

/-- Does the indexed id fire during a scan with delta `d` (relative to the
store at the start of the scan)? -/
def firesP (evs : List (Nat × TimedEvent κ)) (d : Nat) (i : Nat) : Bool :=
  match Assoc.find? evs i with
  | none => false
  | some ev => decide (ev.delay ≤ u32 (ev.elapsed + d))

/-- Does the indexed id exhaust its repeats during such a scan (and hence
get queued for batch removal)? -/
def expiresP (evs : List (Nat × TimedEvent κ)) (d : Nat) (i : Nat) : Bool :=
  match Assoc.find? evs i with
  | none => false
  | some ev =>
    decide (ev.delay ≤ u32 (ev.elapsed + d)) && decide (0 < ev.repeats) &&
      decide (ev.remainingRepeats - 1 = 0)

theorem scanStep_none {d : Nat} {fire : Nat → Bool}
    {evs : List (Nat × TimedEvent κ)} {acc1 : List (Nat × Bool)} {acc2 : List Nat}
    {i : Nat} (h : Assoc.find? evs i = none) :
    scanStep d fire (evs, acc1, acc2) i = (evs, acc1, acc2) := by
  simp [scanStep, h]

theorem scanStep_some {d : Nat} {fire : Nat → Bool}
    {evs : List (Nat × TimedEvent κ)} {acc1 : List (Nat × Bool)} {acc2 : List Nat}
    {i : Nat} {ev : TimedEvent κ} (h : Assoc.find? evs i = some ev) :
    scanStep d fire (evs, acc1, acc2) i =
      (Assoc.set evs i (tickRecord d ev),
       acc1 ++ (if firesP evs d i then [(i, fire i)] else []),
       acc2 ++ (if expiresP evs d i then [i] else [])) := by
  unfold scanStep tickRecord firesP expiresP
  rw [h]
  by_cases hf : ev.delay ≤ u32 (ev.elapsed + d)
  · by_cases hr : 0 < ev.repeats
    · by_cases he : ev.remainingRepeats - 1 = 0 <;> simp [hf, hr, he]
    · simp [hf, hr]
  · simp [hf]

theorem scanFold_keys (d : Nat) (fire : Nat → Bool) (ids : List Nat)
    (evs : List (Nat × TimedEvent κ)) (acc1 : List (Nat × Bool)) (acc2 : List Nat) :
    ((ids.foldl (scanStep d fire) (evs, acc1, acc2)).1).map Prod.fst =
      evs.map Prod.fst := by
  induction ids generalizing evs acc1 acc2 with
  | nil => rfl
  | cons i ids ih =>
    rw [List.foldl_cons]
    cases h : Assoc.find? evs i with
    | none => rw [scanStep_none h]; exact ih evs acc1 acc2
    | some ev =>
      rw [scanStep_some h, ih, Assoc.set_keys]

theorem scanFold_char (d : Nat) (fire : Nat → Bool) (ids : List Nat)
    (evs : List (Nat × TimedEvent κ)) (acc1 : List (Nat × Bool)) (acc2 : List Nat)
    (hnd : ids.Nodup) (hknd : (evs.map Prod.fst).Nodup) :
    ids.foldl (scanStep d fire) (evs, acc1, acc2) =
      (evs.map (tickIf ids d),
       acc1 ++ (ids.filter (firesP evs d)).map (fun i => (i, fire i)),
       acc2 ++ ids.filter (expiresP evs d)) := by
  induction ids generalizing evs acc1 acc2 with
  | nil =>
    simp only [List.foldl_nil, List.filter_nil, List.map_nil, List.append_nil]
    have : ∀ p ∈ evs, tickIf [] d p = p := by
      intro p hp; simp [tickIf]
    rw [List.map_congr_left this]
    simp
  | cons i ids ih =>
    simp only [List.nodup_cons] at hnd
    rw [List.foldl_cons]
    cases h : Assoc.find? evs i with
    | none =>
      rw [scanStep_none h]
      rw [ih evs acc1 acc2 hnd.2 hknd]
      have hev : ∀ p ∈ evs, tickIf ids d p = tickIf (i :: ids) d p := by
        intro p hp
        have hne : p.1 ≠ i := Assoc.find?_eq_none_iff.mp h p hp
        simp [tickIf, hne]
      have hfP : firesP evs d i = false := by simp [firesP, h]
      have heP : expiresP evs d i = false := by simp [expiresP, h]
      rw [List.map_congr_left hev, List.filter_cons, List.filter_cons, hfP, heP]
      simp
    | some ev =>
      rw [scanStep_some h]
      have hknd₂ : ((Assoc.set evs i (tickRecord d ev)).map Prod.fst).Nodup := by
        rw [Assoc.set_keys]; exact hknd
      rw [ih _ _ _ hnd.2 hknd₂]
      refine congrArg₂ _ ?_ (congrArg₂ _ ?_ ?_)
      · rw [Assoc.set_eq_map_of_nodup _ hknd, List.map_map]
        apply List.map_congr_left
        intro p hp
        by_cases hpi : p.1 = i
        · have hpe : p.2 = ev := Assoc.find?_unique hknd h p hp hpi
          have : i ∉ ids := hnd.1
          simp [Function.comp, tickIf, hpi, this, hpe]
        · simp only [Function.comp_apply, tickIf, if_neg hpi]
          by_cases hpm : p.1 ∈ ids
          · simp [tickIf, hpm, hpi, List.mem_cons]
          · have : p.1 ∉ i :: ids := by simp [hpi, hpm]
            simp [tickIf, hpm, this]
      · have hcongr : ∀ j ∈ ids, firesP (Assoc.set evs i (tickRecord d ev)) d j = firesP evs d j := by
          intro j hj
          have hne : i ≠ j := fun hh => hnd.1 (hh ▸ hj)
          simp [firesP, Assoc.find?_set_ne _ _ hne]
        rw [List.filter_congr hcongr, List.filter_cons]
        by_cases hf : firesP evs d i <;> simp [hf]
      · have hcongr : ∀ j ∈ ids, expiresP (Assoc.set evs i (tickRecord d ev)) d j = expiresP evs d j := by
          intro j hj
          have hne : i ≠ j := fun hh => hnd.1 (hh ▸ hj)
          simp [expiresP, Assoc.find?_set_ne _ _ hne]
        rw [List.filter_congr hcongr, List.filter_cons]
        by_cases hf : expiresP evs d i <;> simp [hf]

end TimedMgr

/-! ## Batch removal: effect on the record store -/

namespace TimedMgr

theorem removeEventWith_events (rm : List Nat → Nat → List Nat)
    (s : TEMState κ) (i : Nat) :
    ((RemoveEventWith rm s i).2).events =
      match Assoc.find? s.events i with
      | none => s.events
      | some _ => Assoc.eraseKey s.events i := by
  unfold RemoveEventWith
  cases h : Assoc.find? s.events i with
  | none => rfl
  | some ev =>
    dsimp only
    by_cases hg : ev.objectType = TimedEventObjectType.GLOBAL
    · simp [hg]
    · simp only [if_neg hg]
      cases Assoc.find? s.objectEvents ev.objectGuid with
      | none => rfl
      | some l =>
        dsimp only
        by_cases he : rm l i = [] <;> simp [he]

theorem foldRemove_events (rm : List Nat → Nat → List Nat) (R : List Nat)
    (s : TEMState κ) (hknd : (s.events.map Prod.fst).Nodup) :
    (R.foldl (fun s i => (RemoveEventWith rm s i).2) s).events =
      s.events.filter fun p => !decide (p.1 ∈ R) := by
  induction R generalizing s with
  | nil =>
    simp only [List.foldl_nil]
    have : ∀ p ∈ s.events, (!decide (p.1 ∈ ([] : List Nat))) = true := by
      intro p hp; simp
    rw [List.filter_eq_self.mpr this]
  | cons i R ih =>
    rw [List.foldl_cons]
    have hev := removeEventWith_events rm s i
    cases h : Assoc.find? s.events i with
    | none =>
      rw [h] at hev
      have hknd' : (((RemoveEventWith rm s i).2).events.map Prod.fst).Nodup := by
        rw [hev]; exact hknd
      rw [ih _ hknd', hev]
      apply List.filter_congr
      intro p hp
      have hne : p.1 ≠ i := Assoc.find?_eq_none_iff.mp h p hp
      simp [hne]
    | some ev =>
      rw [h] at hev
      have hsub : List.Sublist (((RemoveEventWith rm s i).2).events.map Prod.fst)
          (s.events.map Prod.fst) := by
        rw [hev]; exact Assoc.eraseKey_keys_sublist s.events i
      have hknd' : (((RemoveEventWith rm s i).2).events.map Prod.fst).Nodup :=
        hsub.nodup hknd
      rw [ih _ hknd', hev, Assoc.eraseKey_eq_filter hknd, List.filter_filter]
      apply List.filter_congr
      intro p hp
      by_cases hpi : p.1 = i <;> simp [hpi, List.mem_cons]

theorem find?_filter_out {m : List (Nat × TimedEvent κ)} {R : List Nat} {i : Nat}
    (hi : i ∈ R) :
    Assoc.find? (m.filter fun p => !decide (p.1 ∈ R)) i = none := by
  rw [Assoc.find?_eq_none_iff]
  intro p hp hpi
  have := (List.mem_filter.mp hp).2
  rw [hpi] at this
  simp [hi] at this

end TimedMgr

/-! ## C10: failed firings still advance the bookkeeping -/

open TimedMgr in
/-- Claim C10: in the TimedScheduler, a firing whose callback fails
(`fire i = false` — a thrown exception, a Lua error, or a bound entity
that does not resolve to the expected type) still counts as a firing for
the record's bookkeeping: `UpdateEventList` calls `ExecuteEvent` and then
unconditionally resets `elapsed` and decrements `remainingRepeats`, so a
record with one remaining repeat is removed even though its callback never
executed successfully — its id is reported as fired-with-failure and its
record is gone from `m_events` afterwards.  By contrast, the
EventRegistry's `ExecuteHandler` leaves a failing handler completely
unchanged (no `callCount` increment, reported as not executed).  Stated
for both index-removal variants (`rm`). -/
theorem c10_failed_firing_advances {κ : Type} (rm : List Nat → Nat → List Nat)
    (s : TEMState κ) (i d : Nat) (ev : TimedEvent κ) (fire : Nat → Bool)
    (hknd : (s.events.map Prod.fst).Nodup) (hgnd : s.globalEvents.Nodup)
    (hin : i ∈ s.globalEvents) (hev : Assoc.find? s.events i = some ev)
    (hrem : ev.remainingRepeats = 1) (hrep : 0 < ev.repeats)
    (hfires : ev.delay ≤ u32 (ev.elapsed + d)) (hfail : fire i = false) :
    (i, false) ∈ (UpdateWith rm s d fire).2 ∧
    Assoc.find? ((UpdateWith rm s d fire).1).events i = none ∧
    (∀ (run : κ → Bool) (h : EvMgr.EventHandler κ), run h.function = false →
      EvMgr.ExecuteHandler run h = (false, h)) := by
  have hne : s.globalEvents ≠ [] := List.ne_nil_of_mem hin
  have hchar := scanFold_char d fire s.globalEvents s.events [] [] hgnd hknd
  have hfP : firesP s.events d i = true := by simp [firesP, hev, hfires]
  have heP : expiresP s.events d i = true := by
    simp [expiresP, hev, hfires, hrep, hrem]
  have hscan : scanIds d fire s.events s.globalEvents =
      (s.events.map (tickIf s.globalEvents d),
       (s.globalEvents.filter (firesP s.events d)).map (fun i => (i, fire i)),
       s.globalEvents.filter (expiresP s.events d)) := by
    unfold scanIds
    rw [hchar]
    simp
  refine ⟨?_, ?_, fun run h hf => EvMgr.executeHandler_fail run h hf⟩
  · simp only [UpdateWith, if_neg hne, hscan]
    have : i ∈ s.globalEvents.filter (firesP s.events d) :=
      List.mem_filter.mpr ⟨hin, hfP⟩
    have hmem : (i, fire i) ∈
        (s.globalEvents.filter (firesP s.events d)).map (fun i => (i, fire i)) :=
      List.mem_map.mpr ⟨i, this, rfl⟩
    rw [hfail] at hmem
    exact hmem
  · simp only [UpdateWith, if_neg hne, hscan]
    have hknd' : ((s.events.map (tickIf s.globalEvents d)).map Prod.fst).Nodup := by
      have : (s.events.map (tickIf s.globalEvents d)).map Prod.fst = s.events.map Prod.fst := by
        rw [List.map_map]
        apply List.map_congr_left
        intro p hp
        by_cases hpm : p.1 ∈ s.globalEvents <;> simp [tickIf, hpm]
      rw [this]; exact hknd
    rw [foldRemove_events rm _ _ hknd']
    apply find?_filter_out
    exact List.mem_filter.mpr ⟨hin, heP⟩

open TimedMgr in
/-- Witness for C10: one scheduled record with delay 100, one repeat and a
failing callback; `Update 150` reports the failed firing and the record is
removed. -/
theorem c10_witness :
    ((⟨[(1, ⟨1, (), 100, 1, 1, 0, 0, TimedEventObjectType.GLOBAL⟩)], [], [1], 2⟩ :
        TEMState Unit).events.map Prod.fst).Nodup ∧
    (1, false) ∈ (UpdateWith eraseIdx
      (⟨[(1, ⟨1, (), 100, 1, 1, 0, 0, TimedEventObjectType.GLOBAL⟩)], [], [1], 2⟩ : TEMState Unit)
      150 (fun _ => false)).2 ∧
    Assoc.find? ((UpdateWith eraseIdx
      (⟨[(1, ⟨1, (), 100, 1, 1, 0, 0, TimedEventObjectType.GLOBAL⟩)], [], [1], 2⟩ : TEMState Unit)
      150 (fun _ => false)).1).events 1 = none := by
  have h := c10_failed_firing_advances eraseIdx
    (⟨[(1, ⟨1, (), 100, 1, 1, 0, 0, TimedEventObjectType.GLOBAL⟩)], [], [1], 2⟩ : TEMState Unit)
    1 150 ⟨1, (), 100, 1, 1, 0, 0, TimedEventObjectType.GLOBAL⟩ (fun _ => false)
    (by decide) (by decide) (by decide) rfl rfl (by decide) (by decide) rfl
  exact ⟨by decide, h.1, h.2.1⟩

/-! ## C1: shot-limit enforcement along traces -/

namespace EvMgr

/-- Shape of a register step: one fresh pair is added (somewhere in the
stores) and the id counter advances. -/
def RegisterShape {κ : Type} (st st' : EMState κ) (rec : EventHandler κ) : Prop :=
  List.Perm (statePairs st') ((st.nextHandlerId, rec) :: statePairs st) ∧
  st'.nextHandlerId = st.nextHandlerId + 1

/-- Shape of a cancellation step: pairs are only removed, in place. -/
def RemovalShape {κ : Type} (st st' : EMState κ) : Prop :=
  List.Sublist (statePairs st') (statePairs st) ∧
  st'.nextHandlerId = st.nextHandlerId

/-- Shape of a trigger step: either nothing happens (missing bucket), or
exactly one contiguous bucket of the stores is scanned by `runHandlers`
and pruned, with the executed ids coming from that scan. -/
def TriggerShape {κ : Type} (st st' : EMState κ) (execs : List Nat) : Prop :=
  st'.nextHandlerId = st.nextHandlerId ∧
  ((statePairs st' = statePairs st ∧ execs = []) ∨
   (∃ P₁ b P₂ run, statePairs st = P₁ ++ b ++ P₂ ∧
     statePairs st' = P₁ ++ RemoveExpiredHandlers (runHandlers run b).1 ++ P₂ ∧
     execs = (runHandlers run b).2))

theorem runHandlers_ids (run : κ → Bool) (b : HandlerBucket κ) :
    ((runHandlers run b).1).map Prod.fst = b.map Prod.fst := by
  rw [runHandlers_fst, List.map_map]
  rfl

theorem prune_ids_sublist (run : κ → Bool) (b : HandlerBucket κ) :
    List.Sublist ((RemoveExpiredHandlers (runHandlers run b).1).map Prod.fst)
      (b.map Prod.fst) := by
  rw [← runHandlers_ids run b]
  exact (List.filter_sublist _).map Prod.fst

theorem execs_count_le (run : κ → Bool) (b : HandlerBucket κ) (i : Nat) :
    ((runHandlers run b).2).count i ≤ (b.map Prod.fst).count i := by
  rw [runHandlers_snd]
  exact ((List.filter_sublist b).map Prod.fst).count_le i

theorem bucket_decomp_of_count_one {b : HandlerBucket κ} {i : Nat}
    (h : (b.map Prod.fst).count i = 1) :
    ∃ b₁ hdl b₂, b = b₁ ++ (i, hdl) :: b₂ ∧
      (b₁.map Prod.fst).count i = 0 ∧ (b₂.map Prod.fst).count i = 0 := by
  induction b with
  | nil => simp at h
  | cons p rest ih =>
    by_cases hpi : p.1 = i
    · refine ⟨[], p.2, rest, ?_, ?_, ?_⟩
      · simp [← hpi]
      · simp
      · simp only [List.map_cons, List.count_cons] at h
        simp [hpi] at h
        exact h
    · simp only [List.map_cons, List.count_cons] at h
      have hrest : (rest.map Prod.fst).count i = 1 := by
        simp [hpi] at h
        exact h
      obtain ⟨b₁, hdl, b₂, hb, h1, h2⟩ := ih hrest
      refine ⟨p :: b₁, hdl, b₂, by simp [hb], ?_, h2⟩
      simp [List.count_cons, hpi, h1]

/-- The tracking invariant for one observed handler id `i` with shot limit
`N` and current successful-execution total `c`. -/
structure TrackInv {κ : Type} (st : EMState κ) (i N c : Nat) : Prop where
  bounded : ∀ j ∈ stateIds st, j < st.nextHandlerId
  tracked_lt : i < st.nextHandlerId
  occ_le : occCount st i ≤ 1
  rec_fields : ∀ p ∈ statePairs st, p.1 = i → p.2.shots = N ∧ p.2.callCount = c
  rec_lt : (∃ p ∈ statePairs st, p.1 = i) → c < N
  c_le : c ≤ N
  N_pos : 0 < N
  N_lt : N < 4294967296

theorem occCount_def {κ : Type} (st : EMState κ) (i : Nat) :
    occCount st i = (stateIds st).count i := rfl

theorem trackInv_register {κ : Type} {st st' : EMState κ} {rec : EventHandler κ}
    {i N c : Nat} (h : RegisterShape st st' rec) (inv : TrackInv st i N c) :
    TrackInv st' i N c := by
  obtain ⟨hperm, hnext⟩ := h
  have hperm_ids : List.Perm (stateIds st')
      (st.nextHandlerId :: stateIds st) := hperm.map Prod.fst
  have hi_ne : st.nextHandlerId ≠ i := fun hh => by
    have := inv.tracked_lt
    omega
  refine ⟨?_, ?_, ?_, ?_, ?_, inv.c_le, inv.N_pos, inv.N_lt⟩
  · intro j hj
    rw [hnext]
    rcases List.mem_cons.mp (hperm_ids.mem_iff.mp hj) with rfl | hmem
    · omega
    · have := inv.bounded j hmem
      omega
  · rw [hnext]
    have := inv.tracked_lt
    omega
  · rw [occCount_def, hperm_ids.count_eq]
    have hcc : (st.nextHandlerId :: stateIds st).count i = (stateIds st).count i := by
      rw [List.count_cons]
      simp [hi_ne]
    rw [hcc]
    exact inv.occ_le
  · intro p hp hpi
    rcases List.mem_cons.mp (hperm.mem_iff.mp hp) with rfl | hmem
    · exact absurd hpi hi_ne
    · exact inv.rec_fields p hmem hpi
  · rintro ⟨p, hp, hpi⟩
    rcases List.mem_cons.mp (hperm.mem_iff.mp hp) with rfl | hmem
    · exact absurd hpi hi_ne
    · exact inv.rec_lt ⟨p, hmem, hpi⟩

theorem trackInv_removal {κ : Type} {st st' : EMState κ} {i N c : Nat}
    (h : RemovalShape st st') (inv : TrackInv st i N c) :
    TrackInv st' i N c := by
  obtain ⟨hsub, hnext⟩ := h
  have hsub_ids : List.Sublist (stateIds st') (stateIds st) := hsub.map Prod.fst
  refine ⟨?_, ?_, ?_, ?_, ?_, inv.c_le, inv.N_pos, inv.N_lt⟩
  · intro j hj
    rw [hnext]
    exact inv.bounded j (hsub_ids.subset hj)
  · rw [hnext]; exact inv.tracked_lt
  · have h1 : occCount st' i ≤ occCount st i := by
      rw [occCount_def, occCount_def]
      exact hsub_ids.count_le i
    exact le_trans h1 inv.occ_le
  · intro p hp hpi
    exact inv.rec_fields p (hsub.subset hp) hpi
  · rintro ⟨p, hp, hpi⟩
    exact inv.rec_lt ⟨p, hsub.subset hp, hpi⟩

end EvMgr

namespace EvMgr

theorem no_id_of_count_zero {κ : Type} {l : HandlerBucket κ} {i : Nat}
    (h : (l.map Prod.fst).count i = 0) : ∀ p ∈ l, p.1 ≠ i := by
  intro p hp hpi
  have : i ∈ l.map Prod.fst := List.mem_map.mpr ⟨p, hp, hpi⟩
  rw [List.count_eq_zero] at h
  exact h this

theorem trackInv_trigger {κ : Type} {st st' : EMState κ} {execs : List Nat}
    {i N c : Nat} (h : TriggerShape st st' execs) (inv : TrackInv st i N c) :
    TrackInv st' i N (c + execs.count i) := by
  obtain ⟨hnext, hcase⟩ := h
  rcases hcase with ⟨heq, hexecs⟩ | ⟨P₁, b, P₂, run, hdec, hdec', hexecs⟩
  · subst hexecs
    simp only [List.count_nil, Nat.add_zero]
    have hids : stateIds st' = stateIds st := by
      unfold stateIds
      rw [heq]
    refine ⟨?_, ?_, ?_, ?_, ?_, inv.c_le, inv.N_pos, inv.N_lt⟩
    · intro j hj; rw [hnext]; exact inv.bounded j (hids ▸ hj)
    · rw [hnext]; exact inv.tracked_lt
    · rw [occCount_def, hids, ← occCount_def]; exact inv.occ_le
    · intro p hp hpi; exact inv.rec_fields p (heq ▸ hp) hpi
    · rintro ⟨p, hp, hpi⟩; exact inv.rec_lt ⟨p, heq ▸ hp, hpi⟩
  · -- occurrence counting in the decomposition
    have hcnt : occCount st i =
        (P₁.map Prod.fst).count i + (b.map Prod.fst).count i +
        (P₂.map Prod.fst).count i := by
      rw [occCount_def]
      unfold stateIds
      rw [hdec]
      simp only [List.map_append, List.count_append]
    have hocc := inv.occ_le
    -- membership transfers
    have hmemP₁ : ∀ p ∈ P₁, p ∈ statePairs st := by
      intro p hp; rw [hdec]; simp [hp]
    have hmemP₂ : ∀ p ∈ P₂, p ∈ statePairs st := by
      intro p hp; rw [hdec]; simp [hp]
    have hmemb : ∀ p ∈ b, p ∈ statePairs st := by
      intro p hp; rw [hdec]; simp [hp]
    have hprune_sub := prune_ids_sublist run b
    -- pruned ids are bucket ids
    have hprune_mem : ∀ p ∈ RemoveExpiredHandlers (runHandlers run b).1,
        p.1 ∈ b.map Prod.fst := by
      intro p hp
      exact hprune_sub.subset (List.mem_map.mpr ⟨p, hp, rfl⟩)
    have hbound : ∀ j ∈ stateIds st', j < st'.nextHandlerId := by
      intro j hj
      rw [hnext]
      unfold stateIds at hj
      rw [hdec'] at hj
      simp only [List.map_append, List.mem_append] at hj
      rcases hj with (hj | hj) | hj
      · exact inv.bounded j (by unfold stateIds; rw [hdec]; simp only [List.map_append, List.mem_append]; tauto)
      · have : j ∈ b.map Prod.fst := hprune_sub.subset hj
        exact inv.bounded j (by unfold stateIds; rw [hdec]; simp only [List.map_append, List.mem_append]; tauto)
      · exact inv.bounded j (by unfold stateIds; rw [hdec]; simp only [List.map_append, List.mem_append]; tauto)
    have hocc' : occCount st' i ≤ 1 := by
      have hc' : occCount st' i =
          (P₁.map Prod.fst).count i +
          ((RemoveExpiredHandlers (runHandlers run b).1).map Prod.fst).count i +
          (P₂.map Prod.fst).count i := by
        rw [occCount_def]
        unfold stateIds
        rw [hdec']
        simp only [List.map_append, List.count_append]
      have hle := hprune_sub.count_le i
      omega
    by_cases hcb : (b.map Prod.fst).count i = 0
    · -- the tracked handler is not in the triggered bucket
      have hex0 : execs.count i = 0 := by
        have := execs_count_le run b i
        rw [← hexecs] at this
        omega
      rw [hex0, Nat.add_zero]
      refine ⟨hbound, by rw [hnext]; exact inv.tracked_lt, hocc', ?_, ?_,
        inv.c_le, inv.N_pos, inv.N_lt⟩
      · intro p hp hpi
        rw [hdec'] at hp
        rcases List.mem_append.mp hp with hp' | hp₂
        · rcases List.mem_append.mp hp' with hp₁ | hpmid
          · exact inv.rec_fields p (hmemP₁ p hp₁) hpi
          · exfalso
            have : p.1 ∈ b.map Prod.fst := hprune_mem p hpmid
            rw [hpi] at this
            rw [List.count_eq_zero] at hcb
            exact hcb this
        · exact inv.rec_fields p (hmemP₂ p hp₂) hpi
      · rintro ⟨p, hp, hpi⟩
        rw [hdec'] at hp
        rcases List.mem_append.mp hp with hp' | hp₂
        · rcases List.mem_append.mp hp' with hp₁ | hpmid
          · exact inv.rec_lt ⟨p, hmemP₁ p hp₁, hpi⟩
          · exfalso
            have : p.1 ∈ b.map Prod.fst := hprune_mem p hpmid
            rw [hpi] at this
            rw [List.count_eq_zero] at hcb
            exact hcb this
        · exact inv.rec_lt ⟨p, hmemP₂ p hp₂, hpi⟩
    · -- the tracked handler sits (once) in the triggered bucket
      have hcb1 : (b.map Prod.fst).count i = 1 := by omega
      have hc1 : (P₁.map Prod.fst).count i = 0 := by omega
      have hc2 : (P₂.map Prod.fst).count i = 0 := by omega
      obtain ⟨b₁, hdl, b₂, hb, hb₁, hb₂⟩ := bucket_decomp_of_count_one hcb1
      have hmid : (i, hdl) ∈ statePairs st := hmemb _ (by rw [hb]; simp)
      obtain ⟨hshots, hcall⟩ := inv.rec_fields (i, hdl) hmid rfl
      have hlt : c < N := inv.rec_lt ⟨(i, hdl), hmid, rfl⟩
      have hshould : hdl.ShouldExecute = true := by
        unfold EventHandler.ShouldExecute
        rw [hshots, hcall]
        simp [hlt]
      -- split the scan at the tracked handler
      have hsplit : runHandlers run b =
          ((runHandlers run b₁).1 ++
            (i, (ExecuteHandler run hdl).2) :: (runHandlers run b₂).1,
           (runHandlers run b₁).2 ++
            (if (ExecuteHandler run hdl).1 then i :: (runHandlers run b₂).2
             else (runHandlers run b₂).2)) := by
        rw [hb, runHandlers_append]
        simp [runHandlers]
      have hexecs₁ : ((runHandlers run b₁).2).count i = 0 := by
        have := execs_count_le run b₁ i
        omega
      have hexecs₂ : ((runHandlers run b₂).2).count i = 0 := by
        have := execs_count_le run b₂ i
        omega
      have hprune₁ : ∀ p ∈ RemoveExpiredHandlers (runHandlers run b₁).1, p.1 ≠ i := by
        intro p hp
        have : p.1 ∈ b₁.map Prod.fst := (prune_ids_sublist run b₁).subset
          (List.mem_map.mpr ⟨p, hp, rfl⟩)
        intro hpi
        rw [hpi] at this
        rw [List.count_eq_zero] at hb₁
        exact hb₁ this
      have hprune₂ : ∀ p ∈ RemoveExpiredHandlers (runHandlers run b₂).1, p.1 ≠ i := by
        intro p hp
        have : p.1 ∈ b₂.map Prod.fst := (prune_ids_sublist run b₂).subset
          (List.mem_map.mpr ⟨p, hp, rfl⟩)
        intro hpi
        rw [hpi] at this
        rw [List.count_eq_zero] at hb₂
        exact hb₂ this
      have hP₁ne : ∀ p ∈ P₁, p.1 ≠ i := no_id_of_count_zero hc1
      have hP₂ne : ∀ p ∈ P₂, p.1 ≠ i := no_id_of_count_zero hc2
      by_cases hok : run hdl.function
      · -- the tracked handler executes successfully
        have hexe : ExecuteHandler run hdl =
            (true, { hdl with callCount := u32 (hdl.callCount + 1) }) := by
          unfold ExecuteHandler
          rw [hshould, hok]
          simp
        have hu32 : u32 (hdl.callCount + 1) = c + 1 := by
          rw [hcall]
          unfold u32
          have := inv.N_lt
          omega
        have hdl' : (ExecuteHandler run hdl).2 =
            { hdl with callCount := c + 1 } := by
          rw [hexe, hu32]
        have hcnt_ex : execs.count i = 1 := by
          rw [hexecs, hsplit]
          simp only [hexe, if_true, List.count_append, List.count_cons]
          simp [hexecs₁, hexecs₂]
        rw [hcnt_ex]
        have hexp : ({ hdl with callCount := c + 1 } : EventHandler κ).IsExpired =
            decide (N ≤ c + 1) := by
          unfold EventHandler.IsExpired
          rw [hshots]
          simp [inv.N_pos]
        -- the new middle bucket after pruning
        have hprune_eq : RemoveExpiredHandlers (runHandlers run b).1 =
            RemoveExpiredHandlers (runHandlers run b₁).1 ++
            ((if !({ hdl with callCount := c + 1 } : EventHandler κ).IsExpired
              then [(i, ({ hdl with callCount := c + 1 } : EventHandler κ))] else []) ++
             RemoveExpiredHandlers (runHandlers run b₂).1) := by
          rw [hsplit]
          simp only [hdl']
          unfold RemoveExpiredHandlers
          rw [List.filter_append, List.filter_cons]
          by_cases hx : (!({ hdl with callCount := c + 1 } : EventHandler κ).IsExpired) = true
          · simp [hx]
          · simp only [Bool.not_eq_true] at hx
            simp [hx]
        by_cases hreach : c + 1 = N
        · -- shot limit reached: the record is pruned
          have hexpired : ({ hdl with callCount := c + 1 } : EventHandler κ).IsExpired = true := by
            rw [hexp, hreach]
            simp
          refine ⟨hbound, by rw [hnext]; exact inv.tracked_lt, hocc', ?_, ?_, by omega,
            inv.N_pos, inv.N_lt⟩
          · intro p hp hpi
            exfalso
            rw [hdec', hprune_eq, hexpired] at hp
            simp only [Bool.not_true, Bool.false_eq_true, if_false, List.nil_append,
              List.mem_append] at hp
            rcases hp with (hp₁ | hpm) | hp₂
            · exact hP₁ne p hp₁ hpi
            · rcases hpm with hpm₁ | hpm₂
              · exact hprune₁ p hpm₁ hpi
              · exact hprune₂ p hpm₂ hpi
            · exact hP₂ne p hp₂ hpi
          · rintro ⟨p, hp, hpi⟩
            exfalso
            rw [hdec', hprune_eq, hexpired] at hp
            simp only [Bool.not_true, Bool.false_eq_true, if_false, List.nil_append,
              List.mem_append] at hp
            rcases hp with (hp₁ | hpm) | hp₂
            · exact hP₁ne p hp₁ hpi
            · rcases hpm with hpm₁ | hpm₂
              · exact hprune₁ p hpm₁ hpi
              · exact hprune₂ p hpm₂ hpi
            · exact hP₂ne p hp₂ hpi
        · -- still below the limit: the record stays with callCount c+1
          have hnotexp : ({ hdl with callCount := c + 1 } : EventHandler κ).IsExpired = false := by
            rw [hexp]
            simp
            omega
          refine ⟨hbound, by rw [hnext]; exact inv.tracked_lt, hocc', ?_, ?_, by omega,
            inv.N_pos, inv.N_lt⟩
          · intro p hp hpi
            rw [hdec', hprune_eq, hnotexp] at hp
            simp only [Bool.not_false, if_true, List.mem_append, List.mem_singleton] at hp
            rcases hp with (hp₁ | hpm) | hp₂
            · exact absurd hpi (hP₁ne p hp₁)
            · rcases hpm with hpm₁ | hpm
              · exact absurd hpi (hprune₁ p hpm₁)
              · rcases hpm with rfl | hpm₂
                · constructor
                  · exact hshots
                  · rfl
                · exact absurd hpi (hprune₂ p hpm₂)
            · exact absurd hpi (hP₂ne p hp₂)
          · rintro ⟨p, hp, hpi⟩
            omega
      · -- the invocation fails; the handler record is untouched
        have hexe : ExecuteHandler run hdl = (false, hdl) := by
          unfold ExecuteHandler
          rw [hshould]
          simp only [Bool.not_eq_true] at hok
          rw [hok]
          simp
        have hcnt_ex : execs.count i = 0 := by
          rw [hexecs, hsplit]
          simp only [hexe, Bool.false_eq_true, if_false, List.count_append]
          simp [hexecs₁, hexecs₂]
        rw [hcnt_ex, Nat.add_zero]
        have hnotexp : hdl.IsExpired = false := by
          unfold EventHandler.IsExpired
          rw [hshots, hcall]
          simp
          omega
        have hprune_eq : RemoveExpiredHandlers (runHandlers run b).1 =
            RemoveExpiredHandlers (runHandlers run b₁).1 ++
            ((i, hdl) :: RemoveExpiredHandlers (runHandlers run b₂).1) := by
          rw [hsplit]
          simp only [hexe]
          unfold RemoveExpiredHandlers
          rw [List.filter_append, List.filter_cons]
          simp [hnotexp]
        refine ⟨hbound, by rw [hnext]; exact inv.tracked_lt, hocc', ?_, ?_,
          inv.c_le, inv.N_pos, inv.N_lt⟩
        · intro p hp hpi
          rw [hdec', hprune_eq] at hp
          simp only [List.mem_append, List.mem_cons] at hp
          rcases hp with (hp₁ | hpm) | hp₂
          · exact absurd hpi (hP₁ne p hp₁)
          · rcases hpm with hpm₁ | hpm
            · exact absurd hpi (hprune₁ p hpm₁)
            · rcases hpm with rfl | hpm₂
              · exact ⟨hshots, hcall⟩
              · exact absurd hpi (hprune₂ p hpm₂)
          · exact absurd hpi (hP₂ne p hp₂)
        · intro _
          exact hlt

end EvMgr

namespace EvMgr

theorem emStep_register_shape {κ ρ : Type} (st : EMState κ) {op : EMOp κ ρ} {N : Nat}
    (h : regShots op = some N) :
    ∃ rec : EventHandler κ, rec.shots = N ∧ rec.callCount = 0 ∧
      RegisterShape st (EMStep st op).1 rec ∧ (EMStep st op).2 = [] := by
  cases op with
  | registerGlobal cat ty cb shots sid =>
    refine ⟨⟨cb, shots, 0, sid⟩, by simpa [regShots] using h, rfl, ⟨?_, rfl⟩, rfl⟩
    simp only [EMStep, RegisterGlobalEvent, statePairs]
    exact ((mapPairs_appendAt st.globalHandlers ⟨cat, ty⟩
      (st.nextHandlerId, ⟨cb, shots, 0, sid⟩)).append_right _).append_right _
  | registerEntry cat ty entry cb shots sid =>
    refine ⟨⟨cb, shots, 0, sid⟩, by simpa [regShots] using h, rfl, ⟨?_, rfl⟩, rfl⟩
    simp only [EMStep, RegisterEntryEvent, statePairs]
    exact (((mapPairs_appendAt st.entryHandlers ⟨cat, ty, entry⟩
      (st.nextHandlerId, ⟨cb, shots, 0, sid⟩)).append_left _).trans
        List.perm_middle).append_right _
  | registerUnique cat ty guid cb shots sid =>
    refine ⟨⟨cb, shots, 0, sid⟩, by simpa [regShots] using h, rfl, ⟨?_, rfl⟩, rfl⟩
    simp only [EMStep, RegisterUniqueEvent, statePairs]
    exact ((mapPairs_appendAt st.uniqueHandlers ⟨cat, ty, guid⟩
      (st.nextHandlerId, ⟨cb, shots, 0, sid⟩)).append_left _).trans List.perm_middle
  | triggerGlobal cat ty run => simp [regShots] at h
  | triggerEntry cat ty entry run => simp [regShots] at h
  | triggerUnique cat ty guid run => simp [regShots] at h
  | triggerGlobalWR cat ty dflt run => simp [regShots] at h
  | triggerEntryWR cat ty entry dflt run => simp [regShots] at h
  | cancelEvent i => simp [regShots] at h
  | cancelGlobal cat ty => simp [regShots] at h
  | cancelEntry cat ty entry => simp [regShots] at h
  | cancelUnique cat ty guid => simp [regShots] at h
  | cancelState sid => simp [regShots] at h
  | cancelAll => simp [regShots] at h

end EvMgr

namespace EvMgr

theorem emStep_nonregister_shape {κ ρ : Type} (st : EMState κ) {op : EMOp κ ρ}
    (h : regShots op = none) :
    (RemovalShape st (EMStep st op).1 ∧ (EMStep st op).2 = []) ∨
    TriggerShape st (EMStep st op).1 (EMStep st op).2 := by
  cases op with
  | registerGlobal cat ty cb shots sid => simp [regShots] at h
  | registerEntry cat ty entry cb shots sid => simp [regShots] at h
  | registerUnique cat ty guid cb shots sid => simp [regShots] at h
  | triggerGlobal cat ty run =>
    right
    refine ⟨rfl, ?_⟩
    cases hf : Assoc.find? st.globalHandlers ⟨cat, ty⟩ with
    | none =>
      left
      constructor
      · simp [EMStep, TriggerGlobalEvent, triggerInMap, hf, statePairs]
      · simp [EMStep, TriggerGlobalEvent, triggerInMap, hf]
    | some b =>
      right
      obtain ⟨Q₁, Q₂, hQ, hQ'⟩ :=
        mapPairs_set_decomp (RemoveExpiredHandlers (runHandlers run b).1) hf
      refine ⟨Q₁, b, Q₂ ++ mapPairs st.entryHandlers ++ mapPairs st.uniqueHandlers,
        run, ?_, ?_, ?_⟩
      · simp only [statePairs, hQ]
        simp [List.append_assoc]
      · simp only [EMStep, TriggerGlobalEvent, triggerInMap, hf, statePairs]
        rw [hQ']
        simp [List.append_assoc]
      · simp [EMStep, TriggerGlobalEvent, triggerInMap, hf]
  | triggerEntry cat ty entry run =>
    right
    refine ⟨rfl, ?_⟩
    cases hf : Assoc.find? st.entryHandlers ⟨cat, ty, entry⟩ with
    | none =>
      left
      constructor
      · simp [EMStep, TriggerEntryEvent, triggerInMap, hf, statePairs]
      · simp [EMStep, TriggerEntryEvent, triggerInMap, hf]
    | some b =>
      right
      obtain ⟨Q₁, Q₂, hQ, hQ'⟩ :=
        mapPairs_set_decomp (RemoveExpiredHandlers (runHandlers run b).1) hf
      refine ⟨mapPairs st.globalHandlers ++ Q₁, b, Q₂ ++ mapPairs st.uniqueHandlers,
        run, ?_, ?_, ?_⟩
      · simp only [statePairs, hQ]
        simp [List.append_assoc]
      · simp only [EMStep, TriggerEntryEvent, triggerInMap, hf, statePairs]
        rw [hQ']
        simp [List.append_assoc]
      · simp [EMStep, TriggerEntryEvent, triggerInMap, hf]
  | triggerUnique cat ty guid run =>
    right
    refine ⟨rfl, ?_⟩
    cases hf : Assoc.find? st.uniqueHandlers ⟨cat, ty, guid⟩ with
    | none =>
      left
      constructor
      · simp [EMStep, TriggerUniqueEvent, triggerInMap, hf, statePairs]
      · simp [EMStep, TriggerUniqueEvent, triggerInMap, hf]
    | some b =>
      right
      obtain ⟨Q₁, Q₂, hQ, hQ'⟩ :=
        mapPairs_set_decomp (RemoveExpiredHandlers (runHandlers run b).1) hf
      refine ⟨mapPairs st.globalHandlers ++ mapPairs st.entryHandlers ++ Q₁, b, Q₂,
        run, ?_, ?_, ?_⟩
      · simp only [statePairs, hQ]
        simp [List.append_assoc]
      · simp only [EMStep, TriggerUniqueEvent, triggerInMap, hf, statePairs]
        rw [hQ']
        simp [List.append_assoc]
      · simp [EMStep, TriggerUniqueEvent, triggerInMap, hf]
  | triggerGlobalWR cat ty dflt run =>
    right
    refine ⟨rfl, ?_⟩
    cases hf : Assoc.find? st.globalHandlers ⟨cat, ty⟩ with
    | none =>
      left
      constructor
      · simp [EMStep, TriggerGlobalEventWithReturn, triggerInMapWR, hf, statePairs]
      · simp [EMStep, TriggerGlobalEventWithReturn, triggerInMapWR, hf]
    | some b =>
      right
      obtain ⟨hbk, hex⟩ := runHandlersWR_bucket run b dflt
      obtain ⟨Q₁, Q₂, hQ, hQ'⟩ :=
        mapPairs_set_decomp (RemoveExpiredHandlers (runHandlers (succeedsOf run) b).1) hf
      refine ⟨Q₁, b, Q₂ ++ mapPairs st.entryHandlers ++ mapPairs st.uniqueHandlers,
        succeedsOf run, ?_, ?_, ?_⟩
      · simp only [statePairs, hQ]
        simp [List.append_assoc]
      · simp only [EMStep, TriggerGlobalEventWithReturn, triggerInMapWR, hf, statePairs]
        rw [hbk, hQ']
        simp [List.append_assoc]
      · simp [EMStep, TriggerGlobalEventWithReturn, triggerInMapWR, hf, hex]
  | triggerEntryWR cat ty entry dflt run =>
    right
    refine ⟨rfl, ?_⟩
    cases hf : Assoc.find? st.entryHandlers ⟨cat, ty, entry⟩ with
    | none =>
      left
      constructor
      · simp [EMStep, TriggerEntryEventWithReturn, triggerInMapWR, hf, statePairs]
      · simp [EMStep, TriggerEntryEventWithReturn, triggerInMapWR, hf]
    | some b =>
      right
      obtain ⟨hbk, hex⟩ := runHandlersWR_bucket run b dflt
      obtain ⟨Q₁, Q₂, hQ, hQ'⟩ :=
        mapPairs_set_decomp (RemoveExpiredHandlers (runHandlers (succeedsOf run) b).1) hf
      refine ⟨mapPairs st.globalHandlers ++ Q₁, b, Q₂ ++ mapPairs st.uniqueHandlers,
        succeedsOf run, ?_, ?_, ?_⟩
      · simp only [statePairs, hQ]
        simp [List.append_assoc]
      · simp only [EMStep, TriggerEntryEventWithReturn, triggerInMapWR, hf, statePairs]
        rw [hbk, hQ']
        simp [List.append_assoc]
      · simp [EMStep, TriggerEntryEventWithReturn, triggerInMapWR, hf, hex]
  | cancelEvent i =>
    left
    refine ⟨⟨?_, cancelEvent_next st i⟩, rfl⟩
    simp only [EMStep]
    unfold CancelEvent
    cases hg : FindAndCancelHandler st.globalHandlers i with
    | some g' =>
      simp only [statePairs]
      exact ((findAndCancel_sublist hg).append (List.Sublist.refl _)).append
        (List.Sublist.refl _)
    | none =>
      cases he : FindAndCancelHandler st.entryHandlers i with
      | some e' =>
        simp only [statePairs]
        exact ((List.Sublist.refl _).append (findAndCancel_sublist he)).append
          (List.Sublist.refl _)
      | none =>
        cases hu : FindAndCancelHandler st.uniqueHandlers i with
        | some u' =>
          simp only [statePairs]
          exact ((List.Sublist.refl _).append (List.Sublist.refl _)).append
            (findAndCancel_sublist hu)
        | none =>
          simp only [statePairs]
          exact List.Sublist.refl _
  | cancelGlobal cat ty =>
    left
    refine ⟨⟨?_, rfl⟩, rfl⟩
    simp only [EMStep, CancelGlobalEvent, statePairs]
    exact ((mapPairs_eraseKey _ _).append (List.Sublist.refl _)).append
      (List.Sublist.refl _)
  | cancelEntry cat ty entry =>
    left
    refine ⟨⟨?_, rfl⟩, rfl⟩
    simp only [EMStep, CancelEntryEvent, statePairs]
    exact ((List.Sublist.refl _).append (mapPairs_eraseKey _ _)).append
      (List.Sublist.refl _)
  | cancelUnique cat ty guid =>
    left
    refine ⟨⟨?_, rfl⟩, rfl⟩
    simp only [EMStep, CancelUniqueEvent, statePairs]
    exact ((List.Sublist.refl _).append (List.Sublist.refl _)).append
      (mapPairs_eraseKey _ _)
  | cancelState sid =>
    left
    refine ⟨⟨?_, rfl⟩, rfl⟩
    simp only [EMStep, CancelStateEvents, statePairs]
    exact ((mapPairs_cancelState _ _).append (mapPairs_cancelState _ _)).append
      (mapPairs_cancelState _ _)
  | cancelAll =>
    left
    refine ⟨⟨?_, rfl⟩, rfl⟩
    simp only [EMStep, CancelAllEvents, statePairs, mapPairs]
    simp

end EvMgr

namespace EvMgr

theorem trackInv_step {κ ρ : Type} {st : EMState κ} (op : EMOp κ ρ) {i N c : Nat}
    (inv : TrackInv st i N c) :
    TrackInv (EMStep st op).1 i N (c + ((EMStep st op).2).count i) := by
  cases hreg : regShots (κ := κ) (ρ := ρ) op with
  | some n =>
    obtain ⟨rec, _, _, hshape, hex⟩ := emStep_register_shape st hreg
    rw [hex]
    simp only [List.count_nil, Nat.add_zero]
    exact trackInv_register hshape inv
  | none =>
    rcases emStep_nonregister_shape st hreg with ⟨hshape, hex⟩ | hshape
    · rw [hex]
      simp only [List.count_nil, Nat.add_zero]
      exact trackInv_removal hshape inv
    · exact trackInv_trigger hshape inv

theorem trackInv_trace {κ ρ : Type} (tr : List (EMOp κ ρ)) {st : EMState κ}
    {i N c : Nat} (inv : TrackInv st i N c) :
    TrackInv (execTrace st tr).1 i N (c + ((execTrace st tr).2).count i) := by
  induction tr generalizing st c with
  | nil => simpa [execTrace] using inv
  | cons op tr ih =>
    have h2 := ih (trackInv_step op inv)
    simp only [execTrace, List.count_append]
    rw [← Nat.add_assoc]
    exact h2

end EvMgr

open EvMgr in
/-- Claim C1: for every sequence of Register/Trigger/Cancel calls, a
handler registered with shot limit `N > 0` executes successfully at most
`N` times, and it is absent from its bucket by the time the Trigger call
during which its `callCount` reached `N` returns.  Formally: start from
any state whose stored ids are below the id counter (true of every
reachable state), perform any register call with `shots = N` (issuing id
`i`), then run an arbitrary continuation trace: the number of successful
executions attributed to `i` never exceeds `N`, and whenever it equals `N`
the id is no longer stored anywhere — so any subsequent Trigger executes
it zero times (instantiate the same statement with a longer trace).
`N < 2^32` reflects the `uint32` type of `shots`. -/
theorem c1_shot_limit {κ ρ : Type} (st₀ : EMState κ) (h₀ : IdsBounded st₀)
    (op : EMOp κ ρ) (N : Nat) (hreg : regShots op = some N) (hN : 0 < N)
    (hN32 : N < 4294967296) (tr : List (EMOp κ ρ)) :
    ((execTrace (EMStep st₀ op).1 tr).2).count st₀.nextHandlerId ≤ N ∧
    (((execTrace (EMStep st₀ op).1 tr).2).count st₀.nextHandlerId = N →
      occCount (execTrace (EMStep st₀ op).1 tr).1 st₀.nextHandlerId = 0) := by
  obtain ⟨rec, hsh, hcc, ⟨hperm, hnext⟩, hex⟩ := emStep_register_shape st₀ hreg
  have hfresh : (stateIds st₀).count st₀.nextHandlerId = 0 := by
    rw [List.count_eq_zero]
    intro hmem
    exact absurd (h₀ _ hmem) (lt_irrefl _)
  have hperm_ids : List.Perm (stateIds (EMStep st₀ op).1)
      (st₀.nextHandlerId :: stateIds st₀) := hperm.map Prod.fst
  have inv₁ : TrackInv (EMStep st₀ op).1 st₀.nextHandlerId N 0 := by
    refine ⟨?_, ?_, ?_, ?_, ?_, Nat.zero_le N, hN, hN32⟩
    · intro j hj
      rw [hnext]
      rcases List.mem_cons.mp (hperm_ids.mem_iff.mp hj) with rfl | hmem
      · omega
      · have := h₀ j hmem
        omega
    · rw [hnext]
      omega
    · rw [occCount_def, hperm_ids.count_eq, List.count_cons]
      simp [hfresh]
    · intro p hp hpi
      rcases List.mem_cons.mp (hperm.mem_iff.mp hp) with rfl | hmem
      · exact ⟨hsh, hcc⟩
      · exfalso
        have hmem' : st₀.nextHandlerId ∈ stateIds st₀ := List.mem_map.mpr ⟨p, hmem, hpi⟩
        rw [List.count_eq_zero] at hfresh
        exact hfresh hmem'
    · intro _
      exact hN
  have hfinal := trackInv_trace tr inv₁
  rw [Nat.zero_add] at hfinal
  refine ⟨hfinal.c_le, ?_⟩
  intro hcN
  rw [occCount_def, List.count_eq_zero]
  intro hmem
  obtain ⟨p, hp, hpi⟩ := List.mem_map.mp hmem
  have := hfinal.rec_lt ⟨p, hp, hpi⟩
  omega

open EvMgr in
/-- Witness for C1: registering a one-shot handler on the fresh manager
and triggering its key twice; the handler executes exactly once and the
second trigger finds it gone. -/
theorem c1_witness :
    IdsBounded (emNew (κ := Unit)) ∧
    regShots (EMOp.registerGlobal 0 1 () 1 (-1) : EMOp Unit Unit) = some 1 ∧
    (((execTrace (EMStep (emNew (κ := Unit))
          (EMOp.registerGlobal 0 1 () 1 (-1) : EMOp Unit Unit)).1
        ([EMOp.triggerGlobal 0 1 (fun _ => true),
          EMOp.triggerGlobal 0 1 (fun _ => true)] : List (EMOp Unit Unit))).2).count
        (emNew (κ := Unit)).nextHandlerId ≤ 1 ∧
     (((execTrace (EMStep (emNew (κ := Unit))
          (EMOp.registerGlobal 0 1 () 1 (-1) : EMOp Unit Unit)).1
        ([EMOp.triggerGlobal 0 1 (fun _ => true),
          EMOp.triggerGlobal 0 1 (fun _ => true)] : List (EMOp Unit Unit))).2).count
        (emNew (κ := Unit)).nextHandlerId = 1 →
      occCount (execTrace (EMStep (emNew (κ := Unit))
          (EMOp.registerGlobal 0 1 () 1 (-1) : EMOp Unit Unit)).1
        ([EMOp.triggerGlobal 0 1 (fun _ => true),
          EMOp.triggerGlobal 0 1 (fun _ => true)] : List (EMOp Unit Unit))).1
        (emNew (κ := Unit)).nextHandlerId = 0)) := by
  refine ⟨by decide, rfl, ?_⟩
  exact c1_shot_limit (emNew (κ := Unit)) (by decide)
    (EMOp.registerGlobal 0 1 () 1 (-1)) 1 rfl (by decide) (by decide)
    ([EMOp.triggerGlobal 0 1 (fun _ => true),
      EMOp.triggerGlobal 0 1 (fun _ => true)] : List (EMOp Unit Unit))

/-! ## C9: observational equivalence of the two TimedEventManager variants -/

namespace TimedMgr

theorem swapPopIdx_perm (l : List Nat) (x : Nat) :
    List.Perm (swapPopIdx l x) (l.erase x) := by
  induction l with
  | nil => simp [swapPopIdx]
  | cons a t ih =>
    by_cases hax : a = x
    · subst hax
      have hmem : a ∈ a :: t := List.mem_cons_self a t
      rw [swapPopIdx, dif_pos hmem, List.indexOf_cons_self, List.erase_cons_head]
      cases t with
      | nil => simp
      | cons b t' =>
        rw [List.getLast_cons (List.cons_ne_nil b t')]
        rw [List.set_cons_zero, List.dropLast_cons₂]
        have hsplit := List.dropLast_append_getLast (l := b :: t') (List.cons_ne_nil b t')
        have h1 : List.Perm ((b :: t').getLast (List.cons_ne_nil b t') :: (b :: t').dropLast)
            ((b :: t').dropLast ++ [(b :: t').getLast (List.cons_ne_nil b t')]) :=
          (List.perm_append_singleton _ _).symm
        rw [hsplit] at h1
        exact h1
    · by_cases hxt : x ∈ t
      · have hmem : x ∈ a :: t := List.mem_cons_of_mem a hxt
        have htne : t ≠ [] := List.ne_nil_of_mem hxt
        rw [swapPopIdx, dif_pos hmem,
          List.indexOf_cons_ne t (fun hh => hax hh)]
        rw [List.getLast_cons htne]
        rw [List.set_cons_succ]
        have hwne : t.set (List.indexOf x t) (t.getLast htne) ≠ [] := by
          intro hh
          have hlen := congrArg List.length hh
          simp at hlen
          exact htne hlen
        have hdl : (a :: t.set (List.indexOf x t) (t.getLast htne)).dropLast =
            a :: (t.set (List.indexOf x t) (t.getLast htne)).dropLast := by
          cases hw : t.set (List.indexOf x t) (t.getLast htne) with
          | nil => exact absurd hw hwne
          | cons c w' => rw [List.dropLast_cons₂]
        rw [hdl]
        have hswap : swapPopIdx t x = (t.set (List.indexOf x t) (t.getLast htne)).dropLast := by
          rw [swapPopIdx, dif_pos hxt]
        have her : (a :: t).erase x = a :: t.erase x :=
          List.erase_cons_tail (by simp [hax])
        rw [her, ← hswap]
        exact List.Perm.cons a (ih)
      · have hmem : x ∉ a :: t := by
          simp only [List.mem_cons, not_or]
          exact ⟨fun hh => hax hh.symm, hxt⟩
        rw [swapPopIdx, dif_neg hmem, List.erase_of_not_mem hmem]

/-- The specification shared by the two index-removal disciplines: on a
duplicate-free list, removal produces a duplicate-free list holding
exactly the other elements, and removing an absent element is the
identity. -/
def GoodRm (rm : List Nat → Nat → List Nat) : Prop :=
  (∀ l x, l.Nodup → (rm l x).Nodup ∧ (∀ y, y ∈ rm l x ↔ y ∈ l ∧ y ≠ x)) ∧
  (∀ l x, x ∉ l → rm l x = l)

theorem goodRm_erase : GoodRm eraseIdx := by
  constructor
  · intro l x hnd
    refine ⟨hnd.erase x, fun y => ?_⟩
    rw [eraseIdx, hnd.mem_erase_iff]
    tauto
  · intro l x hx
    exact List.erase_of_not_mem hx

theorem goodRm_swapPop : GoodRm swapPopIdx := by
  constructor
  · intro l x hnd
    have hperm := swapPopIdx_perm l x
    refine ⟨hperm.nodup_iff.mpr (hnd.erase x), fun y => ?_⟩
    rw [hperm.mem_iff, hnd.mem_erase_iff]
    tauto
  · intro l x hx
    rw [swapPopIdx, dif_neg hx]

end TimedMgr

namespace Assoc

variable {α : Type} {β : Type} {γ : Type} [DecidableEq α]

theorem appendAt_find? (o : List (α × List γ)) (g : α) (x : γ) (g' : α) :
    find? (appendAt o g x) g' =
      if g' = g then some ((find? o g).getD [] ++ [x]) else find? o g' := by
  induction o with
  | nil =>
    by_cases hg : g' = g
    · simp [appendAt, find?, hg]
    · have hg2 : ¬(g = g') := fun hh => hg hh.symm
      simp [appendAt, find?, hg, hg2]
  | cons p rest ih =>
    by_cases hp : p.1 = g
    · by_cases hg : g' = g
      · simp [appendAt, find?, hp, hg]
      · have hne : ¬(p.1 = g') := fun hh => hg (hh.symm.trans hp)
        have hpg : ¬(g = g') := fun hh => hg hh.symm
        simp [appendAt, if_pos hp, find?, hne, hpg, hg]
    · by_cases hpg : p.1 = g'
      · have hg : ¬(g' = g) := fun hh => hp (hpg.trans hh)
        simp [appendAt, find?, hp, hpg, hg]
      · simp [appendAt, find?, hp, hpg, ih]

theorem appendAt_keys_of_found {o : List (α × List γ)} {g : α} (x : γ)
    (h : (find? o g).isSome) :
    (appendAt o g x).map Prod.fst = o.map Prod.fst := by
  induction o with
  | nil => simp [find?] at h
  | cons p rest ih =>
    by_cases hp : p.1 = g
    · simp [appendAt, hp]
    · simp only [find?, if_neg hp] at h
      simp [appendAt, hp, ih h]

theorem appendAt_keys_of_absent {o : List (α × List γ)} {g : α} (x : γ)
    (h : find? o g = none) :
    (appendAt o g x).map Prod.fst = o.map Prod.fst ++ [g] := by
  induction o with
  | nil => simp [appendAt]
  | cons p rest ih =>
    by_cases hp : p.1 = g
    · simp [find?, hp] at h
    · simp only [find?, if_neg hp] at h
      simp [appendAt, hp, ih h]

theorem find?_eraseKey_self_nodup {m : List (α × β)} {k : α}
    (hnd : (m.map Prod.fst).Nodup) :
    find? (eraseKey m k) k = none := by
  rw [eraseKey_eq_filter hnd, find?_eq_none_iff]
  intro p hp
  have := (List.mem_filter.mp hp).2
  simp only [Bool.not_eq_true', decide_eq_false_iff_not] at this
  exact this

theorem set_self {m : List (α × β)} {k : α} {v : β}
    (h : find? m k = some v) : set m k v = m := by
  induction m with
  | nil => rfl
  | cons p rest ih =>
    by_cases hp : p.1 = k
    · simp only [find?, if_pos hp, Option.some.injEq] at h
      rw [set, if_pos hp, ← h, ← hp]
    · simp only [find?, if_neg hp] at h
      simp [set, hp, ih h]

theorem foldl_eraseKey_filter (l : List α) (m : List (α × β))
    (hnd : (m.map Prod.fst).Nodup) :
    l.foldl (fun es i => eraseKey es i) m =
      m.filter fun p => !decide (p.1 ∈ l) := by
  induction l generalizing m with
  | nil =>
    simp only [List.foldl_nil]
    have : ∀ p ∈ m, (!decide (p.1 ∈ ([] : List α))) = true := by
      intro p hp; simp
    rw [List.filter_eq_self.mpr this]
  | cons i l ih =>
    rw [List.foldl_cons, eraseKey_eq_filter hnd]
    have hnd' : ((m.filter fun p => !decide (p.1 = i)).map Prod.fst).Nodup :=
      ((List.filter_sublist m).map Prod.fst).nodup hnd
    rw [ih _ hnd', List.filter_filter]
    apply List.filter_congr
    intro p hp
    by_cases hpi : p.1 = i <;> simp [hpi, List.mem_cons]

end Assoc

namespace Assoc

theorem find?_mem {α β : Type} [DecidableEq α] {m : List (α × β)} {k : α} {v : β}
    (h : find? m k = some v) : (k, v) ∈ m := by
  induction m with
  | nil => simp [find?] at h
  | cons p rest ih =>
    by_cases hp : p.1 = k
    · simp only [find?, if_pos hp, Option.some.injEq] at h
      subst h
      have hpp : (k, p.2) = p := by rw [← hp]
      rw [hpp]
      exact List.mem_cons_self p rest
    · simp only [find?, if_neg hp] at h
      exact List.mem_cons_of_mem p (ih h)

end Assoc

namespace TimedMgr

variable {κ : Type}

/-- Two lists holding the same elements (the observable content of an
unordered index). -/
def SetEq {α : Type} (l₁ l₂ : List α) : Prop := ∀ x, x ∈ l₁ ↔ x ∈ l₂

/-- Membership of an id in the per-object index entry of a GUID. -/
def memInner (o : List (Nat × List Nat)) (g x : Nat) : Prop :=
  match Assoc.find? o g with
  | none => False
  | some l => x ∈ l

/-- The id's stored record is a GLOBAL one. -/
def isGlobalRec (es : List (Nat × TimedEvent κ)) (x : Nat) : Prop :=
  match Assoc.find? es x with
  | none => False
  | some ev => ev.objectType = TimedEventObjectType.GLOBAL

/-- The id's stored record is object-bound to the given GUID. -/
def isObjRec (es : List (Nat × TimedEvent κ)) (g x : Nat) : Prop :=
  match Assoc.find? es x with
  | none => False
  | some ev => ev.objectType ≠ TimedEventObjectType.GLOBAL ∧ ev.objectGuid = g

/-- The simulation relation between the two variants: identical record
stores and id counters; the indices agree as sets. -/
structure StRel (s₁ s₂ : TEMState κ) : Prop where
  events_eq : s₁.events = s₂.events
  next_eq : s₁.nextEventId = s₂.nextEventId
  glob : SetEq s₁.globalEvents s₂.globalEvents
  obj_mem : ∀ g x : Nat, memInner s₁.objectEvents g x ↔ memInner s₂.objectEvents g x

/-- Per-variant wellformedness, true of every reachable state. -/
structure WFst (s : TEMState κ) : Prop where
  ek_nodup : (s.events.map Prod.fst).Nodup
  g_nodup : s.globalEvents.Nodup
  ok_nodup : (s.objectEvents.map Prod.fst).Nodup
  inner_nodup : ∀ p ∈ s.objectEvents, (p.2 : List Nat).Nodup
  inner_ne : ∀ p ∈ s.objectEvents, p.2 ≠ []
  g_bound : ∀ i ∈ s.globalEvents, i < s.nextEventId
  o_bound : ∀ p ∈ s.objectEvents, ∀ i ∈ p.2, i < s.nextEventId
  e_bound : ∀ p ∈ s.events, p.1 < s.nextEventId

theorem memInner_isSome_iff {o : List (Nat × List Nat)} {g : Nat}
    (hne : ∀ p ∈ o, p.2 ≠ []) :
    (Assoc.find? o g).isSome ↔ ∃ x, memInner o g x := by
  cases h : Assoc.find? o g with
  | none => simp [memInner, h]
  | some l =>
    simp only [Option.isSome_some, true_iff]
    have hl : l ≠ [] := hne (g, l) (Assoc.find?_mem h)
    obtain ⟨x, hx⟩ := List.exists_mem_of_ne_nil l hl
    exact ⟨x, by simp [memInner, h, hx]⟩

theorem removeEventWith_objectEvents (rm : List Nat → Nat → List Nat)
    (s : TEMState κ) (e : Nat) :
    ((RemoveEventWith rm s e).2).objectEvents =
      match Assoc.find? s.events e with
      | none => s.objectEvents
      | some ev =>
        if ev.objectType = TimedEventObjectType.GLOBAL then s.objectEvents
        else
          match Assoc.find? s.objectEvents ev.objectGuid with
          | none => s.objectEvents
          | some l =>
            if rm l e = [] then Assoc.eraseKey s.objectEvents ev.objectGuid
            else Assoc.set s.objectEvents ev.objectGuid (rm l e) := by
  unfold RemoveEventWith
  cases Assoc.find? s.events e with
  | none => rfl
  | some ev =>
    dsimp only
    by_cases hg : ev.objectType = TimedEventObjectType.GLOBAL
    · simp [hg]
    · simp only [if_neg hg]
      cases Assoc.find? s.objectEvents ev.objectGuid with
      | none => rfl
      | some l =>
        dsimp only
        by_cases he : rm l e = [] <;> simp [he]

theorem removeEventWith_globalEvents (rm : List Nat → Nat → List Nat)
    (s : TEMState κ) (e : Nat) :
    ((RemoveEventWith rm s e).2).globalEvents =
      match Assoc.find? s.events e with
      | none => s.globalEvents
      | some ev =>
        if ev.objectType = TimedEventObjectType.GLOBAL then rm s.globalEvents e
        else s.globalEvents := by
  unfold RemoveEventWith
  cases Assoc.find? s.events e with
  | none => rfl
  | some ev =>
    dsimp only
    by_cases hg : ev.objectType = TimedEventObjectType.GLOBAL
    · simp [hg]
    · simp only [if_neg hg]
      cases Assoc.find? s.objectEvents ev.objectGuid with
      | none => rfl
      | some l =>
        dsimp only
        by_cases he : rm l e = [] <;> simp [he]

theorem removeEventWith_find_self (rm : List Nat → Nat → List Nat)
    (s : TEMState κ) (e : Nat) (hknd : (s.events.map Prod.fst).Nodup) :
    Assoc.find? ((RemoveEventWith rm s e).2).events e = none := by
  rw [removeEventWith_events]
  cases h : Assoc.find? s.events e with
  | none => exact h
  | some ev => exact Assoc.find?_eraseKey_self_nodup hknd

theorem removeEventWith_find_stable (rm : List Nat → Nat → List Nat)
    (s : TEMState κ) (e : Nat) {x : Nat} (hx : e ≠ x) :
    Assoc.find? ((RemoveEventWith rm s e).2).events x = Assoc.find? s.events x := by
  rw [removeEventWith_events]
  cases h : Assoc.find? s.events e with
  | none => rfl
  | some ev => exact Assoc.find?_eraseKey_ne _ hx

end TimedMgr

namespace Assoc

variable {α : Type} {β : Type} [DecidableEq α]

theorem eraseKey_sublist (m : List (α × β)) (k : α) :
    List.Sublist (eraseKey m k) m := by
  induction m with
  | nil => simp [eraseKey]
  | cons p rest ih =>
    by_cases hp : p.1 = k
    · simp only [eraseKey, if_pos hp]
      exact List.sublist_cons_self p rest
    · simp only [eraseKey, if_neg hp]
      exact ih.cons₂ p

theorem mem_set {m : List (α × β)} {k : α} {v : β} {q : α × β}
    (hnd : (m.map Prod.fst).Nodup) (hq : q ∈ set m k v) :
    q = (k, v) ∨ q ∈ m := by
  rw [set_eq_map_of_nodup v hnd] at hq
  obtain ⟨p, hp, hq'⟩ := List.mem_map.mp hq
  by_cases hpk : p.1 = k
  · left; rw [← hq', if_pos hpk]
  · right; rw [← hq', if_neg hpk]; exact hp

end Assoc

namespace TimedMgr

variable {κ : Type}

theorem tickRecord_objectType (d : Nat) (ev : TimedEvent κ) :
    (tickRecord d ev).objectType = ev.objectType := by
  unfold tickRecord
  dsimp only
  split
  · split <;> rfl
  · rfl

theorem tickRecord_objectGuid (d : Nat) (ev : TimedEvent κ) :
    (tickRecord d ev).objectGuid = ev.objectGuid := by
  unfold tickRecord
  dsimp only
  split
  · split <;> rfl
  · rfl

theorem find?_tickIf (ids : List Nat) (d : Nat)
    (evs : List (Nat × TimedEvent κ)) (x : Nat) :
    Assoc.find? (evs.map (tickIf ids d)) x =
      (Assoc.find? evs x).map (fun ev => if x ∈ ids then tickRecord d ev else ev) := by
  induction evs with
  | nil => simp [Assoc.find?]
  | cons p rest ih =>
    have hfst : (tickIf ids d p).1 = p.1 := by
      unfold tickIf; split <;> rfl
    by_cases hx : p.1 = x
    · rw [List.map_cons]
      rw [show Assoc.find? (tickIf ids d p :: rest.map (tickIf ids d)) x =
            some (tickIf ids d p).2 by simp [Assoc.find?, hfst, hx]]
      rw [show Assoc.find? (p :: rest) x = some p.2 by simp [Assoc.find?, hx]]
      unfold tickIf
      by_cases hm : p.1 ∈ ids
      · simp [hm, hx ▸ hm]
      · simp [hm, hx ▸ hm]
    · rw [List.map_cons]
      rw [show Assoc.find? (tickIf ids d p :: rest.map (tickIf ids d)) x =
            Assoc.find? (rest.map (tickIf ids d)) x by simp [Assoc.find?, hfst, hx]]
      rw [show Assoc.find? (p :: rest) x = Assoc.find? rest x by simp [Assoc.find?, hx]]
      exact ih

/-- `RemoveEvent` preserves the wellformedness of a state, for any good
removal discipline. -/
theorem removeEventWith_WF {rm : List Nat → Nat → List Nat} (hrm : GoodRm rm)
    (s : TEMState κ) (e : Nat) (hwf : WFst s) :
    WFst ((RemoveEventWith rm s e).2) := by
  obtain ⟨hek, hg, hok, hin, hine, hgb, hob, heb⟩ := hwf
  unfold RemoveEventWith
  cases hfe : Assoc.find? s.events e with
  | none => exact ⟨hek, hg, hok, hin, hine, hgb, hob, heb⟩
  | some ev =>
    dsimp only
    by_cases hgl : ev.objectType = TimedEventObjectType.GLOBAL
    · rw [if_pos hgl]
      refine ⟨(Assoc.eraseKey_keys_sublist s.events e).nodup hek,
              (hrm.1 s.globalEvents e hg).1, hok, hin, hine, ?_, hob, ?_⟩
      · intro i hi
        exact hgb i (((hrm.1 s.globalEvents e hg).2 i).mp hi).1
      · intro p hp
        exact heb p ((Assoc.eraseKey_sublist s.events e).subset hp)
    · rw [if_neg hgl]
      cases hfo : Assoc.find? s.objectEvents ev.objectGuid with
      | none =>
        refine ⟨(Assoc.eraseKey_keys_sublist s.events e).nodup hek,
                hg, hok, hin, hine, hgb, hob, ?_⟩
        intro p hp
        exact heb p ((Assoc.eraseKey_sublist s.events e).subset hp)
      | some l =>
        dsimp only
        have hlmem : (ev.objectGuid, l) ∈ s.objectEvents := Assoc.find?_mem hfo
        have hlnd : l.Nodup := hin _ hlmem
        by_cases hemp : rm l e = []
        · rw [if_pos hemp]
          refine ⟨(Assoc.eraseKey_keys_sublist s.events e).nodup hek, hg,
                  (Assoc.eraseKey_keys_sublist s.objectEvents ev.objectGuid).nodup hok,
                  ?_, ?_, hgb, ?_, ?_⟩
          · intro p hp
            exact hin p ((Assoc.eraseKey_sublist s.objectEvents ev.objectGuid).subset hp)
          · intro p hp
            exact hine p ((Assoc.eraseKey_sublist s.objectEvents ev.objectGuid).subset hp)
          · intro p hp
            exact hob p ((Assoc.eraseKey_sublist s.objectEvents ev.objectGuid).subset hp)
          · intro p hp
            exact heb p ((Assoc.eraseKey_sublist s.events e).subset hp)
        · rw [if_neg hemp]
          refine ⟨(Assoc.eraseKey_keys_sublist s.events e).nodup hek, hg, ?_, ?_, ?_, hgb, ?_, ?_⟩
          · rw [Assoc.set_keys]
            exact hok
          · intro p hp
            rcases Assoc.mem_set hok hp with hq | hq
            · rw [hq]
              exact (hrm.1 l e hlnd).1
            · exact hin p hq
          · intro p hp
            rcases Assoc.mem_set hok hp with hq | hq
            · rw [hq]
              exact hemp
            · exact hine p hq
          · intro p hp
            rcases Assoc.mem_set hok hp with hq | hq
            · rw [hq]
              intro i hi
              exact hob _ hlmem i (((hrm.1 l e hlnd).2 i).mp hi).1
            · exact hob p hq
          · intro p hp
            exact heb p ((Assoc.eraseKey_sublist s.events e).subset hp)

end TimedMgr

namespace TimedMgr

variable {κ : Type}

/-- The effect of one `RemoveEvent` on the global index, as a membership
characterization. -/
theorem removeEventWith_glob_mem {rm : List Nat → Nat → List Nat} (hrm : GoodRm rm)
    (s : TEMState κ) (e : Nat) (hwf : WFst s) (x : Nat) :
    x ∈ ((RemoveEventWith rm s e).2).globalEvents ↔
      (x ∈ s.globalEvents ∧ ¬(x = e ∧ isGlobalRec s.events x)) := by
  rw [removeEventWith_globalEvents]
  cases hfe : Assoc.find? s.events e with
  | none =>
    have hcon : ¬(x = e ∧ isGlobalRec s.events x) := by
      rintro ⟨hx, hrec⟩
      subst hx
      simp [isGlobalRec, hfe] at hrec
    tauto
  | some ev =>
    dsimp only
    by_cases hgl : ev.objectType = TimedEventObjectType.GLOBAL
    · rw [if_pos hgl]
      rw [(hrm.1 s.globalEvents e hwf.g_nodup).2 x]
      by_cases hx : x = e
      · subst hx
        simp only [ne_eq, not_true_eq_false, and_false, false_iff]
        rintro ⟨hxg, hcon⟩
        exact hcon ⟨by simp, by simp only [isGlobalRec, hfe]; exact hgl⟩
      · simp [hx]
    · rw [if_neg hgl]
      have hcon : ¬(x = e ∧ isGlobalRec s.events x) := by
        rintro ⟨hx, hrec⟩
        subst hx
        simp only [isGlobalRec, hfe] at hrec
        exact hgl hrec
      tauto

/-- The effect of one `RemoveEvent` on the per-object index, as a
membership characterization. -/
theorem removeEventWith_obj_mem {rm : List Nat → Nat → List Nat} (hrm : GoodRm rm)
    (s : TEMState κ) (e : Nat) (hwf : WFst s) (g x : Nat) :
    memInner ((RemoveEventWith rm s e).2).objectEvents g x ↔
      (memInner s.objectEvents g x ∧ ¬(x = e ∧ isObjRec s.events g x)) := by
  rw [removeEventWith_objectEvents]
  cases hfe : Assoc.find? s.events e with
  | none =>
    have hcon : ¬(x = e ∧ isObjRec s.events g x) := by
      rintro ⟨hx, hrec⟩
      subst hx
      simp [isObjRec, hfe] at hrec
    tauto
  | some ev =>
    dsimp only
    by_cases hgl : ev.objectType = TimedEventObjectType.GLOBAL
    · rw [if_pos hgl]
      have hcon : ¬(x = e ∧ isObjRec s.events g x) := by
        rintro ⟨hx, hrec⟩
        subst hx
        simp only [isObjRec, hfe] at hrec
        exact hrec.1 hgl
      tauto
    · rw [if_neg hgl]
      cases hfo : Assoc.find? s.objectEvents ev.objectGuid with
      | none =>
        dsimp only
        by_cases hgg : g = ev.objectGuid
        · subst hgg
          simp [memInner, hfo]
        · have hcon : ¬(x = e ∧ isObjRec s.events g x) := by
            rintro ⟨hx, hrec⟩
            subst hx
            simp only [isObjRec, hfe] at hrec
            exact hgg hrec.2.symm
          tauto
      | some l =>
        dsimp only
        have hlmem : (ev.objectGuid, l) ∈ s.objectEvents := Assoc.find?_mem hfo
        have hlnd : l.Nodup := hwf.inner_nodup _ hlmem
        by_cases hemp : rm l e = []
        · rw [if_pos hemp]
          by_cases hgg : g = ev.objectGuid
          · subst hgg
            simp only [memInner, Assoc.find?_eraseKey_self_nodup hwf.ok_nodup, hfo,
              false_iff]
            rintro ⟨hxl, hcon⟩
            by_cases hx : x = e
            · exact hcon ⟨hx, by rw [hx]; simp only [isObjRec, hfe]; exact ⟨hgl, by trivial⟩⟩
            · have hx' : x ∈ rm l e := ((hrm.1 l e hlnd).2 x).mpr ⟨hxl, hx⟩
              rw [hemp] at hx'
              simp at hx'
          · have hstable : Assoc.find? (Assoc.eraseKey s.objectEvents ev.objectGuid) g =
                Assoc.find? s.objectEvents g :=
              Assoc.find?_eraseKey_ne _ (fun hh => hgg hh.symm)
            have hcon : ¬(x = e ∧ isObjRec s.events g x) := by
              rintro ⟨hx, hrec⟩
              subst hx
              simp only [isObjRec, hfe] at hrec
              exact hgg hrec.2.symm
            simp only [memInner, hstable]
            tauto
        · rw [if_neg hemp]
          by_cases hgg : g = ev.objectGuid
          · subst hgg
            have hset : Assoc.find? (Assoc.set s.objectEvents ev.objectGuid (rm l e))
                ev.objectGuid = some (rm l e) :=
              Assoc.find?_set_self _ hfo
            simp only [memInner, hset, hfo]
            rw [(hrm.1 l e hlnd).2 x]
            by_cases hx : x = e
            · subst hx
              simp only [ne_eq, not_true_eq_false, and_false, false_iff]
              rintro ⟨hxl, hcon⟩
              exact hcon ⟨by trivial, by simp only [isObjRec, hfe]; exact ⟨hgl, by trivial⟩⟩
            · simp [hx]
          · have hstable : Assoc.find? (Assoc.set s.objectEvents ev.objectGuid (rm l e)) g =
                Assoc.find? s.objectEvents g :=
              Assoc.find?_set_ne _ _ (fun hh => hgg hh.symm)
            have hcon : ¬(x = e ∧ isObjRec s.events g x) := by
              rintro ⟨hx, hrec⟩
              subst hx
              simp only [isObjRec, hfe] at hrec
              exact hgg hrec.2.symm
            simp only [memInner, hstable]
            tauto

end TimedMgr

namespace TimedMgr

variable {κ : Type}

theorem foldRemove_WF {rm : List Nat → Nat → List Nat} (hrm : GoodRm rm)
    (R : List Nat) (s : TEMState κ) (hwf : WFst s) :
    WFst (R.foldl (fun s i => (RemoveEventWith rm s i).2) s) := by
  induction R generalizing s with
  | nil => exact hwf
  | cons i R ih =>
    simp only [List.foldl_cons]
    exact ih _ (removeEventWith_WF hrm s i hwf)

/-- Batch removal: membership characterization of the global index. -/
theorem foldRemove_glob_mem {rm : List Nat → Nat → List Nat} (hrm : GoodRm rm)
    (R : List Nat) (s : TEMState κ) (hwf : WFst s) (x : Nat) :
    x ∈ (R.foldl (fun s i => (RemoveEventWith rm s i).2) s).globalEvents ↔
      (x ∈ s.globalEvents ∧ ¬(x ∈ R ∧ isGlobalRec s.events x)) := by
  induction R generalizing s with
  | nil => simp
  | cons e R ih =>
    simp only [List.foldl_cons]
    rw [ih ((RemoveEventWith rm s e).2) (removeEventWith_WF hrm s e hwf),
        removeEventWith_glob_mem hrm s e hwf x]
    by_cases hx : x = e
    · subst hx
      have hrec : isGlobalRec ((RemoveEventWith rm s x).2).events x ↔ False := by
        simp [isGlobalRec, removeEventWith_find_self rm s x hwf.ek_nodup]
      simp only [List.mem_cons, hrec, and_false, not_false_iff, and_true]
      tauto
    · have hstab : isGlobalRec ((RemoveEventWith rm s e).2).events x ↔
          isGlobalRec s.events x := by
        unfold isGlobalRec
        rw [removeEventWith_find_stable rm s e (fun hh => hx hh.symm)]
      simp only [List.mem_cons, hstab]
      tauto

/-- Batch removal: membership characterization of the per-object index. -/
theorem foldRemove_obj_mem {rm : List Nat → Nat → List Nat} (hrm : GoodRm rm)
    (R : List Nat) (s : TEMState κ) (hwf : WFst s) (g x : Nat) :
    memInner ((R.foldl (fun s i => (RemoveEventWith rm s i).2) s).objectEvents) g x ↔
      (memInner s.objectEvents g x ∧ ¬(x ∈ R ∧ isObjRec s.events g x)) := by
  induction R generalizing s with
  | nil => simp
  | cons e R ih =>
    simp only [List.foldl_cons]
    rw [ih ((RemoveEventWith rm s e).2) (removeEventWith_WF hrm s e hwf),
        removeEventWith_obj_mem hrm s e hwf g x]
    by_cases hx : x = e
    · subst hx
      have hrec : isObjRec ((RemoveEventWith rm s x).2).events g x ↔ False := by
        simp [isObjRec, removeEventWith_find_self rm s x hwf.ek_nodup]
      simp only [List.mem_cons, hrec, and_false, not_false_iff, and_true]
      tauto
    · have hstab : isObjRec ((RemoveEventWith rm s e).2).events g x ↔
          isObjRec s.events g x := by
        unfold isObjRec
        rw [removeEventWith_find_stable rm s e (fun hh => hx hh.symm)]
      simp only [List.mem_cons, hstab]
      tauto

end TimedMgr

namespace Assoc

variable {α : Type} {γ : Type} [DecidableEq α]

theorem mem_appendAt {o : List (α × List γ)} {g : α} {x : γ} {q : α × List γ}
    (hq : q ∈ appendAt o g x) :
    q ∈ o ∨ q = (g, (find? o g).getD [] ++ [x]) := by
  induction o with
  | nil =>
    right
    simp only [appendAt, List.mem_singleton] at hq
    simp [hq, find?]
  | cons p rest ih =>
    by_cases hp : p.1 = g
    · simp only [appendAt, if_pos hp] at hq
      rcases List.mem_cons.mp hq with h | h
      · right
        simp [h, find?, hp]
      · left
        exact List.mem_cons_of_mem p h
    · simp only [appendAt, if_neg hp] at hq
      rcases List.mem_cons.mp hq with h | h
      · left
        rw [h]
        exact List.mem_cons_self p rest
      · rcases ih h with h' | h'
        · left
          exact List.mem_cons_of_mem p h'
        · right
          rw [h']
          simp [find?, hp]

end Assoc

namespace TimedMgr

variable {κ : Type}

theorem mem_getD_iff_memInner (o : List (Nat × List Nat)) (g x : Nat) :
    x ∈ (Assoc.find? o g).getD [] ↔ memInner o g x := by
  cases h : Assoc.find? o g <;> simp [memInner, h]

theorem memInner_eraseKey {o : List (Nat × List Nat)} (hnd : (o.map Prod.fst).Nodup)
    (guid g x : Nat) :
    memInner (Assoc.eraseKey o guid) g x ↔ (memInner o g x ∧ g ≠ guid) := by
  by_cases hg : g = guid
  · subst hg
    simp [memInner, Assoc.find?_eraseKey_self_nodup hnd]
  · rw [show memInner (Assoc.eraseKey o guid) g x = memInner o g x by
        unfold memInner; rw [Assoc.find?_eraseKey_ne _ (fun hh => hg hh.symm)]]
    simp [hg]

theorem setEq_nil {l₁ l₂ : List Nat} (h : SetEq l₁ l₂) : l₁ = [] ↔ l₂ = [] := by
  constructor <;> intro hn
  · rw [List.eq_nil_iff_forall_not_mem]
    intro x hx
    rw [← h x] at hx
    rw [hn] at hx
    simp at hx
  · rw [List.eq_nil_iff_forall_not_mem]
    intro x hx
    rw [h x] at hx
    rw [hn] at hx
    simp at hx

theorem setEq_filter {l₁ l₂ : List Nat} (p : Nat → Bool) (h : SetEq l₁ l₂) :
    SetEq (l₁.filter p) (l₂.filter p) := by
  intro x
  simp only [List.mem_filter]
  rw [h x]

theorem setEq_map {α β : Type} {l₁ l₂ : List α} (f : α → β) (h : ∀ x, x ∈ l₁ ↔ x ∈ l₂) :
    ∀ y, y ∈ l₁.map f ↔ y ∈ l₂.map f := by
  intro y
  simp only [List.mem_map]
  constructor
  · rintro ⟨x, hx, hy⟩
    exact ⟨x, (h x).mp hx, hy⟩
  · rintro ⟨x, hx, hy⟩
    exact ⟨x, (h x).mpr hx, hy⟩

theorem filter_not_mem_congr {R₁ R₂ : List Nat} (h : SetEq R₁ R₂)
    (evs : List (Nat × TimedEvent κ)) :
    (evs.filter fun p => !decide (p.1 ∈ R₁)) = evs.filter fun p => !decide (p.1 ∈ R₂) := by
  apply List.filter_congr
  intro p _
  have := h p.1
  by_cases hm : p.1 ∈ R₁
  · simp [hm, this.mp hm]
  · have hm₂ : p.1 ∉ R₂ := fun hh => hm (this.mpr hh)
    simp [hm, hm₂]

theorem tickIf_keys (ids : List Nat) (d : Nat) (evs : List (Nat × TimedEvent κ)) :
    (evs.map (tickIf ids d)).map Prod.fst = evs.map Prod.fst := by
  rw [List.map_map]
  apply List.map_congr_left
  intro p _
  unfold Function.comp tickIf
  split <;> rfl

theorem tickIf_congr {ids₁ ids₂ : List Nat} (d : Nat) (h : SetEq ids₁ ids₂)
    (evs : List (Nat × TimedEvent κ)) :
    evs.map (tickIf ids₁ d) = evs.map (tickIf ids₂ d) := by
  apply List.map_congr_left
  intro p _
  unfold tickIf
  by_cases hm : p.1 ∈ ids₁
  · rw [if_pos hm, if_pos ((h p.1).mp hm)]
  · rw [if_neg hm, if_neg (fun hh => hm ((h p.1).mpr hh))]

theorem WFst_tick {s : TEMState κ} (hwf : WFst s) (ids : List Nat) (d : Nat) :
    WFst { s with events := s.events.map (tickIf ids d) } := by
  obtain ⟨hek, hg, hok, hin, hine, hgb, hob, heb⟩ := hwf
  refine ⟨?_, hg, hok, hin, hine, hgb, hob, ?_⟩
  · rw [tickIf_keys]
    exact hek
  · intro p hp
    obtain ⟨q, hq, hpq⟩ := List.mem_map.mp hp
    have hfst : p.1 = q.1 := by
      rw [← hpq]
      unfold tickIf
      split <;> rfl
    rw [hfst]
    exact heb q hq

theorem firesP_congr {evs₁ evs₂ : List (Nat × TimedEvent κ)} (d : Nat)
    (h : evs₁ = evs₂) (i : Nat) : firesP evs₁ d i = firesP evs₂ d i := by
  rw [h]

end TimedMgr

namespace TimedMgr

variable {κ : Type}

theorem registerGlobalEvent_WF (s : TEMState κ) (cb : κ) (delay repeats : Nat)
    (hwf : WFst s) : WFst (RegisterGlobalEvent s cb delay repeats).2 := by
  obtain ⟨hek, hg, hok, hin, hine, hgb, hob, heb⟩ := hwf
  unfold RegisterGlobalEvent
  dsimp only
  refine ⟨?_, ?_, hok, hin, hine, ?_, ?_, ?_⟩
  · rw [List.map_append]
    refine List.Nodup.append hek (by simp) ?_
    intro a ha hb
    obtain ⟨p, hp, hpa⟩ := List.mem_map.mp ha
    have hlt : a < s.nextEventId := hpa ▸ heb p hp
    simp only [List.map_cons, List.map_nil, List.mem_singleton] at hb
    rw [hb] at hlt
    exact lt_irrefl _ hlt
  · refine List.Nodup.append hg (by simp) ?_
    intro a ha hb
    have hlt : a < s.nextEventId := hgb a ha
    simp only [List.mem_singleton] at hb
    rw [hb] at hlt
    exact lt_irrefl _ hlt
  · intro i hi
    rcases List.mem_append.mp hi with h | h
    · exact Nat.lt_succ_of_lt (hgb i h)
    · simp only [List.mem_singleton] at h
      rw [h]
      exact Nat.lt_succ_self _
  · intro p hp i hi
    exact Nat.lt_succ_of_lt (hob p hp i hi)
  · intro p hp
    rcases List.mem_append.mp hp with h | h
    · exact Nat.lt_succ_of_lt (heb p h)
    · simp only [List.mem_singleton] at h
      rw [h]
      exact Nat.lt_succ_self _

theorem registerObjectEvent_WF (s : TEMState κ) (guid : Nat) (cb : κ)
    (delay repeats : Nat) (ot : TimedEventObjectType) (hwf : WFst s) :
    WFst (RegisterObjectEvent s guid cb delay repeats ot).2 := by
  obtain ⟨hek, hg, hok, hin, hine, hgb, hob, heb⟩ := hwf
  unfold RegisterObjectEvent
  dsimp only
  refine ⟨?_, hg, ?_, ?_, ?_, ?_, ?_, ?_⟩
  · rw [List.map_append]
    refine List.Nodup.append hek (by simp) ?_
    intro a ha hb
    obtain ⟨p, hp, hpa⟩ := List.mem_map.mp ha
    have hlt : a < s.nextEventId := hpa ▸ heb p hp
    simp only [List.map_cons, List.map_nil, List.mem_singleton] at hb
    rw [hb] at hlt
    exact lt_irrefl _ hlt
  · cases hfo : Assoc.find? s.objectEvents guid with
    | none =>
      rw [Assoc.appendAt_keys_of_absent _ hfo]
      refine List.Nodup.append hok (by simp) ?_
      intro a ha hb
      simp only [List.mem_singleton] at hb
      subst hb
      obtain ⟨p, hp, hpa⟩ := List.mem_map.mp ha
      exact (Assoc.find?_eq_none_iff.mp hfo p hp) hpa
    | some l =>
      rw [Assoc.appendAt_keys_of_found _ (by rw [hfo]; rfl)]
      exact hok
  · intro q hq
    rcases Assoc.mem_appendAt hq with h | h
    · exact hin q h
    · rw [h]
      dsimp only
      cases hfo : Assoc.find? s.objectEvents guid with
      | none => simp
      | some l =>
        simp only [Option.getD_some]
        refine List.Nodup.append (hin _ (Assoc.find?_mem hfo)) (by simp) ?_
        intro a ha hb
        have hlt : a < s.nextEventId := hob _ (Assoc.find?_mem hfo) a ha
        simp only [List.mem_singleton] at hb
        rw [hb] at hlt
        exact lt_irrefl _ hlt
  · intro q hq
    rcases Assoc.mem_appendAt hq with h | h
    · exact hine q h
    · rw [h]
      simp
  · intro i hi
    exact Nat.lt_succ_of_lt (hgb i hi)
  · intro q hq i hi
    rcases Assoc.mem_appendAt hq with h | h
    · exact Nat.lt_succ_of_lt (hob q h i hi)
    · rw [h] at hi
      dsimp only at hi
      rcases List.mem_append.mp hi with h' | h'
      · rw [mem_getD_iff_memInner] at h'
        cases hfo : Assoc.find? s.objectEvents guid with
        | none => rw [memInner, hfo] at h'; exact absurd h' not_false
        | some l =>
          rw [memInner, hfo] at h'
          exact Nat.lt_succ_of_lt (hob _ (Assoc.find?_mem hfo) i h')
      · simp only [List.mem_singleton] at h'
        rw [h']
        exact Nat.lt_succ_self _
  · intro p hp
    rcases List.mem_append.mp hp with h | h
    · exact Nat.lt_succ_of_lt (heb p h)
    · simp only [List.mem_singleton] at h
      rw [h]
      exact Nat.lt_succ_self _

theorem removeObjectEvents_WF (s : TEMState κ) (guid : Nat) (hwf : WFst s) :
    WFst (RemoveObjectEvents s guid) := by
  obtain ⟨hek, hg, hok, hin, hine, hgb, hob, heb⟩ := hwf
  unfold RemoveObjectEvents
  cases hfo : Assoc.find? s.objectEvents guid with
  | none => exact ⟨hek, hg, hok, hin, hine, hgb, hob, heb⟩
  | some l =>
    dsimp only
    rw [Assoc.foldl_eraseKey_filter _ _ hek]
    refine ⟨?_, hg, ?_, ?_, ?_, hgb, ?_, ?_⟩
    · exact (((List.filter_sublist _).map Prod.fst).nodup hek)
    · exact (Assoc.eraseKey_keys_sublist _ _).nodup hok
    · intro q hq
      exact hin q ((Assoc.eraseKey_sublist _ _).subset hq)
    · intro q hq
      exact hine q ((Assoc.eraseKey_sublist _ _).subset hq)
    · intro q hq i hi
      exact hob q ((Assoc.eraseKey_sublist _ _).subset hq) i hi
    · intro p hp
      exact heb p ((List.filter_sublist _).subset hp)

theorem removeAllGlobalEvents_WF (s : TEMState κ) (hwf : WFst s) :
    WFst (RemoveAllGlobalEvents s) := by
  obtain ⟨hek, hg, hok, hin, hine, hgb, hob, heb⟩ := hwf
  unfold RemoveAllGlobalEvents
  rw [Assoc.foldl_eraseKey_filter _ _ hek]
  refine ⟨?_, by simp, hok, hin, hine, by simp, hob, ?_⟩
  · exact (((List.filter_sublist _).map Prod.fst).nodup hek)
  · intro p hp
    exact heb p ((List.filter_sublist _).subset hp)

theorem updateWith_WF {rm : List Nat → Nat → List Nat} (hrm : GoodRm rm)
    (s : TEMState κ) (d : Nat) (fire : Nat → Bool) (hwf : WFst s) :
    WFst (UpdateWith rm s d fire).1 := by
  unfold UpdateWith
  by_cases hge : s.globalEvents = []
  · rw [if_pos hge]
    exact hwf
  · rw [if_neg hge]
    dsimp only
    unfold scanIds
    rw [scanFold_char d fire s.globalEvents s.events [] [] hwf.g_nodup hwf.ek_nodup]
    dsimp only
    exact foldRemove_WF hrm _ _ (WFst_tick hwf s.globalEvents d)

theorem updateObjectEventsWith_WF {rm : List Nat → Nat → List Nat} (hrm : GoodRm rm)
    (s : TEMState κ) (guid d : Nat) (fire : Nat → Bool) (hwf : WFst s) :
    WFst (UpdateObjectEventsWith rm s guid d fire).1 := by
  unfold UpdateObjectEventsWith
  cases hfo : Assoc.find? s.objectEvents guid with
  | none => exact hwf
  | some l =>
    dsimp only
    unfold scanIds
    rw [scanFold_char d fire l s.events []
        [] (hwf.inner_nodup _ (Assoc.find?_mem hfo)) hwf.ek_nodup]
    dsimp only
    exact foldRemove_WF hrm _ _ (WFst_tick hwf l d)

/-- Every API call preserves wellformedness, for any good removal
discipline. -/
theorem teStep_WF {rm : List Nat → Nat → List Nat} (hrm : GoodRm rm)
    (s : TEMState κ) (op : TEOp κ) (hwf : WFst s) : WFst (TEStep rm s op).1 := by
  cases op with
  | registerGlobal cb delay repeats => exact registerGlobalEvent_WF s cb delay repeats hwf
  | registerObject guid cb delay repeats ot =>
    exact registerObjectEvent_WF s guid cb delay repeats ot hwf
  | removeEvent i => exact removeEventWith_WF hrm s i hwf
  | removeObjectEvents guid => exact removeObjectEvents_WF s guid hwf
  | removeAllGlobal => exact removeAllGlobalEvents_WF s hwf
  | update d fire => exact updateWith_WF hrm s d fire hwf
  | updateObject guid d fire => exact updateObjectEventsWith_WF hrm s guid d fire hwf

end TimedMgr

namespace TimedMgr

variable {κ : Type}

theorem memInner_appendAt (o : List (Nat × List Nat)) (g i g' x : Nat) :
    memInner (Assoc.appendAt o g i) g' x ↔ (memInner o g' x ∨ (g' = g ∧ x = i)) := by
  by_cases hg : g' = g
  · subst hg
    unfold memInner
    rw [Assoc.appendAt_find?, if_pos rfl]
    cases hfo : Assoc.find? o g' with
    | none => simp
    | some l => simp
  · unfold memInner
    rw [Assoc.appendAt_find?, if_neg hg]
    simp [hg]

theorem registerGlobal_rel {s₁ s₂ : TEMState κ} (hr : StRel s₁ s₂)
    (cb : κ) (delay repeats : Nat) :
    StRel (RegisterGlobalEvent s₁ cb delay repeats).2
      (RegisterGlobalEvent s₂ cb delay repeats).2 := by
  obtain ⟨hev, hnx, hgl, hob⟩ := hr
  unfold RegisterGlobalEvent
  dsimp only
  refine ⟨by rw [hev, hnx], by rw [hnx], ?_, hob⟩
  intro x
  simp only [List.mem_append, List.mem_singleton]
  rw [hgl x, hnx]

theorem registerObject_rel {s₁ s₂ : TEMState κ} (hr : StRel s₁ s₂)
    (guid : Nat) (cb : κ) (delay repeats : Nat) (ot : TimedEventObjectType) :
    StRel (RegisterObjectEvent s₁ guid cb delay repeats ot).2
      (RegisterObjectEvent s₂ guid cb delay repeats ot).2 := by
  obtain ⟨hev, hnx, hgl, hob⟩ := hr
  unfold RegisterObjectEvent
  dsimp only
  refine ⟨by rw [hev, hnx], by rw [hnx], hgl, ?_⟩
  intro g x
  rw [memInner_appendAt, memInner_appendAt, hob g x, hnx]

theorem removeEvent_rel {rm₁ rm₂ : List Nat → Nat → List Nat}
    (h₁ : GoodRm rm₁) (h₂ : GoodRm rm₂) {s₁ s₂ : TEMState κ}
    (hw₁ : WFst s₁) (hw₂ : WFst s₂) (hr : StRel s₁ s₂) (e : Nat) :
    StRel (RemoveEventWith rm₁ s₁ e).2 (RemoveEventWith rm₂ s₂ e).2 := by
  obtain ⟨hev, hnx, hgl, hob⟩ := hr
  refine ⟨?_, ?_, ?_, ?_⟩
  · rw [removeEventWith_events, removeEventWith_events, hev]
  · rw [removeEventWith_next, removeEventWith_next, hnx]
  · intro x
    rw [removeEventWith_glob_mem h₁ s₁ e hw₁ x, removeEventWith_glob_mem h₂ s₂ e hw₂ x,
        hgl x, hev]
  · intro g x
    rw [removeEventWith_obj_mem h₁ s₁ e hw₁ g x, removeEventWith_obj_mem h₂ s₂ e hw₂ g x,
        hob g x, hev]

theorem removeObjectEvents_rel {s₁ s₂ : TEMState κ} (hw₁ : WFst s₁) (hw₂ : WFst s₂)
    (hr : StRel s₁ s₂) (guid : Nat) :
    StRel (RemoveObjectEvents s₁ guid) (RemoveObjectEvents s₂ guid) := by
  obtain ⟨hev, hnx, hgl, hob⟩ := hr
  have hiso : (Assoc.find? s₁.objectEvents guid).isSome =
      (Assoc.find? s₂.objectEvents guid).isSome := by
    rw [Bool.eq_iff_iff, memInner_isSome_iff hw₁.inner_ne, memInner_isSome_iff hw₂.inner_ne]
    constructor
    · rintro ⟨x, hx⟩
      exact ⟨x, (hob guid x).mp hx⟩
    · rintro ⟨x, hx⟩
      exact ⟨x, (hob guid x).mpr hx⟩
  unfold RemoveObjectEvents
  cases hfo₁ : Assoc.find? s₁.objectEvents guid with
  | none =>
    cases hfo₂ : Assoc.find? s₂.objectEvents guid with
    | none => exact ⟨hev, hnx, hgl, hob⟩
    | some l₂ =>
      rw [hfo₁, hfo₂] at hiso
      simp at hiso
  | some l₁ =>
    cases hfo₂ : Assoc.find? s₂.objectEvents guid with
    | none =>
      rw [hfo₁, hfo₂] at hiso
      simp at hiso
    | some l₂ =>
      dsimp only
      have hl : SetEq l₁ l₂ := by
        intro x
        have hthis := hob guid x
        unfold memInner at hthis
        rw [hfo₁, hfo₂] at hthis
        exact hthis
      refine ⟨?_, hnx, hgl, ?_⟩
      · rw [Assoc.foldl_eraseKey_filter _ _ hw₁.ek_nodup,
            Assoc.foldl_eraseKey_filter _ _ hw₂.ek_nodup, hev,
            filter_not_mem_congr hl]
      · intro g x
        rw [memInner_eraseKey hw₁.ok_nodup, memInner_eraseKey hw₂.ok_nodup, hob g x]

theorem removeAllGlobal_rel {s₁ s₂ : TEMState κ} (hw₁ : WFst s₁) (hw₂ : WFst s₂)
    (hr : StRel s₁ s₂) :
    StRel (RemoveAllGlobalEvents s₁) (RemoveAllGlobalEvents s₂) := by
  obtain ⟨hev, hnx, hgl, hob⟩ := hr
  unfold RemoveAllGlobalEvents
  refine ⟨?_, hnx, ?_, hob⟩
  · dsimp only
    rw [Assoc.foldl_eraseKey_filter _ _ hw₁.ek_nodup,
        Assoc.foldl_eraseKey_filter _ _ hw₂.ek_nodup, hev,
        filter_not_mem_congr hgl]
  · intro x
    simp

end TimedMgr

namespace TimedMgr

variable {κ : Type}

theorem updateWith_rel {rm₁ rm₂ : List Nat → Nat → List Nat}
    (h₁ : GoodRm rm₁) (h₂ : GoodRm rm₂) {s₁ s₂ : TEMState κ}
    (hw₁ : WFst s₁) (hw₂ : WFst s₂) (hr : StRel s₁ s₂) (d : Nat) (fire : Nat → Bool) :
    StRel (UpdateWith rm₁ s₁ d fire).1 (UpdateWith rm₂ s₂ d fire).1 ∧
    SetEq (UpdateWith rm₁ s₁ d fire).2 (UpdateWith rm₂ s₂ d fire).2 := by
  obtain ⟨hev, hnx, hgl, hob⟩ := hr
  unfold UpdateWith
  by_cases hge : s₁.globalEvents = []
  · have hge₂ : s₂.globalEvents = [] := (setEq_nil hgl).mp hge
    rw [if_pos hge, if_pos hge₂]
    exact ⟨⟨hev, hnx, hgl, hob⟩, fun x => Iff.rfl⟩
  · have hge₂ : s₂.globalEvents ≠ [] := fun h => hge ((setEq_nil hgl).mpr h)
    rw [if_neg hge, if_neg hge₂]
    dsimp only
    unfold scanIds
    rw [scanFold_char d fire s₁.globalEvents s₁.events [] [] hw₁.g_nodup hw₁.ek_nodup,
        scanFold_char d fire s₂.globalEvents s₂.events [] [] hw₂.g_nodup hw₂.ek_nodup]
    dsimp only
    simp only [List.nil_append]
    have hticked : s₁.events.map (tickIf s₁.globalEvents d) =
        s₂.events.map (tickIf s₂.globalEvents d) := by
      rw [hev, tickIf_congr d hgl]
    have hRfun : s₁.globalEvents.filter (expiresP s₁.events d) =
        s₁.globalEvents.filter (expiresP s₂.events d) := by rw [hev]
    have hR : SetEq (s₁.globalEvents.filter (expiresP s₁.events d))
        (s₂.globalEvents.filter (expiresP s₂.events d)) := by
      rw [hRfun]
      exact setEq_filter _ hgl
    have hw₁t : WFst { s₁ with events := s₁.events.map (tickIf s₁.globalEvents d) } :=
      WFst_tick hw₁ s₁.globalEvents d
    have hw₂t : WFst { s₂ with events := s₂.events.map (tickIf s₂.globalEvents d) } :=
      WFst_tick hw₂ s₂.globalEvents d
    constructor
    · refine ⟨?_, ?_, ?_, ?_⟩
      · rw [foldRemove_events _ _ _ hw₁t.ek_nodup, foldRemove_events _ _ _ hw₂t.ek_nodup]
        dsimp only
        rw [hticked, filter_not_mem_congr hR]
      · rw [foldRemove_next, foldRemove_next]
        exact hnx
      · intro x
        rw [foldRemove_glob_mem h₁ _ _ hw₁t x, foldRemove_glob_mem h₂ _ _ hw₂t x]
        dsimp only
        rw [hgl x, hR x, hticked]
      · intro g x
        rw [foldRemove_obj_mem h₁ _ _ hw₁t g x, foldRemove_obj_mem h₂ _ _ hw₂t g x]
        dsimp only
        rw [hob g x, hR x, hticked]
    · have hfilter : s₁.globalEvents.filter (firesP s₁.events d) =
          s₁.globalEvents.filter (firesP s₂.events d) := by rw [hev]
      intro p
      rw [hfilter]
      exact setEq_map _ (setEq_filter _ hgl) p

theorem updateObject_rel {rm₁ rm₂ : List Nat → Nat → List Nat}
    (h₁ : GoodRm rm₁) (h₂ : GoodRm rm₂) {s₁ s₂ : TEMState κ}
    (hw₁ : WFst s₁) (hw₂ : WFst s₂) (hr : StRel s₁ s₂) (guid d : Nat)
    (fire : Nat → Bool) :
    StRel (UpdateObjectEventsWith rm₁ s₁ guid d fire).1
      (UpdateObjectEventsWith rm₂ s₂ guid d fire).1 ∧
    SetEq (UpdateObjectEventsWith rm₁ s₁ guid d fire).2
      (UpdateObjectEventsWith rm₂ s₂ guid d fire).2 := by
  obtain ⟨hev, hnx, hgl, hob⟩ := hr
  have hiso : (Assoc.find? s₁.objectEvents guid).isSome =
      (Assoc.find? s₂.objectEvents guid).isSome := by
    rw [Bool.eq_iff_iff, memInner_isSome_iff hw₁.inner_ne, memInner_isSome_iff hw₂.inner_ne]
    constructor
    · rintro ⟨x, hx⟩
      exact ⟨x, (hob guid x).mp hx⟩
    · rintro ⟨x, hx⟩
      exact ⟨x, (hob guid x).mpr hx⟩
  unfold UpdateObjectEventsWith
  cases hfo₁ : Assoc.find? s₁.objectEvents guid with
  | none =>
    cases hfo₂ : Assoc.find? s₂.objectEvents guid with
    | none => exact ⟨⟨hev, hnx, hgl, hob⟩, fun x => Iff.rfl⟩
    | some l₂ =>
      rw [hfo₁, hfo₂] at hiso
      simp at hiso
  | some l₁ =>
    cases hfo₂ : Assoc.find? s₂.objectEvents guid with
    | none =>
      rw [hfo₁, hfo₂] at hiso
      simp at hiso
    | some l₂ =>
      dsimp only
      have hl : SetEq l₁ l₂ := by
        intro x
        have hthis := hob guid x
        unfold memInner at hthis
        rw [hfo₁, hfo₂] at hthis
        exact hthis
      have hl₁nd : l₁.Nodup := hw₁.inner_nodup _ (Assoc.find?_mem hfo₁)
      have hl₂nd : l₂.Nodup := hw₂.inner_nodup _ (Assoc.find?_mem hfo₂)
      unfold scanIds
      rw [scanFold_char d fire l₁ s₁.events [] [] hl₁nd hw₁.ek_nodup,
          scanFold_char d fire l₂ s₂.events [] [] hl₂nd hw₂.ek_nodup]
      dsimp only
      simp only [List.nil_append]
      have hticked : s₁.events.map (tickIf l₁ d) = s₂.events.map (tickIf l₂ d) := by
        rw [hev, tickIf_congr d hl]
      have hRfun : l₁.filter (expiresP s₁.events d) = l₁.filter (expiresP s₂.events d) := by
        rw [hev]
      have hR : SetEq (l₁.filter (expiresP s₁.events d)) (l₂.filter (expiresP s₂.events d)) := by
        rw [hRfun]
        exact setEq_filter _ hl
      have hw₁t : WFst { s₁ with events := s₁.events.map (tickIf l₁ d) } :=
        WFst_tick hw₁ l₁ d
      have hw₂t : WFst { s₂ with events := s₂.events.map (tickIf l₂ d) } :=
        WFst_tick hw₂ l₂ d
      constructor
      · refine ⟨?_, ?_, ?_, ?_⟩
        · rw [foldRemove_events _ _ _ hw₁t.ek_nodup, foldRemove_events _ _ _ hw₂t.ek_nodup]
          dsimp only
          rw [hticked, filter_not_mem_congr hR]
        · rw [foldRemove_next, foldRemove_next]
          exact hnx
        · intro x
          rw [foldRemove_glob_mem h₁ _ _ hw₁t x, foldRemove_glob_mem h₂ _ _ hw₂t x]
          dsimp only
          rw [hgl x, hR x, hticked]
        · intro g x
          rw [foldRemove_obj_mem h₁ _ _ hw₁t g x, foldRemove_obj_mem h₂ _ _ hw₂t g x]
          dsimp only
          rw [hob g x, hR x, hticked]
      · have hfilter : l₁.filter (firesP s₁.events d) = l₁.filter (firesP s₂.events d) := by
          rw [hev]
        intro p
        rw [hfilter]
        exact setEq_map _ (setEq_filter _ hl) p

end TimedMgr

namespace TimedMgr

variable {κ : Type}

/-- One API call preserves the simulation relation between the two
variants and produces set-equal fired observations. -/
theorem teStep_rel {rm₁ rm₂ : List Nat → Nat → List Nat}
    (h₁ : GoodRm rm₁) (h₂ : GoodRm rm₂) {s₁ s₂ : TEMState κ}
    (hw₁ : WFst s₁) (hw₂ : WFst s₂) (hr : StRel s₁ s₂) (op : TEOp κ) :
    StRel (TEStep rm₁ s₁ op).1 (TEStep rm₂ s₂ op).1 ∧
    SetEq (TEStep rm₁ s₁ op).2 (TEStep rm₂ s₂ op).2 := by
  cases op with
  | registerGlobal cb delay repeats =>
    exact ⟨registerGlobal_rel hr cb delay repeats, fun x => Iff.rfl⟩
  | registerObject guid cb delay repeats ot =>
    exact ⟨registerObject_rel hr guid cb delay repeats ot, fun x => Iff.rfl⟩
  | removeEvent i =>
    exact ⟨removeEvent_rel h₁ h₂ hw₁ hw₂ hr i, fun x => Iff.rfl⟩
  | removeObjectEvents guid =>
    exact ⟨removeObjectEvents_rel hw₁ hw₂ hr guid, fun x => Iff.rfl⟩
  | removeAllGlobal =>
    exact ⟨removeAllGlobal_rel hw₁ hw₂ hr, fun x => Iff.rfl⟩
  | update d fire =>
    exact updateWith_rel h₁ h₂ hw₁ hw₂ hr d fire
  | updateObject guid d fire =>
    exact updateObject_rel h₁ h₂ hw₁ hw₂ hr guid d fire

/-- Whole-trace simulation: from related wellformed start states, the two
variants stay related and every call's fired observations are set-equal. -/
theorem runTrace_rel {rm₁ rm₂ : List Nat → Nat → List Nat}
    (h₁ : GoodRm rm₁) (h₂ : GoodRm rm₂) (tr : List (TEOp κ)) (s₁ s₂ : TEMState κ)
    (hw₁ : WFst s₁) (hw₂ : WFst s₂) (hr : StRel s₁ s₂) :
    StRel (runTrace rm₁ s₁ tr).1 (runTrace rm₂ s₂ tr).1 ∧
    List.Forall₂ SetEq (runTrace rm₁ s₁ tr).2 (runTrace rm₂ s₂ tr).2 := by
  induction tr generalizing s₁ s₂ with
  | nil => exact ⟨hr, List.Forall₂.nil⟩
  | cons op tr ih =>
    have hstep := teStep_rel h₁ h₂ hw₁ hw₂ hr op
    have hih := ih (TEStep rm₁ s₁ op).1 (TEStep rm₂ s₂ op).1
      (teStep_WF h₁ s₁ op hw₁) (teStep_WF h₂ s₂ op hw₂) hstep.1
    unfold runTrace
    exact ⟨hih.1, List.Forall₂.cons hstep.2 hih.2⟩

/-- The fresh manager state is wellformed. -/
theorem WFst_temNew : WFst (temNew : TEMState κ) := by
  refine ⟨?_, ?_, ?_, ?_, ?_, ?_, ?_, ?_⟩ <;> simp [temNew]

end TimedMgr

open TimedMgr in
/-- **C9.** The two `TimedEventManager` variants in the source — the ALE
one whose per-entity/global indices are hash sets pruned with
`unordered_set::erase`, and the Eclipse one whose indices are vectors
pruned by swap-with-back-and-`pop_back` — are observationally equivalent:
running any identical sequence of `RegisterGlobalEvent`,
`RegisterObjectEvent`, `RemoveEvent`, `RemoveObjectEvents`,
`RemoveAllGlobalEvents`, `Update` and `UpdateObjectEvents` calls from a
fresh manager, the two variants fire the same set of events (same ids,
same callback outcomes) on each update call, and end with the same stored
records in the same per-record state (same `elapsed`, same
`remainingRepeats`, in the same insertion order of the backing store). -/
theorem c9_variants_equiv {κ : Type} (tr : List (TEOp κ)) :
    (runALE (temNew : TEMState κ) tr).1.events = (runEcl temNew tr).1.events ∧
    List.Forall₂ SetEq (runALE (temNew : TEMState κ) tr).2 (runEcl temNew tr).2 := by
  have h := runTrace_rel goodRm_erase goodRm_swapPop tr temNew temNew
    WFst_temNew WFst_temNew ⟨rfl, rfl, fun _ => Iff.rfl, fun _ _ => Iff.rfl⟩
  exact ⟨h.1.events_eq, h.2⟩
